import Mathlib

/-!
# EAGLE: grouping, alternative-sequence construction and read spanning

A shallow embedding of parts of `eagle.c` and `vector.c`.

Conventions of the embedding.

* A C string is the list of its characters before the terminating NUL.
* A heap buffer is the list of all its bytes, the terminating NUL included.
* `int` and `size_t` values are `Int` / `Nat`; the places where the C code
  depends on a conversion between the two are spelled out in the definitions.
* A run that leaves the defined behaviour of C (an access outside an
  allocation) or that calls `exit_err` yields `Except.error`.
-/

namespace Eagle

/-! ## Data model -/

/-- The record `variant_t`: chromosome, 1-based position, reference allele, alternative allele. -/
structure variant_t where
  chr : List Char
  pos : Int
  ref : List Char
  alt : List Char
deriving DecidableEq, Repr

/-- Ways in which a run of `construct_altseq` does not return. -/
inductive fault where
  /-- The call `exit_err("Variant at %s:%d is out of bounds in reference")`. -/
  | out_of_bounds
  /-- An access outside an allocated object (undefined behaviour). -/
  | bad_access
deriving DecidableEq, Repr

deriving instance DecidableEq for Except

/-- The terminating byte of a C string. -/
def NUL : Char := Char.ofNat 0

/-! ## `construct_altseq` (eagle.c) -/

/-- The call `strdup(s)`: a fresh buffer holding the characters and the terminator. -/
def strdup (s : List Char) : List Char := s ++ [NUL]

/-- The call `memcpy(dst + doff, src + soff, n)`; both ranges must lie inside their buffers. -/
def memcpy (dst : List Char) (doff : Nat) (src : List Char) (soff n : Nat) :
    Except fault (List Char) :=
  if soff + n ≤ src.length ∧ doff + n ≤ dst.length then
    .ok (dst.take doff ++ (src.drop soff).take n ++ dst.drop (doff + n))
  else .error .bad_access

/-- The loop `while (*s1 == *s2) { s1++; s2++; pos++; }`.  The two pointers walk
the allele strings; when both point at their terminators the bytes compare equal
and the next iteration reads past both allocations. -/
def strip_common : List Char → List Char → Nat → Except fault (List Char × List Char × Nat)
  | a :: s1, b :: s2, pos =>
      if a = b then strip_common s1 s2 (pos + 1) else .ok (a :: s1, b :: s2, pos)
  | [], [], _ => .error .bad_access
  | s1, s2, pos => .ok (s1, s2, pos)

/-- The locals `altseq`, `*altseq_length` and `offset` of `construct_altseq`. -/
structure altseq_state where
  altseq : List Char
  altseq_length : Int
  offset : Int
deriving DecidableEq, Repr

/-- The selection of `var_ref`, `var_alt` and the shifted `pos` for one variant
(the `if / else if / else` on the leading `-`). -/
def select_alleles (v : variant_t) (pos : Nat) : Except fault (List Char × List Char × Nat) :=
  if v.ref.head? = some '-' then .ok ([], v.alt, pos)
  else if v.alt.head? = some '-' then .ok (v.ref, [], pos)
  else strip_common v.ref v.alt pos

/-- The splice at the end of the loop body: `memcpy` in place when `delta == 0`,
otherwise a fresh buffer of `*altseq_length + delta + 1` bytes filled by three
`memcpy` calls and terminated at the new length. -/
def splice (st : altseq_state) (pos : Nat) (var_ref var_alt : List Char) :
    Except fault altseq_state :=
  let var_ref_length := var_ref.length
  let var_alt_length := var_alt.length
  let delta : Int := (var_alt_length : Int) - (var_ref_length : Int)
  let offset := st.offset + delta
  if delta = 0 then
    match memcpy st.altseq pos var_alt 0 var_alt_length with
    | .error e => .error e
    | .ok b => .ok { altseq := b, altseq_length := st.altseq_length, offset := offset }
  else
    -- the third count is computed in size_t: a negative value is a huge length
    if st.altseq_length - pos - var_ref_length < 0 ∨ st.altseq_length + delta + 1 < 0 then
      .error .bad_access
    else
      let newalt := List.replicate (st.altseq_length + delta + 1).toNat NUL
      match memcpy newalt 0 st.altseq 0 pos with
      | .error e => .error e
      | .ok b1 =>
        match memcpy b1 pos var_alt 0 var_alt_length with
        | .error e => .error e
        | .ok b2 =>
          match memcpy b2 (pos + var_alt_length) st.altseq (pos + var_ref_length)
              (st.altseq_length - pos - var_ref_length).toNat with
          | .error e => .error e
          | .ok b3 =>
            let len := st.altseq_length + delta
            if len.toNat < b3.length then
              .ok { altseq := b3.set len.toNat NUL, altseq_length := len, offset := offset }
            else .error .bad_access

/-- One iteration of the `for` loop of `construct_altseq` for the combination entry `ci`.
The test `pos < 0 || pos > *altseq_length` is made on a `size_t`: a negative
`v->pos - 1 + offset` converts to a value above every `int`, so the second
comparison rejects it. -/
def construct_step (var_data : List variant_t) (st : altseq_state) (ci : Nat) :
    Except fault altseq_state :=
  match var_data[ci]? with
  | none => .error .bad_access
  | some v =>
    let pos : Int := v.pos - 1 + st.offset
    if pos < 0 ∨ pos > st.altseq_length then .error .out_of_bounds
    else
      match select_alleles v pos.toNat with
      | .error e => .error e
      | .ok (var_ref, var_alt, pos1) => splice st pos1 var_ref var_alt

/-- The loop `for (i = 0; i < combo->len; i++)` of `construct_altseq`. -/
def construct_loop (var_data : List variant_t) : altseq_state → List Nat → Except fault altseq_state
  | st, [] => .ok st
  | st, ci :: rest =>
    match construct_step var_data st ci with
    | .error e => .error e
    | .ok st1 => construct_loop var_data st1 rest

/-- The function `construct_altseq`: the returned buffer and the value stored in `*altseq_length`. -/
def construct_altseq (refseq : List Char) (refseq_length : Int) (combo : List Nat)
    (var_data : List variant_t) : Except fault (List Char × Int) :=
  match construct_loop var_data
      { altseq := strdup refseq, altseq_length := refseq_length, offset := 0 } combo with
  | .error e => .error e
  | .ok st => .ok (st.altseq, st.altseq_length)

/-! ### The alleles as `construct_altseq` reads them -/

/-- Length of the longest common leading segment of two strings. -/
def lcp_len : List Char → List Char → Nat
  | a :: s, b :: t => if a = b then lcp_len s t + 1 else 0
  | _, _ => 0

/-- Whether one of the two alleles of `v` starts with `-`. -/
def has_dash (v : variant_t) : Bool :=
  v.ref.head? = some '-' || v.alt.head? = some '-'

/-- Number of leading characters dropped from both alleles (none when an allele is `-`). -/
def stripped_shift (v : variant_t) : Nat :=
  if has_dash v then 0 else lcp_len v.ref v.alt

/-- The reference allele after `-` is read as empty, or the common leading segment is dropped. -/
def stripped_ref (v : variant_t) : List Char :=
  if v.ref.head? = some '-' then [] else v.ref.drop (stripped_shift v)

/-- The alternative allele after `-` is read as empty, or the common leading segment is dropped.
When the reference allele starts with `-` the alternative allele is taken whole. -/
def stripped_alt (v : variant_t) : List Char :=
  if v.ref.head? = some '-' then v.alt
  else if v.alt.head? = some '-' then [] else v.alt.drop (stripped_shift v)

/-- The change of length `|alt| - |ref|` caused by one variant. -/
def allele_delta (v : variant_t) : Int :=
  ((stripped_alt v).length : Int) - ((stripped_ref v).length : Int)

/-- The variants of `vs`, in this order, lie in a window of `refseq_length` bases
without overlap: each reference allele starts at or after `lo` (0-based), the end
of the one before, and ends inside the window. -/
def fits (refseq_length : Int) : Int → List variant_t → Prop
  | _, [] => True
  | lo, v :: vs =>
    lo ≤ v.pos - 1 ∧
    v.pos - 1 + stripped_shift v + (stripped_ref v).length ≤ refseq_length ∧
    fits refseq_length (v.pos - 1 + stripped_shift v + (stripped_ref v).length) vs

/-- The variants `var_data[combo->data[i]]` selected by a combination, in combination order. -/
def combo_variants (var_data : List variant_t) (combo : List Nat) : List variant_t :=
  combo.filterMap (fun ci => var_data[ci]?)

/-- The predicate `fits` can be evaluated. -/
instance fits_decidable (n : Int) : ∀ (lo : Int) (vs : List variant_t), Decidable (fits n lo vs)
  | _, [] => isTrue trivial
  | _, v :: vs =>
    have := fits_decidable n (v.pos - 1 + stripped_shift v + (stripped_ref v).length) vs
    inferInstanceAs (Decidable (_ ∧ _ ∧ _))

/-! ## Grouping of variants into sets: the first part of `process` (eagle.c)

`var_data` is the array of the sorted variant list, `i` and `j` are the loop
indices of the source. The BAM scan `bam_fetch_last(bam_file, chr, pos, pos)` is
a parameter `last chr pos` (the end of the last read over the position, `-1`
when there is none). Every loop carries a step budget; `none` means that the
budget ran out (or that an index left the array), `some` that the loop finished.
-/

/-- The inner loop of the branch `sharedr == 1`:
`while (j < len && strcmp(var_data[i]->chr, var_data[j]->chr) == 0)
 { if (var_data[j]->pos > i_last) break; vector_add(curr, var_data[j++]); }`. -/
def first_inner (var_data : List variant_t) (i : Nat) (i_last : Int) :
    Nat → Nat → List variant_t → Option (Nat × List variant_t)
  | 0, _, _ => none
  | fuel + 1, j, curr =>
    match var_data[j]? with
    | none => some (j, curr)
    | some vj =>
      match var_data[i]? with
      | none => none
      | some vi =>
        if vi.chr = vj.chr then
          if vj.pos > i_last then some (j, curr)
          else first_inner var_data i i_last fuel (j + 1) (curr ++ [vj])
        else some (j, curr)

/-- The outer loop of the branch `sharedr == 1`. -/
def first_outer (last : List Char → Int → Int) (var_data : List variant_t) :
    Nat → Nat → List (List variant_t) → Option (List (List variant_t))
  | 0, _, _ => none
  | fuel + 1, i, var_set =>
    match var_data[i]? with
    | none => some var_set
    | some vi =>
      let i_last := last vi.chr vi.pos
      match first_inner var_data i i_last (var_data.length + 1) (i + 1) [vi] with
      | none => none
      | some (j, curr) => first_outer last var_data fuel j (var_set ++ [curr])

/-- The inner loop of the branch `sharedr == 2`; it advances `i` together with `j`:
`while (j < len && strcmp(var_data[i]->chr, var_data[j]->chr) == 0)
 { i_last = bam_fetch_last(.., var_data[i]->chr, var_data[i]->pos, ..);
   if (var_data[j]->pos > i_last) break; vector_add(curr, var_data[j]); i++; j++; }`. -/
def any_inner (last : List Char → Int → Int) (var_data : List variant_t) :
    Nat → Nat → Nat → List variant_t → Option (Nat × Nat × List variant_t)
  | 0, _, _, _ => none
  | fuel + 1, i, j, curr =>
    match var_data[j]? with
    | none => some (i, j, curr)
    | some vj =>
      match var_data[i]? with
      | none => none
      | some vi =>
        if vi.chr = vj.chr then
          let i_last := last vi.chr vi.pos
          if vj.pos > i_last then some (i, j, curr)
          else any_inner last var_data fuel (i + 1) (j + 1) (curr ++ [vj])
        else some (i, j, curr)

/-- The outer loop of the branch `sharedr == 2`. -/
def any_outer (last : List Char → Int → Int) (var_data : List variant_t) :
    Nat → Nat → List (List variant_t) → Option (List (List variant_t))
  | 0, _, _ => none
  | fuel + 1, i, var_set =>
    match var_data[i]? with
    | none => some var_set
    | some vi =>
      match any_inner last var_data (var_data.length + 1) i (i + 1) [vi] with
      | none => none
      | some (_, j, curr) => any_outer last var_data fuel j (var_set ++ [curr])

/-- The inner loop of the distance branch:
`while (distlim > 0 && j < len && strcmp(var_data[j]->chr, var_data[j - 1]->chr) == 0
        && abs(var_data[j]->pos - var_data[j - 1]->pos) <= distlim)
 { if (maxdist > 0 && abs(var_data[j]->pos - var_data[i]->pos) > maxdist) break;
   vector_add(curr, var_data[j++]); }`. -/
def dist_inner (distlim maxdist : Int) (var_data : List variant_t) (i : Nat) :
    Nat → Nat → List variant_t → Option (Nat × List variant_t)
  | 0, _, _ => none
  | fuel + 1, j, curr =>
    if distlim > 0 then
      match var_data[j]? with
      | none => some (j, curr)
      | some vj =>
        match var_data[j - 1]?, var_data[i]? with
        | some vp, some vi =>
          if vj.chr = vp.chr ∧ ((vj.pos - vp.pos).natAbs : Int) ≤ distlim then
            if maxdist > 0 ∧ ((vj.pos - vi.pos).natAbs : Int) > maxdist then some (j, curr)
            else dist_inner distlim maxdist var_data i fuel (j + 1) (curr ++ [vj])
          else some (j, curr)
        | _, _ => none
    else some (j, curr)

/-- The outer loop of the distance branch. -/
def dist_outer (distlim maxdist : Int) (var_data : List variant_t) :
    Nat → Nat → List (List variant_t) → Option (List (List variant_t))
  | 0, _, _ => none
  | fuel + 1, i, var_set =>
    match var_data[i]? with
    | none => some var_set
    | some vi =>
      match dist_inner distlim maxdist var_data i (var_data.length + 1) (i + 1) [vi] with
      | none => none
      | some (j, curr) => dist_outer distlim maxdist var_data fuel j (var_set ++ [curr])

/-- The grouping part of `process`: the vector `var_set` before the split pass,
for the option values `sharedr`, `distlim` and `maxdist`. -/
def group_variants (sharedr distlim maxdist : Int) (last : List Char → Int → Int)
    (var_list : List variant_t) : Option (List (List variant_t)) :=
  if sharedr = 1 then first_outer last var_list (var_list.length + 1) 0 []
  else if sharedr = 2 then any_outer last var_list (var_list.length + 1) 0 []
  else dist_outer distlim maxdist var_list (var_list.length + 1) 0 []

/-! ### Grouping rules, as predicates on a set's first variant `f`, its current
tail `p` and the next variant `w` -/

/-- Rule of `sharedr == 1`: `w` is on the chromosome of the first variant `f` and
not beyond the last read over `f`. -/
def ext_first (last : List Char → Int → Int) (f _p w : variant_t) : Bool :=
  f.chr = w.chr && w.pos ≤ last f.chr f.pos

/-- Rule of `sharedr == 2`: `w` is on the chromosome of the current tail `p` and
not beyond the last read over `p`. -/
def ext_any (last : List Char → Int → Int) (_f p w : variant_t) : Bool :=
  p.chr = w.chr && w.pos ≤ last p.chr p.pos

/-- Rule of the distance mode for starting a new set at `w`: the chromosome
changes, or the distance to the previous variant `p` exceeds `distlim`, or
`maxdist > 0` and the distance to the first variant `f` of the set exceeds `maxdist`. -/
def new_set_rule (distlim maxdist : Int) (f p w : variant_t) : Bool :=
  w.chr ≠ p.chr || ((w.pos - p.pos).natAbs : Int) > distlim
    || (maxdist > 0 && ((w.pos - f.pos).natAbs : Int) > maxdist)

/-- The run appended to a set with first variant `f` and current tail `p` from the
variants `rest` that follow, under an appending rule `ext`. -/
def run_while (ext : variant_t → variant_t → variant_t → Bool) (f : variant_t) :
    variant_t → List variant_t → List variant_t
  | _, [] => []
  | p, w :: rest => if ext f p w then w :: run_while ext f w rest else []

/-- Greedy grouping of a list under an appending rule `ext`. -/
def greedy (ext : variant_t → variant_t → variant_t → Bool) :
    Nat → List variant_t → List (List variant_t)
  | 0, _ => []
  | _, [] => []
  | fuel + 1, f :: rest =>
    (f :: run_while ext f f rest) :: greedy ext fuel (rest.drop (run_while ext f f rest).length)

/-- Consecutive sets `S`, `T` of a grouping are separated by the rule `sep`:
it holds of the first and the last variant of `S` and the first variant of `T`. -/
def separated (sep : variant_t → variant_t → variant_t → Prop)
    (sets : List (List variant_t)) : Prop :=
  List.Chain' (fun S T => ∀ f p w, S.head? = some f → S.getLast? = some p →
    T.head? = some w → sep f p w) sets

/-- Inside a set, every variant after the first was appended under the rule `ok`:
it holds of the first variant of the set, the variant before, and the variant itself. -/
def linked (ok : variant_t → variant_t → variant_t → Prop) (S : List variant_t) : Prop :=
  ∀ f, S.head? = some f → List.Chain' (fun p w => ok f p w) S

/-! ## The split pass of `process` (eagle.c) and the vector operations it uses (vector.c)

A `vector_t` of variants is the list of its `len` entries; the vector of sets
`var_set` is a list of such lists. The set `var_set->data[i]` is changed in place and
new sets are appended to `var_set` while the `for` loop over `i` runs, so the loop
also visits the sets it has appended.
-/

/-- Ways in which a loop of the split pass does not finish. -/
inductive stop where
  /-- The step budget given to the loop ran out. -/
  | fuel
  /-- An entry outside `[0, len)` of a vector was accessed. -/
  | index
deriving DecidableEq, Repr

/-- The function `vector_del(a, i)` of vector.c: the entry `i` is removed and the
entries after it move down by one. The index must be an entry of the vector. -/
def vector_del {α : Type} (a : List α) (i : Nat) : Except stop (List α) :=
  if i < a.length then .ok (a.eraseIdx i) else .error .index

/-- The function `vector_pop(a)` of vector.c: `NULL` on an empty vector, otherwise the
last entry, which is removed. -/
def vector_pop {α : Type} (a : List α) : Option α × List α :=
  if a.length ≤ 0 then (none, a) else (a.getLast?, a.dropLast)

/-- The function `vector_add(a, entry)` of vector.c. -/
def vector_add {α : Type} (a : List α) (entry : α) : List α := a ++ [entry]

/-- Modelled from the spec: `vector_dup`, called by `process`, is not among the sources
(vector.c only has `vector_dup_shallow`, which copies the entry pointers into a new
vector). The spec says that the split pass emits "a duplicate set", so the call
returns a new vector with the same entries. -/
def vector_dup {α : Type} (a : List α) : List α := a

/-- The test `curr->pos == next->pos && strcmp(curr->chr, next->chr) == 0 &&
strcmp(curr->ref, next->ref) == 0 && strcmp(curr->alt, next->alt) == 0`. -/
def same_variant (curr next : variant_t) : Bool :=
  curr.pos = next.pos && curr.chr = next.chr && curr.ref = next.ref && curr.alt = next.alt

/-- The first inner loop of the split pass, from index `j`:
`for (j = 0; j < curr_set->len - 1; j++)
 { if (curr and next are the same variant) vector_del(curr_set, j + 1);
   else if (curr->pos != next->pos) flag_nonset = 0; }`.
The bound `curr_set->len - 1` is a `size_t`: on an empty vector it is the largest
value and the body reads outside the vector. -/
def dedup_loop : Nat → Nat → List variant_t → Bool → Except stop (List variant_t × Bool)
  | 0, _, _, _ => .error .fuel
  | fuel + 1, j, curr_set, flag_nonset =>
    if curr_set.length = 0 then .error .index
    else if j < curr_set.length - 1 then
      match curr_set[j]?, curr_set[j + 1]? with
      | some curr, some next =>
        if same_variant curr next then
          match vector_del curr_set (j + 1) with
          | .error e => .error e
          | .ok cs => dedup_loop fuel (j + 1) cs flag_nonset
        else if curr.pos ≠ next.pos then dedup_loop fuel (j + 1) curr_set false
        else dedup_loop fuel (j + 1) curr_set flag_nonset
      | _, _ => .error .index
    else .ok (curr_set, flag_nonset)

/-- The loop of the branch `flag_nonset`:
`while (curr_set->len > 1) { curr = vector_pop(curr_set); dup = [curr]; vector_add(var_set, dup); }`.
The sets added to `var_set` are collected in `added`. -/
def pop_loop : Nat → List variant_t → List (List variant_t) →
    Except stop (List variant_t × List (List variant_t))
  | 0, _, _ => .error .fuel
  | fuel + 1, curr_set, added =>
    if curr_set.length > 1 then
      match vector_pop curr_set with
      | (none, _) => .error .index
      | (some curr, cs) => pop_loop fuel cs (vector_add added (vector_add [] curr))
    else .ok (curr_set, added)

/-- The loop of the other branch, from index `j`:
`for (j = 0; j < curr_set->len - 1; j++)
 { if (curr->pos == next->pos)
   { flag_add = 1; dup = vector_dup(curr_set); vector_del(curr_set, j);
     vector_del(dup, j + 1); vector_add(var_set, dup); } }`. -/
def dup_loop : Nat → Nat → List variant_t → List (List variant_t) → Bool →
    Except stop (List variant_t × List (List variant_t) × Bool)
  | 0, _, _, _, _ => .error .fuel
  | fuel + 1, j, curr_set, added, flag_add =>
    if curr_set.length = 0 then .error .index
    else if j < curr_set.length - 1 then
      match curr_set[j]?, curr_set[j + 1]? with
      | some curr, some next =>
        if curr.pos = next.pos then
          let dup := vector_dup curr_set
          match vector_del curr_set j, vector_del dup (j + 1) with
          | .ok cs, .ok dup1 => dup_loop fuel (j + 1) cs (vector_add added dup1) true
          | _, _ => .error .index
        else dup_loop fuel (j + 1) curr_set added flag_add
      | _, _ => .error .index
    else .ok (curr_set, added, flag_add)

/-- The body of the loop over `i` for a set `curr_set` with `curr_set->len != 1`:
the set as it is left in place, the sets appended to `var_set`, and `flag_add`. -/
def split_set (curr_set : List variant_t) (flag_add : Bool) :
    Except stop (List variant_t × List (List variant_t) × Bool) :=
  match dedup_loop (curr_set.length + 1) 0 curr_set true with
  | .error e => .error e
  | .ok (cs, flag_nonset) =>
    if flag_nonset then
      match pop_loop (cs.length + 1) cs [] with
      | .error e => .error e
      | .ok (cs1, added) => .ok (cs1, added, flag_add)
    else dup_loop (cs.length + 1) 0 cs [] flag_add

/-- The loop `for (i = 0; i < var_set->len; i++)` of one round of the split pass, from
index `i`; `var_set->len` is read again at every test. -/
def set_loop : Nat → Nat → List (List variant_t) → Bool →
    Except stop (List (List variant_t) × Bool)
  | 0, _, _, _ => .error .fuel
  | fuel + 1, i, var_set, flag_add =>
    match var_set[i]? with
    | none => .ok (var_set, flag_add)
    | some curr_set =>
      if curr_set.length = 1 then set_loop fuel (i + 1) var_set flag_add
      else
        match split_set curr_set flag_add with
        | .error e => .error e
        | .ok (cs, added, flag) => set_loop fuel (i + 1) (var_set.set i cs ++ added) flag

/-- The loop `while (flag_add)` of the split pass; `fuel` bounds the number of rounds
and the number of steps of the loop over `i` in each round. -/
def split_pass : Nat → List (List variant_t) → Except stop (List (List variant_t))
  | 0, _ => .error .fuel
  | fuel + 1, var_set =>
    match set_loop (fuel + 1) 0 var_set false with
    | .error e => .error e
    | .ok (vs, flag_add) => if flag_add then split_pass fuel vs else .ok vs

/-- The sets handed to the work queue by `process`: grouping followed by the split pass. -/
def process_sets (sharedr distlim maxdist : Int) (last : List Char → Int → Int)
    (fuel : Nat) (var_list : List variant_t) : Except stop (List (List variant_t)) :=
  match group_variants sharedr distlim maxdist last var_list with
  | none => .error .fuel
  | some var_set => split_pass fuel var_set

/-- The input order assumed of `var_list`: of two neighbours on the same chromosome
the second is not at a smaller position (as in a list sorted by chromosome and position). -/
def sorted_input (var_list : List variant_t) : Prop :=
  List.Chain' (fun a b => a.chr = b.chr → a.pos ≤ b.pos) var_list

/-- A set whose variants share one chromosome and are in ascending position order. -/
def ordered (S : List variant_t) : Prop :=
  List.Pairwise (fun a b => a.chr = b.chr ∧ a.pos ≤ b.pos) S

/-- The weight `3 ^ len` of a set, used to bound the number of steps of the split pass. -/
def set_weight (S : List variant_t) : Nat := 3 ^ S.length

/-- The sum of the weights of the sets of `var_set`. -/
def total_weight (var_set : List (List variant_t)) : Nat := (var_set.map set_weight).sum

/-! ## `calc_likelihood` (eagle.c) and `log_add_exp` (util.c)

The C type `double` is a type `R` with the operations of the class `Double`; the
definitions below are the same for every such `R`. The kernels declared in calc.h
(`set_prob_matrix`, `calc_prob`, `calc_prob_dp`, `calc_prob_snps`), `sum_d`,
`log_sum_exp`, `reverse` and the reference cache are parameters, collected in the
structure `kernels`; the option variables of eagle.c are the structure `options`.
-/

/-- The operations on `double` used by the program. -/
class Double (R : Type) extends Zero R, Add R, Sub R, Mul R, Div R, Neg R, LT R,
    OfScientific R where
  /-- The comparison `a < b` can be evaluated. -/
  lt_dec : DecidableRel (fun a b : R => a < b)
  /-- The function `log` of math.h. -/
  log : R → R
  /-- The function `exp` of math.h. -/
  exp : R → R
  /-- The conversion of an `int` to `double`. -/
  of_int : Int → R
  /-- The constant `DBL_MAX` of float.h. -/
  DBL_MAX : R

instance Double.decidable_lt {R : Type} [Double R] (a b : R) : Decidable (a < b) :=
  Double.lt_dec a b

/-- The function `log_add_exp` of util.c. -/
def log_add_exp {R : Type} [Double R] (a b : R) : R :=
  let max_exp := if a > b then a else b
  Double.log (Double.exp (a - max_exp) + Double.exp (b - max_exp)) + max_exp

/-- The record `read_t`, with the fields used by `calc_likelihood`. The array `qual`
holds one quality per base (`length` entries). The string of the `XA` tag is the list
of its loci `(chr, signed pos)`, `none` when the tag is absent. -/
structure read_t (R : Type) where
  name : List Char
  chr : List Char
  pos : Int
  «end» : Int
  length : Nat
  inferred_length : Int
  qseq : List Char
  qual : List Int
  splice_pos : List Int
  splice_offset : List Int
  n_splice : Int
  multimapXA : Option (List (List Char × Int))
  multimapNH : Int
  is_reverse : Bool
  prgu : R
  prgv : R
  pout : R
  index : Nat

/-- The record `stats_t`. -/
structure stats_t (R : Type) where
  combo : List Nat
  read_prgv : List R
  ref : R
  alt : R
  het : R
  «mut» : R
  ref_count : Int
  alt_count : Int
  seen : Int

/-- The option variables and tables of eagle.c read by `calc_likelihood`. -/
structure options (R : Type) where
  lowmem : Bool
  dp : Bool
  verbose : Bool
  bisulfite : Bool
  gap_op : Int
  gap_ex : Int
  lgomega : R
  ref_prior : R
  alt_prior : R
  het_prior : R
  /-- The table lookup `p_match[q]`. -/
  p_match : Int → R
  /-- The table lookup `p_mismatch[q]`. -/
  p_mismatch : Int → R

/-- The functions called by `calc_likelihood` whose code is not in eagle.c, vector.c
or util.c. A probability matrix is the list of its entries. -/
structure kernels (R : Type) where
  set_prob_matrix : read_t R → List R → List R → Bool → List R
  calc_prob : List R → Nat → List Char → Int → Int → List Int → List Int → Int → R
  calc_prob_dp :
    List R → Nat → List Char → Int → Int → List Int → List Int → Int → Int → Int → R
  calc_prob_snps : List Nat → List variant_t → List R → Nat → List Char → Int → Int →
    List Int → List Int → Int → R × R
  sum_d : List R → R
  log_sum_exp : List R → R
  reverse : List R → List R
  /-- The reference cache `refseq_fetch(name, fa_file)`: sequence and length. -/
  refseq_fetch : List Char → Option (List Char × Int)

/-- The test of the first loop of `calc_likelihood`:
`v->ref[0] == '-' || v->alt[0] == '-' || strlen(v->ref) != strlen(v->alt)`. -/
def is_indel (v : variant_t) : Bool :=
  v.ref.head? = some '-' || v.alt.head? = some '-' || v.ref.length ≠ v.alt.length

/-- The first loop of `calc_likelihood`: `has_indel`, or a fault when a combination
entry is not an index of `var_data`. It is skipped when `lowmem` is set. -/
def has_indel_loop (var_data : List variant_t) : List Nat → Except fault Bool
  | [] => .ok false
  | ci :: rest =>
    match var_data[ci]? with
    | none => .error .bad_access
    | some v => if is_indel v then .ok true else has_indel_loop var_data rest

/-- The read does not cross all variants of the combination:
`read->pos > var_data[combo[0]]->pos || read->end < var_data[combo[len - 1]]->pos`. -/
def not_spanning {R : Type} (read : read_t R) (first last : variant_t) : Bool :=
  read.pos > first.pos || read.«end» < last.pos

/-- The loop over the loci of an `XA` tag: `pout`, `prgu`, `prgv` after the loci. -/
def xa_loop {R : Type} [Double R] (k : kernels R) (read : read_t R)
    (readprobmatrix : List R) (elsewhere : R) : List (List Char × Int) → R × R × R → R × R × R
  | [], acc => acc
  | (xa_chr, xa_pos) :: rest, (pout, prgu, prgv) =>
    let pout := log_add_exp pout elsewhere
    if xa_chr ≠ read.chr ∧ ((xa_pos - read.pos).natAbs : Int) < (read.length : Int) then
      match k.refseq_fetch xa_chr with
      | none => xa_loop k read readprobmatrix elsewhere rest (pout, prgu, prgv)
      | some (xa_refseq, xa_refseq_length) =>
        let p_readprobmatrix :=
          if (xa_pos < 0 ∧ ¬ read.is_reverse) ∨ (xa_pos > 0 ∧ read.is_reverse) then
            k.reverse readprobmatrix
          else readprobmatrix
        let xa_pos : Int := xa_pos.natAbs
        let readprobability := k.calc_prob p_readprobmatrix read.length xa_refseq
          xa_refseq_length xa_pos read.splice_pos read.splice_offset read.n_splice
        xa_loop k read readprobmatrix elsewhere rest
          (pout, log_add_exp prgu readprobability, log_add_exp prgv readprobability)
    else xa_loop k read readprobmatrix elsewhere rest (pout, prgu, prgv)

/-- The body of the loop over the reads for a read that crosses all variants of the
combination: the statistics and the read after the body. -/
def score_read {R : Type} [Double R] (o : options R) (k : kernels R) (stat : stats_t R)
    (var_data : List variant_t) (refseq : List Char) (refseq_length : Int)
    (has_indel : Bool) (altseq : List Char) (altseq_length : Int) (seti : Nat)
    (read : read_t R) : stats_t R × read_t R :=
  let seen := stat.seen + 1
  let is_match0 := read.qual.map o.p_match
  let no_match0 := read.qual.map o.p_mismatch
  let is_match :=
    if o.dp then is_match0.map (fun m => m + (Double.of_int 1 - (m - Double.of_int 1)))
    else is_match0
  let no_match :=
    if o.dp then
      List.zipWith (fun m x => x + (Double.of_int 1 - (m - Double.of_int 1))) is_match0 no_match0
    else no_match0
  let readprobmatrix := k.set_prob_matrix read is_match no_match o.bisulfite
  let delta := List.zipWith (fun m x => x - m) is_match no_match
  let a := k.sum_d is_match
  let elsewhere := log_add_exp a (a + k.log_sum_exp delta)
    - Double.log (1.3 : R) * Double.of_int ((read.length : Int) - read.inferred_length)
  let pr : R × R :=
    if has_indel then
      (k.calc_prob readprobmatrix read.length refseq refseq_length read.pos
          read.splice_pos read.splice_offset read.n_splice,
       k.calc_prob readprobmatrix read.length altseq altseq_length read.pos
          read.splice_pos read.splice_offset read.n_splice)
    else if o.dp then
      (k.calc_prob_dp readprobmatrix read.length refseq refseq_length read.pos
          read.splice_pos read.splice_offset read.n_splice o.gap_op o.gap_ex,
       k.calc_prob_dp readprobmatrix read.length altseq altseq_length read.pos
          read.splice_pos read.splice_offset read.n_splice o.gap_op o.gap_ex)
    else
      k.calc_prob_snps stat.combo var_data readprobmatrix read.length refseq refseq_length
        read.pos read.splice_pos read.splice_offset read.n_splice
  let mm : R × R × R :=
    match read.multimapXA with
    | some loci => xa_loop k read readprobmatrix elsewhere loci (elsewhere, pr.1, pr.2)
    | none =>
      if read.multimapNH > 1 then
        let n := Double.log (Double.of_int (read.multimapNH - 1))
        let readprobability := pr.1 + n
        (log_add_exp elsewhere (elsewhere + n), log_add_exp pr.1 readprobability,
          log_add_exp pr.2 readprobability)
      else (elsewhere, pr.1, pr.2)
  let pout := mm.1 + o.lgomega
  let prgu := log_add_exp pout mm.2.1
  let prgv := log_add_exp pout mm.2.2
  let read1 :=
    if o.verbose ∧ prgv > read.prgv then
      { read with index := seti, prgu := prgu, prgv := prgv, pout := pout }
    else read
  let phet0 := log_add_exp (Double.log (0.5 : R) + prgv) (Double.log (0.5 : R) + prgu)
  let phet10 := log_add_exp (Double.log (0.1 : R) + prgv) (Double.log (0.9 : R) + prgu)
  let phet90 := log_add_exp (Double.log (0.9 : R) + prgv) (Double.log (0.1 : R) + prgu)
  let phet1 := if phet10 > phet0 then phet10 else phet0
  let phet2 := if phet90 > phet1 then phet90 else phet1
  let prgu := prgu + o.ref_prior
  let prgv := prgv + o.alt_prior
  let phet := phet2 + o.het_prior
  let alt_hit : Bool := prgv > prgu ∧ prgv - prgu > (0.69 : R) ∧ prgv - pout > (0.69 : R)
  let ref_hit : Bool := prgu > prgv ∧ prgu - prgv > (0.69 : R) ∧ prgu - pout > (0.69 : R)
  ({ stat with
      seen := seen
      ref := stat.ref + prgu
      alt := stat.alt + prgv
      het := stat.het + phet
      read_prgv := stat.read_prgv ++ [log_add_exp prgv phet]
      alt_count := if alt_hit then stat.alt_count + 1 else stat.alt_count
      ref_count := if alt_hit then stat.ref_count
        else if ref_hit then stat.ref_count + 1 else stat.ref_count },
   read1)

/-- One iteration of the loop over the reads: a read that does not cross all variants
only gets `-DBL_MAX` appended to `read_prgv`. Reading the first or the last entry of
an empty combination, or an entry that is not an index of `var_data`, is a fault. -/
def read_step {R : Type} [Double R] (o : options R) (k : kernels R)
    (var_data : List variant_t) (refseq : List Char) (refseq_length : Int)
    (has_indel : Bool) (altseq : List Char) (altseq_length : Int) (seti : Nat)
    (stat : stats_t R) (read : read_t R) : Except fault (stats_t R × read_t R) :=
  match stat.combo.head?, stat.combo.getLast? with
  | some c0, some c1 =>
    match var_data[c0]?, var_data[c1]? with
    | some first, some last =>
      if not_spanning read first last then
        .ok ({ stat with read_prgv := stat.read_prgv ++ [-Double.DBL_MAX] }, read)
      else
        .ok (score_read o k stat var_data refseq refseq_length has_indel altseq
          altseq_length seti read)
    | _, _ => .error .bad_access
  | _, _ => .error .bad_access

/-- The loop `for (readi = 0; readi < nreads; readi++)`: the statistics and the reads
(in order) after the loop. -/
def read_loop {R : Type} [Double R] (o : options R) (k : kernels R)
    (var_data : List variant_t) (refseq : List Char) (refseq_length : Int)
    (has_indel : Bool) (altseq : List Char) (altseq_length : Int) (seti : Nat) :
    stats_t R → List (read_t R) → Except fault (stats_t R × List (read_t R))
  | stat, [] => .ok (stat, [])
  | stat, read :: rest =>
    match read_step o k var_data refseq refseq_length has_indel altseq altseq_length seti
        stat read with
    | .error e => .error e
    | .ok (stat1, read1) =>
      match read_loop o k var_data refseq refseq_length has_indel altseq altseq_length seti
          stat1 rest with
      | .error e => .error e
      | .ok (stat2, rest1) => .ok (stat2, read1 :: rest1)

/-- The statistics at the start of `calc_likelihood`: the accumulators and counts are
set to zero, `combo` and `read_prgv` are kept. -/
def reset_stats {R : Type} [Double R] (stat : stats_t R) : stats_t R :=
  { stat with ref := 0, alt := 0, het := 0, ref_count := 0, alt_count := 0, seen := 0 }

/-- The function `calc_likelihood`: the statistics `*stat` and the reads `read_data`
after the call. -/
def calc_likelihood {R : Type} [Double R] (o : options R) (k : kernels R) (stat : stats_t R)
    (var_data : List variant_t) (refseq : List Char) (refseq_length : Int)
    (read_data : List (read_t R)) (seti : Nat) :
    Except fault (stats_t R × List (read_t R)) :=
  let stat0 := reset_stats stat
  match (if o.lowmem then .ok false else has_indel_loop var_data stat0.combo) with
  | .error e => .error e
  | .ok has_indel =>
    match (if has_indel ∨ o.dp then
        construct_altseq refseq refseq_length stat0.combo var_data
      else .ok ([], 0)) with
    | .error e => .error e
    | .ok (altseq, altseq_length) =>
      match read_loop o k var_data refseq refseq_length has_indel altseq altseq_length seti
          stat0 read_data with
      | .error e => .error e
      | .ok (stat1, reads1) =>
        .ok ({ stat1 with «mut» := log_add_exp stat1.alt stat1.het }, reads1)

/-- The first variant `var_data[combo[0]]` of a combination. -/
def combo_first (var_data : List variant_t) (combo : List Nat) : Option variant_t :=
  combo.head?.bind (fun c => var_data[c]?)

/-- The last variant `var_data[combo[len - 1]]` of a combination. -/
def combo_last (var_data : List variant_t) (combo : List Nat) : Option variant_t :=
  combo.getLast?.bind (fun c => var_data[c]?)

/-- The machine type `double` as an instance of the operations. -/
instance : Double Float where
  zero := 0
  lt_dec := fun a b => Float.decLt a b
  log := Float.log
  exp := Float.exp
  of_int := Float.ofInt
  DBL_MAX := 1.7976931348623157e308

/-- Sample option values: the defaults of eagle.c, with constant quality tables. -/
def sample_options : options Float :=
  { lowmem := false, dp := false, verbose := false, bisulfite := false, gap_op := 6, gap_ex := 1,
    lgomega := Float.log (1e-5 / (1 - 1e-5)), ref_prior := Float.log 0.5,
    alt_prior := Float.log 0.5 + Float.log 0.5, het_prior := Float.log 0.5 + Float.log 0.5,
    p_match := fun _ => Float.log 0.999, p_mismatch := fun _ => Float.log 0.001 - Float.log 3 }

/-- Sample kernels: every read has probability one under every sequence. -/
def sample_kernels : kernels Float :=
  { set_prob_matrix := fun _ m _ _ => m,
    calc_prob := fun _ _ _ _ _ _ _ _ => 0,
    calc_prob_dp := fun _ _ _ _ _ _ _ _ _ _ => 0,
    calc_prob_snps := fun _ _ _ _ _ _ _ _ _ _ => (0, 0),
    sum_d := fun l => l.foldl (fun s x => s + x) 0,
    log_sum_exp := fun l => Float.log (l.foldl (fun s x => s + Float.exp x) 0),
    reverse := List.reverse,
    refseq_fetch := fun _ => none }

/-- A sample read of 4 bases mapped at 0-based position `pos`, as `read_create` and
`bam_fetch` leave it. -/
def sample_read (pos : Int) : read_t Float :=
  { name := "r1".toList, chr := "chr1".toList, pos := pos, «end» := pos + 4, length := 4,
    inferred_length := 4, qseq := "ACGT".toList, qual := [30, 30, 30, 30], splice_pos := [],
    splice_offset := [], n_splice := 0, multimapXA := none, multimapNH := 1,
    is_reverse := false, prgu := -Double.DBL_MAX, prgv := -Double.DBL_MAX,
    pout := -Double.DBL_MAX, index := 0 }

/-- The statistics `stats_create(combo, nreads)` of vector.c. -/
def stats_create {R : Type} [Double R] (combo : List Nat) : stats_t R :=
  { combo := combo, read_prgv := [], ref := 0, het := 0, alt := 0, «mut» := 0,
    ref_count := 0, alt_count := 0, seen := 0 }

/-! ### The quantities computed for one read by the body of the loop of `calc_likelihood`

The same expressions as in `score_read`, under names of their own. -/

/-- The arrays `is_match` and `no_match` of a read (shifted when `dp` is set). -/
def match_tables {R : Type} [Double R] (o : options R) (read : read_t R) : List R × List R :=
  let is_match0 := read.qual.map o.p_match
  let no_match0 := read.qual.map o.p_mismatch
  (if o.dp then is_match0.map (fun m => m + (Double.of_int 1 - (m - Double.of_int 1)))
    else is_match0,
   if o.dp then
      List.zipWith (fun m x => x + (Double.of_int 1 - (m - Double.of_int 1))) is_match0 no_match0
    else no_match0)

/-- The array `readprobmatrix` of a read. -/
def read_matrix {R : Type} [Double R] (o : options R) (k : kernels R) (read : read_t R) :
    List R :=
  k.set_prob_matrix read (match_tables o read).1 (match_tables o read).2 o.bisulfite

/-- The value `elsewhere` of a read. -/
def elsewhere_score {R : Type} [Double R] (o : options R) (k : kernels R) (read : read_t R) :
    R :=
  let delta := List.zipWith (fun m x => x - m) (match_tables o read).1 (match_tables o read).2
  let a := k.sum_d (match_tables o read).1
  log_add_exp a (a + k.log_sum_exp delta)
    - Double.log (1.3 : R) * Double.of_int ((read.length : Int) - read.inferred_length)

/-- The pair `(prgu, prgv)` returned by the kernel chosen by `has_indel` and `dp`. -/
def kernel_scores {R : Type} [Double R] (o : options R) (k : kernels R) (combo : List Nat)
    (var_data : List variant_t) (refseq : List Char) (refseq_length : Int)
    (has_indel : Bool) (altseq : List Char) (altseq_length : Int) (read : read_t R) : R × R :=
  if has_indel then
    (k.calc_prob (read_matrix o k read) read.length refseq refseq_length read.pos
        read.splice_pos read.splice_offset read.n_splice,
     k.calc_prob (read_matrix o k read) read.length altseq altseq_length read.pos
        read.splice_pos read.splice_offset read.n_splice)
  else if o.dp then
    (k.calc_prob_dp (read_matrix o k read) read.length refseq refseq_length read.pos
        read.splice_pos read.splice_offset read.n_splice o.gap_op o.gap_ex,
     k.calc_prob_dp (read_matrix o k read) read.length altseq altseq_length read.pos
        read.splice_pos read.splice_offset read.n_splice o.gap_op o.gap_ex)
  else
    k.calc_prob_snps combo var_data (read_matrix o k read) read.length refseq refseq_length
      read.pos read.splice_pos read.splice_offset read.n_splice

/-- The triple `(pout, prgu, prgv)` after the multi-map adjustment (`XA` loci, else `NH`). -/
def multimap_scores {R : Type} [Double R] (o : options R) (k : kernels R) (combo : List Nat)
    (var_data : List variant_t) (refseq : List Char) (refseq_length : Int)
    (has_indel : Bool) (altseq : List Char) (altseq_length : Int) (read : read_t R) :
    R × R × R :=
  let pr := kernel_scores o k combo var_data refseq refseq_length has_indel altseq
    altseq_length read
  match read.multimapXA with
  | some loci =>
    xa_loop k read (read_matrix o k read) (elsewhere_score o k read) loci
      (elsewhere_score o k read, pr.1, pr.2)
  | none =>
    if read.multimapNH > 1 then
      let n := Double.log (Double.of_int (read.multimapNH - 1))
      let readprobability := pr.1 + n
      (log_add_exp (elsewhere_score o k read) (elsewhere_score o k read + n),
        log_add_exp pr.1 readprobability, log_add_exp pr.2 readprobability)
    else (elsewhere_score o k read, pr.1, pr.2)

/-- The triple `(pout, prgu, prgv)` after `pout += lgomega` and the mixture of `prgu`
and `prgv` with `pout`, before the priors are added. -/
def mixture_scores {R : Type} [Double R] (o : options R) (k : kernels R) (combo : List Nat)
    (var_data : List variant_t) (refseq : List Char) (refseq_length : Int)
    (has_indel : Bool) (altseq : List Char) (altseq_length : Int) (read : read_t R) :
    R × R × R :=
  let mm := multimap_scores o k combo var_data refseq refseq_length has_indel altseq
    altseq_length read
  let pout := mm.1 + o.lgomega
  (pout, log_add_exp pout mm.2.1, log_add_exp pout mm.2.2)

/-- The value `phet` before its prior is added: the largest of the three mixtures. -/
def het_mixture {R : Type} [Double R] (prgu prgv : R) : R :=
  let phet0 := log_add_exp (Double.log (0.5 : R) + prgv) (Double.log (0.5 : R) + prgu)
  let phet10 := log_add_exp (Double.log (0.1 : R) + prgv) (Double.log (0.9 : R) + prgu)
  let phet90 := log_add_exp (Double.log (0.9 : R) + prgv) (Double.log (0.1 : R) + prgu)
  let phet1 := if phet10 > phet0 then phet10 else phet0
  if phet90 > phet1 then phet90 else phet1

/-- The test of `stat->alt_count += 1`, on `pout` and on `prgu`, `prgv` as they are at
that line (their priors added). -/
def alt_hit {R : Type} [Double R] (pout prgu prgv : R) : Bool :=
  prgv > prgu ∧ prgv - prgu > (0.69 : R) ∧ prgv - pout > (0.69 : R)

/-- The test of `stat->ref_count += 1`, reached when the test of `alt_count` fails. -/
def ref_hit {R : Type} [Double R] (pout prgu prgv : R) : Bool :=
  prgu > prgv ∧ prgu - prgv > (0.69 : R) ∧ prgu - pout > (0.69 : R)

/-- The value appended to `read_prgv` for a read that crosses all variants. -/
def read_value {R : Type} [Double R] (o : options R) (k : kernels R) (combo : List Nat)
    (var_data : List variant_t) (refseq : List Char) (refseq_length : Int)
    (has_indel : Bool) (altseq : List Char) (altseq_length : Int) (read : read_t R) : R :=
  let ms := mixture_scores o k combo var_data refseq refseq_length has_indel altseq
    altseq_length read
  log_add_exp (ms.2.2 + o.alt_prior) (het_mixture ms.2.1 ms.2.2 + o.het_prior)

/-- The value appended to `read_prgv` for any read: `-DBL_MAX` when the read does not
cross all variants of the combination. -/
def read_entry {R : Type} [Double R] (o : options R) (k : kernels R) (combo : List Nat)
    (var_data : List variant_t) (refseq : List Char) (refseq_length : Int)
    (has_indel : Bool) (altseq : List Char) (altseq_length : Int) (first last : variant_t)
    (read : read_t R) : R :=
  if not_spanning read first last then -Double.DBL_MAX
  else read_value o k combo var_data refseq refseq_length has_indel altseq altseq_length read

/-! ### Exact arithmetic

The real numbers with `Real.log` and `Real.exp` carry the operations of `Double`: the
program as it computes when no rounding, overflow or underflow occurs. -/

/-- The real numbers as an instance of the operations. -/
noncomputable instance : Double ℝ where
  lt_dec := fun a b => Classical.propDecidable (a < b)
  log := Real.log
  exp := Real.exp
  of_int := fun i => (i : ℝ)
  DBL_MAX := 1.7976931348623157e308

/-! ### `init_q2p_table` (util.c) and the option values set by `main` -/

/-- The value `a` of `init_q2p_table` for the index `i`. The constant `M_LOG10E` of
math.h is a parameter. -/
def q2p_a {R : Type} [Double R] (M_LOG10E : R) (i : Nat) : R :=
  if i = 0 then -(0.01 : R)
  else Double.of_int (i : Int) / Double.of_int (-10) * ((1.0 : R) / M_LOG10E)

/-- The function `init_q2p_table` of util.c: the first `size` entries of `p_match` and
of `p_mismatch` after the call. -/
def init_q2p_table {R : Type} [Double R] (M_LOG10E : R) (size : Nat) : List R × List R :=
  ((List.range size).map
      (fun i => Double.log (Double.of_int 1 - Double.exp (q2p_a M_LOG10E i))),
   (List.range size).map (fun i => q2p_a M_LOG10E i - Double.log (3.0 : R)))

/-- The option values `main` sets when no option is given (`omega = 1.0e-5`,
`hetbias = 0.5`, tables of 50 entries); a lookup outside the tables reads 0 here. -/
def main_options {R : Type} [Double R] (M_LOG10E : R) : options R :=
  { lowmem := false, dp := false, verbose := false, bisulfite := false, gap_op := 6,
    gap_ex := 1,
    lgomega := Double.log (1.0e-5 : R) - Double.log ((1.0 : R) - (1.0e-5 : R)),
    ref_prior := Double.log (0.5 : R),
    alt_prior := Double.log ((0.5 : R) * (Double.of_int 1 - (0.5 : R))),
    het_prior := Double.log ((0.5 : R) * (0.5 : R)),
    p_match := fun q => ((init_q2p_table M_LOG10E 50).1[q.toNat]?).getD 0,
    p_mismatch := fun q => ((init_q2p_table M_LOG10E 50).2[q.toNat]?).getD 0 }

/-- Kernels with fixed values: every read has log-probability `u` under the reference
and `v` under the alternative sequence, and `e` is the sum of its match terms. -/
def flat_kernels {R : Type} [Double R] (e u v : R) : kernels R :=
  { set_prob_matrix := fun _ m _ _ => m,
    calc_prob := fun _ _ _ _ _ _ _ _ => u,
    calc_prob_dp := fun _ _ _ _ _ _ _ _ _ _ => u,
    calc_prob_snps := fun _ _ _ _ _ _ _ _ _ _ => (u, v),
    sum_d := fun _ => e,
    log_sum_exp := fun _ => 0,
    reverse := List.reverse,
    refseq_fetch := fun _ => none }

/-- A read of 4 bases mapped at 0-based position `pos`, as `read_create` and
`bam_fetch` leave it. -/
def plain_read {R : Type} [Double R] (pos : Int) : read_t R :=
  { name := "r1".toList, chr := "chr1".toList, pos := pos, «end» := pos + 4, length := 4,
    inferred_length := 4, qseq := "ACGT".toList, qual := [30, 30, 30, 30], splice_pos := [],
    splice_offset := [], n_splice := 0, multimapXA := none, multimapNH := 1,
    is_reverse := false, prgu := -Double.DBL_MAX, prgv := -Double.DBL_MAX,
    pout := -Double.DBL_MAX, index := 0 }

/-! ## `has_numbers` (util.c) and the fields of a row in `vcf_read` (eagle.c)

The functions `isdigit` (ctype.h) and `sscanf` (stdio.h) are not code of the program.
`isdigit` is a parameter: the `int` it returns for a character. The fields that
`sscanf(line, "%s %d %*[^\t] %s %s", chr, &pos, ref, alt)` stores and the count `t` it
returns are the input of `vcf_fields`. -/

/-- The function `has_numbers` of util.c. -/
def has_numbers (isdigit : Char → Int) : List Char → Int
  | [] => 0
  | c :: rest => if isdigit c = 1 then 1 else has_numbers isdigit rest

/-- The function `variant_create` of vector.c. -/
def variant_create (chr : List Char) (pos : Int) (ref alt : List Char) : variant_t :=
  { chr := chr, pos := pos, ref := ref, alt := alt }

/-- The conversion `%[...]` of `sscanf` at the start of `s`: the longest run of
characters of the set, `none` (no conversion) when that run is empty. -/
def scan_set (p : Char → Bool) (s : List Char) : Option (List Char) :=
  if s.takeWhile p = [] then none else some (s.takeWhile p)

/-- The loop condition `sscanf(s, "%[^, ]%n", token, &n) == 1 ||
sscanf(s, "%[-]%n", token, &n) == 1`: the token stored, whose length is `n`. -/
def scan_token (s : List Char) : Option (List Char) :=
  match scan_set (fun c => c ≠ ',' && c ≠ ' ') s with
  | some token => some token
  | none => scan_set (fun c => c = '-') s

/-- The inner loop of `vcf_read` over the tokens of `alt`, from the pointer `s2`: the
variants it adds to `var_list`. -/
def alt_loop (chr : List Char) (pos : Int) (ref_token : List Char) :
    Nat → List Char → List variant_t
  | 0, _ => []
  | fuel + 1, s2 =>
    match scan_token s2 with
    | none => []
    | some alt_token =>
      let added :=
        if alt_token.head? ≠ some '.' ∧ alt_token.head? ≠ some '*'
            ∧ alt_token ≠ "<*:DEL>".toList then
          [variant_create chr pos ref_token alt_token]
        else []
      if s2[alt_token.length]? ≠ some ',' then added
      else added ++ alt_loop chr pos ref_token fuel (s2.drop (alt_token.length + 1))

/-- The outer loop of `vcf_read` over the tokens of `ref`, from the pointer `s1`. -/
def ref_loop (chr : List Char) (pos : Int) (alt : List Char) :
    Nat → List Char → List variant_t
  | 0, _ => []
  | fuel + 1, s1 =>
    match scan_token s1 with
    | none => []
    | some ref_token =>
      let added := alt_loop chr pos ref_token (alt.length + 1) alt
      if s1[ref_token.length]? ≠ some ',' then added
      else added ++ ref_loop chr pos alt fuel (s1.drop (ref_token.length + 1))

/-- The body of the loop of `vcf_read` for one row, after `sscanf` has stored the
fields: `none` is `exit_err("bad fields in VCF file\n")`, otherwise the variants added
to `var_list`. -/
def vcf_fields (isdigit : Char → Int) (t : Int) (chr : List Char) (pos : Int)
    (ref alt : List Char) : Option (List variant_t) :=
  if t < 4 ∨ has_numbers isdigit ref ≠ 0 ∨ has_numbers isdigit alt ≠ 0 then none
  else some (ref_loop chr pos alt (ref.length + 1) ref)

/-- An `isdigit` that returns 1 for a decimal digit and 0 otherwise. -/
def isdigit_one (c : Char) : Int := if c.isDigit then 1 else 0

/-- An `isdigit` that returns the bit of a class table for a decimal digit (2048, the
mask of the digit class in a table of 16-bit entries) and 0 otherwise. -/
def isdigit_mask (c : Char) : Int := if c.isDigit then 2048 else 0

/-! ## `variant_find`, `variant_print`, `evaluate` and `pool` (eagle.c)

The functions of heap.h, `powerset`, `derive_combo` and `combinations`, the read fetch
`bam_fetch`, the conversions `%e` and `%f` of `printf` and the constant `M_LN10` of
math.h are the fields of the structure `environment`, with the option variables `maxh`
and `mvh`. The heap holds pairs of a priority and the index in `stats` of the entry
pushed. Output to `stderr` is left out. -/

/-- Ways in which a run of `evaluate` does not return. -/
inductive halt where
  /-- A call of `calc_likelihood` does not return. -/
  | fault (f : fault)
  /-- An entry outside `[0, len)` of a vector or array was accessed. -/
  | index
  /-- The step budget given to a loop ran out. -/
  | fuel
deriving DecidableEq, Repr

/-- The loop of `variant_find`, from the values of `i`, `j` and `n` at the loop test:
the value returned, `none` when the budget ran out or `a->data[n]` is not an entry. The
entries of the vector and `v` are of one ordered type: `int` in the program, the
indices of a combination in `evaluate`. -/
def variant_find_loop {α : Type} [LinearOrder α] (a : List α) (v : α) :
    Nat → Int → Int → Int → Option Int
  | 0, _, _, _ => none
  | fuel + 1, i, j, n =>
    if i ≤ j then
      if n < 0 then none
      else
        match a[n.toNat]? with
        | none => none
        | some x =>
          if v = x then some n
          else if v > x then
            variant_find_loop a v fuel (n + 1) j (Int.tdiv (n + 1 + j) 2)
          else variant_find_loop a v fuel i (n - 1) (Int.tdiv (i + (n - 1)) 2)
    else some (-1)

/-- The function `variant_find` of eagle.c. -/
def variant_find {α : Type} [LinearOrder α] (a : List α) (v : α) : Option Int :=
  variant_find_loop a v (a.length + 1) 0 ((a.length : Int) - 1)
    (Int.tdiv (0 + ((a.length : Int) - 1)) 2)

/-- The parts of `evaluate` whose code is not in eagle.c, vector.c or util.c, and the
option variables `maxh` and `mvh`. -/
structure environment (R : Type) where
  maxh : Int
  mvh : Bool
  M_LN10 : R
  /-- The conversion `%e` of `printf`. -/
  fmt_e : R → List Char
  /-- The conversion `%f` of `printf`. -/
  fmt_f : R → List Char
  /-- The reads `bam_fetch(bam_file, chr, pos1, pos2)`. -/
  bam_fetch : List Char → Int → Int → List (read_t R)
  powerset : Nat → Int → List (List Nat)
  derive_combo : List Nat → Nat → List (List Nat)
  /-- The index pairs `combinations(combo, 2, n)`. -/
  combinations : Nat → Nat → List (List Nat)
  heap_push : List (R × Nat) → R → Nat → List (R × Nat)
  heap_pop : List (R × Nat) → Option (Nat × List (R × Nat))

/-- The conversion `%d` of `printf`. -/
def fmt_d (n : Int) : List Char := (toString n).toList

/-- The text `"%s,%d,%s,%s;"` of a variant. -/
def set_entry (v : variant_t) : List Char :=
  v.chr ++ [','] ++ fmt_d v.pos ++ [','] ++ v.ref ++ [','] ++ v.alt ++ [';']

/-- The text between `[` and `]` written by `variant_print`. -/
def set_field (var_set : List variant_t) : List Char :=
  if var_set.length > 1 then (var_set.map set_entry).flatten else []

/-- The function `variant_print` of eagle.c: the string `*output` after the call. -/
def variant_print {R : Type} [Double R] (e : environment R) (output : List Char)
    (var_set : List variant_t) (i : Nat) (nreads not_alt_count has_alt_count : Int)
    (total has_alt not_alt : R) : Except halt (List Char) :=
  match var_set[i]? with
  | none => .error .index
  | some v =>
    let prob := (has_alt - total) * ((1.0 : R) / e.M_LN10)
    let odds := (has_alt - not_alt) * ((1.0 : R) / e.M_LN10)
    let token := v.chr ++ ['\t'] ++ fmt_d v.pos ++ ['\t'] ++ v.ref ++ ['\t'] ++ v.alt
      ++ ['\t'] ++ fmt_d nreads ++ ['\t'] ++ fmt_d not_alt_count ++ ['\t']
      ++ fmt_d has_alt_count ++ ['\t'] ++ e.fmt_e prob ++ ['\t'] ++ e.fmt_f odds ++ ['\t']
    .ok (output ++ token ++ ['['] ++ set_field var_set ++ [']', '\n'])

/-- The calls `stats_create(combo, nreads)` and `calc_likelihood(s, ...)` of a scoring
loop: the new entry `s` of `stats` and the reads after the call. The index `seti` of
the entry is the length of `stats` before it is added. -/
def score_combo {R : Type} [Double R] (o : options R) (k : kernels R)
    (var_data : List variant_t) (refseq : List Char) (refseq_length : Int)
    (stats : List (stats_t R)) (reads : List (read_t R)) (combo : List Nat) :
    Except halt (stats_t R × List (read_t R)) :=
  match calc_likelihood o k (stats_create combo) var_data refseq refseq_length reads
      stats.length with
  | .error f => .error (.fault f)
  | .ok r => .ok r

/-- The loop `for (seti = 0; seti < combo->len; seti++)` over the combinations of
`powerset`: `stats` and the reads after the loop. -/
def score_loop {R : Type} [Double R] (o : options R) (k : kernels R)
    (var_data : List variant_t) (refseq : List Char) (refseq_length : Int) :
    List (List Nat) → List (stats_t R) → List (read_t R) →
      Except halt (List (stats_t R) × List (read_t R))
  | [], stats, reads => .ok (stats, reads)
  | combo :: rest, stats, reads =>
    match score_combo o k var_data refseq refseq_length stats reads combo with
    | .error x => .error x
    | .ok (s, reads1) =>
      score_loop o k var_data refseq refseq_length rest (vector_add stats s) reads1

/-- The loop `for (seti = 1; seti < combo->len; seti++) heap_push(h, stats[seti]->mut,
stats[seti])`, from the index `seti` and the entries of `stats` from that index on. -/
def heap_seed {R : Type} (e : environment R) :
    Nat → List (stats_t R) → List (R × Nat) → List (R × Nat)
  | _, [], h => h
  | seti, s :: rest, h => heap_seed e (seti + 1) rest (e.heap_push h s.«mut» seti)

/-- The loop over the combinations `c` derived from a popped entry: each is scored,
added to `stats` and pushed on the heap. -/
def derive_loop {R : Type} [Double R] (e : environment R) (o : options R) (k : kernels R)
    (var_data : List variant_t) (refseq : List Char) (refseq_length : Int) :
    List (List Nat) → List (R × Nat) → List (stats_t R) → List (read_t R) →
      Except halt (List (R × Nat) × List (stats_t R) × List (read_t R))
  | [], h, stats, reads => .ok (h, stats, reads)
  | combo :: rest, h, stats, reads =>
    match score_combo o k var_data refseq refseq_length stats reads combo with
    | .error x => .error x
    | .ok (s, reads1) =>
      derive_loop e o k var_data refseq refseq_length rest
        (e.heap_push h s.«mut» stats.length) (vector_add stats s) reads1

/-- The loop `while (s = heap_pop(h), s != NULL)`. The test of the `break` is computed
in `size_t` (64 bits): `(int)stats->len - var_set->len - 1 >= maxh`. -/
def heap_loop {R : Type} [Double R] (e : environment R) (o : options R) (k : kernels R)
    (var_data : List variant_t) (refseq : List Char) (refseq_length : Int) :
    Nat → List (R × Nat) → List (stats_t R) → List (read_t R) →
      Except halt (List (stats_t R) × List (read_t R))
  | 0, _, _, _ => .error .fuel
  | fuel + 1, h, stats, reads =>
    match e.heap_pop h with
    | none => .ok (stats, reads)
    | some (si, h1) =>
      if ((stats.length : Int) - (var_data.length : Int) - 1) % 2 ^ 64 ≥ e.maxh % 2 ^ 64 then
        .ok (stats, reads)
      else
        match stats[si]? with
        | none => .error .index
        | some s =>
          match derive_loop e o k var_data refseq refseq_length
              (e.derive_combo s.combo var_data.length) h1 stats reads with
          | .error x => .error x
          | .ok (h2, stats2, reads2) =>
            heap_loop e o k var_data refseq refseq_length fuel h2 stats2 reads2

/-- The vector `haplotypes`: the indices `i` of `stats` with
`(double)c[i] / (double)read_list->len >= 0.1`, where `c[i]` is the number of reads
whose `index` is `i`. -/
def haplotype_list {R : Type} [Double R] (stats_len : Nat) (reads : List (read_t R)) :
    List Nat :=
  (List.range stats_len).filter (fun i =>
    decide (¬ ((Double.of_int ((reads.countP (fun r => r.index = i) : Nat) : Int) : R)
      / Double.of_int (reads.length : Int) < (0.1 : R))))

/-- The inner loop over the reads for one pair of haplotypes: the entry of `prhap`. -/
def pair_sum {R : Type} [Double R] [BEq R] (xs ys : List R) : List Nat → R → Except halt R
  | [], acc => .ok acc
  | readi :: rest, acc =>
    match xs[readi]?, ys[readi]? with
    | some vx, some vy =>
      if (vx == -Double.DBL_MAX && vy == -Double.DBL_MAX) = true then pair_sum xs ys rest acc
      else pair_sum xs ys rest (acc + het_mixture vy vx)
    | _, _ => .error .index

/-- The members `x` and `y` of a pair: `haplotypes->data[combo[seti][0]]` and
`haplotypes->data[combo[seti][1]]`. -/
def pair_members (haplotypes : List Nat) (pair : List Nat) : Except halt (Nat × Nat) :=
  match pair[0]?, pair[1]? with
  | some p0, some p1 =>
    match haplotypes[p0]?, haplotypes[p1]? with
    | some x, some y => .ok (x, y)
    | _, _ => .error .index
  | _, _ => .error .index

/-- The loop that fills `prhap`, one entry per pair. -/
def prhap_loop {R : Type} [Double R] [BEq R] (stats : List (stats_t R))
    (haplotypes : List Nat) (nreads : Nat) : List (List Nat) → Except halt (List R)
  | [] => .ok []
  | pair :: rest =>
    match pair_members haplotypes pair with
    | .error x => .error x
    | .ok (x, y) =>
      match stats[x]?, stats[y]? with
      | some sx, some sy =>
        match pair_sum sx.read_prgv sy.read_prgv (List.range nreads) 0 with
        | .error x => .error x
        | .ok pr =>
          match prhap_loop stats haplotypes nreads rest with
          | .error x => .error x
          | .ok prs => .ok (pr :: prs)
      | _, _ => .error .index

/-- The value `total` of `evaluate`. -/
def total_evidence {R : Type} [Double R] (stats : List (stats_t R)) (prhap : List R) :
    Except halt R :=
  match stats with
  | [] => .error .index
  | s0 :: rest =>
    .ok (prhap.foldl log_add_exp
      (rest.foldl (fun total s => log_add_exp (log_add_exp total s.«mut») s.ref)
        (log_add_exp s0.«mut» s0.ref)))

/-- The variables of the marginal branch of `evaluate` for one variant. -/
structure marginal_t (R : Type) where
  has_alt : R
  not_alt : R
  acount : Int
  rcount : Int
  seen : Int

/-- The body of the loop over `stats` in the marginal branch, for the variant `i` and
the entry `s`. -/
def marginal_stat {R : Type} [Double R] [BEq R] (i : Nat) (m : marginal_t R)
    (s : stats_t R) : Except halt (marginal_t R) :=
  match variant_find s.combo i with
  | none => .error .index
  | some r =>
    if r ≠ -1 then
      .ok { has_alt := if (m.has_alt == 0) = true then s.«mut» - s.ref
              else log_add_exp m.has_alt (s.«mut» - s.ref),
            not_alt := m.not_alt,
            seen := if s.seen > m.seen then s.seen else m.seen,
            acount := if s.alt_count > m.acount then s.alt_count else m.acount,
            rcount := if s.alt_count > m.acount then s.ref_count else m.rcount }
    else
      .ok { m with
            not_alt := if (m.not_alt == 0) = true then s.«mut» - s.ref
              else log_add_exp m.not_alt (s.«mut» - s.ref) }

/-- The loop over `stats` in the marginal branch. -/
def marginal_stats {R : Type} [Double R] [BEq R] (i : Nat) :
    List (stats_t R) → marginal_t R → Except halt (marginal_t R)
  | [], m => .ok m
  | s :: rest, m =>
    match marginal_stat i m s with
    | .error x => .error x
    | .ok m1 => marginal_stats i rest m1

/-- The test `variant_find(stat[x]->combo, i) != -1 || variant_find(stat[y]->combo, i)
!= -1` for a pair of haplotypes. -/
def pair_has {R : Type} (stats : List (stats_t R)) (i x y : Nat) : Except halt Bool :=
  match stats[x]? with
  | none => .error .index
  | some sx =>
    match variant_find sx.combo i with
    | none => .error .index
    | some rx =>
      if rx ≠ -1 then .ok true
      else
        match stats[y]? with
        | none => .error .index
        | some sy =>
          match variant_find sy.combo i with
          | none => .error .index
          | some ry => .ok (decide (ry ≠ -1))

/-- The loop over the pairs in the marginal branch, with the entries of `prhap`. -/
def marginal_pairs {R : Type} [Double R] (i : Nat) (stats : List (stats_t R))
    (haplotypes : List Nat) :
    List (List Nat) → List R → marginal_t R → Except halt (marginal_t R)
  | [], _, m => .ok m
  | _ :: _, [], _ => .error .index
  | pair :: rest, pr :: prs, m =>
    match pair_members haplotypes pair with
    | .error x => .error x
    | .ok (x, y) =>
      match pair_has stats i x y with
      | .error x => .error x
      | .ok true =>
        marginal_pairs i stats haplotypes rest prs
          { m with has_alt := log_add_exp m.has_alt pr }
      | .ok false =>
        marginal_pairs i stats haplotypes rest prs
          { m with not_alt := log_add_exp m.not_alt pr }

/-- The values of the marginal branch for the variant `i` when `variant_print` is
called. -/
def marginal {R : Type} [Double R] [BEq R] (i : Nat) (stats : List (stats_t R))
    (haplotypes : List Nat) (pairs : List (List Nat)) (prhap : List R) :
    Except halt (marginal_t R) :=
  match marginal_stats i stats
      { has_alt := 0, not_alt := 0, acount := -1, rcount := -1, seen := -1 } with
  | .error x => .error x
  | .ok m => marginal_pairs i stats haplotypes pairs prhap m

/-- The loop `for (i = 0; i < var_set->len; i++)` of the marginal branch, over the
indices given: the string `output` after the loop. -/
def marginal_loop {R : Type} [Double R] [BEq R] (e : environment R)
    (var_set : List variant_t) (stats : List (stats_t R)) (haplotypes : List Nat)
    (pairs : List (List Nat)) (prhap : List R) (total : R) :
    List Nat → List Char → Except halt (List Char)
  | [], output => .ok output
  | i :: rest, output =>
    match marginal i stats haplotypes pairs prhap with
    | .error x => .error x
    | .ok m =>
      match variant_print e output var_set i m.seen m.rcount m.acount total m.has_alt
          m.not_alt with
      | .error x => .error x
      | .ok output1 => marginal_loop e var_set stats haplotypes pairs prhap total rest output1

/-- The loop of the branch `mvh` over `stats` from the index `seti`: `max_seti`, `r`
and `has_alt` after the loop. -/
def max_loop {R : Type} [Double R] :
    Nat → List (stats_t R) → Nat × R × R → Nat × R × R
  | _, [], acc => acc
  | seti, s :: rest, (max_seti, r, has_alt) =>
    if s.«mut» - s.ref > r then max_loop (seti + 1) rest (seti, s.«mut» - s.ref, s.«mut»)
    else max_loop (seti + 1) rest (max_seti, r, has_alt)

/-- The vector `v` of the branch `mvh`: the variants `var_data[combo[i]]`. -/
def combo_set (var_data : List variant_t) : List Nat → Except halt (List variant_t)
  | [] => .ok []
  | ci :: rest =>
    match var_data[ci]? with
    | none => .error .index
    | some v =>
      match combo_set var_data rest with
      | .error x => .error x
      | .ok vs => .ok (v :: vs)

/-- The branch `mvh` of `evaluate`: the string `output` after it. -/
def mvh_output {R : Type} [Double R] (e : environment R) (var_data : List variant_t)
    (stats : List (stats_t R)) (total : R) : Except halt (List Char) :=
  match stats with
  | [] => .error .index
  | s0 :: rest =>
    let best := max_loop 1 rest (0, s0.«mut» - s0.ref, s0.«mut»)
    match stats[best.1]? with
    | none => .error .index
    | some sm =>
      match combo_set var_data sm.combo with
      | .error x => .error x
      | .ok v =>
        variant_print e [] v 0 sm.seen sm.ref_count sm.alt_count
          (log_add_exp total sm.ref) best.2.2 sm.ref

/-- The function `evaluate` of eagle.c: `none` is the return value `NULL`, otherwise
the string returned. The argument `fuel` is the step budget of the heap loop. -/
def evaluate {R : Type} [Double R] [BEq R] (e : environment R) (o : options R)
    (k : kernels R) (fuel : Nat) (var_set : List variant_t) :
    Except halt (Option (List Char)) :=
  match var_set.head?, var_set.getLast? with
  | some v0, some vl =>
    match k.refseq_fetch v0.chr with
    | none => .ok none
    | some (refseq, refseq_length) =>
      let read_list := e.bam_fetch v0.chr v0.pos vl.pos
      if read_list.length = 0 then .ok none
      else
        match score_loop o k var_set refseq refseq_length
            (e.powerset var_set.length e.maxh) [] read_list with
        | .error x => .error x
        | .ok (stats0, reads0) =>
          match (if var_set.length > 1 then
              heap_loop e o k var_set refseq refseq_length fuel
                (heap_seed e 1 (stats0.drop 1) []) stats0 reads0
            else .ok (stats0, reads0)) with
          | .error x => .error x
          | .ok (stats, reads) =>
            let haplotypes := haplotype_list stats.length reads
            let pairs :=
              if haplotypes.length > 1 then e.combinations 2 haplotypes.length else []
            match prhap_loop stats haplotypes reads.length pairs with
            | .error x => .error x
            | .ok prhap =>
              match total_evidence stats prhap with
              | .error x => .error x
              | .ok total =>
                match (if e.mvh then mvh_output e var_set stats total
                  else marginal_loop e var_set stats haplotypes pairs prhap total
                    (List.range var_set.length) []) with
                | .error x => .error x
                | .ok output => .ok (some output)
  | _, _ => .error .index

/-- One pass of the loop of a worker in `pool`: `none` when the queue is empty (the
loop ends), otherwise the queue and the results after the pass. -/
def pool_step {R : Type} [Double R] [BEq R] (e : environment R) (o : options R)
    (k : kernels R) (fuel : Nat) (queue : List (List variant_t))
    (results : List (List Char)) :
    Except halt (Option (List (List variant_t) × List (List Char))) :=
  match vector_pop queue with
  | (none, _) => .ok none
  | (some var_set, queue1) =>
    match evaluate e o k fuel var_set with
    | .error x => .error x
    | .ok none => .ok (some (queue1, results))
    | .ok (some outstr) => .ok (some (queue1, vector_add results outstr))

/-- The function `pool` of eagle.c run by one worker: the results when the queue is
empty. The budget `n` bounds the number of passes. -/
def pool {R : Type} [Double R] [BEq R] (e : environment R) (o : options R)
    (k : kernels R) (fuel : Nat) :
    Nat → List (List variant_t) → List (List Char) → Except halt (List (List Char))
  | 0, _, _ => .error .fuel
  | n + 1, queue, results =>
    match pool_step e o k fuel queue results with
    | .error x => .error x
    | .ok none => .ok results
    | .ok (some (queue1, results1)) => pool e o k fuel n queue1 results1

/-! ### Notions of the specification of the marginal branch, and sample data -/

/-- The update of `has_alt` and of `not_alt` in the loop over `stats`: the term takes
the place of a running value that is exactly 0 and is log-added to any other. -/
def sentinel_add {R : Type} [Double R] [BEq R] (running term : R) : R :=
  if (running == 0) = true then term else log_add_exp running term

/-- The term `mut - ref` of every entry of `stats` whose combination contains the
variant `i` (`inside = true`), or does not contain it (`inside = false`), in order. -/
def combo_terms {R : Type} [Double R] (i : Nat) (inside : Bool) (stats : List (stats_t R)) :
    List R :=
  (stats.filter (fun s => decide (i ∈ s.combo) = inside)).map (fun s => s.«mut» - s.ref)

/-- A pair of haplotypes has a member whose combination contains the variant `i`. -/
def pair_covers {R : Type} (stats : List (stats_t R)) (haplotypes : List Nat) (i : Nat)
    (pair : List Nat) : Bool :=
  match pair_members haplotypes pair with
  | .ok (x, y) =>
    (match stats[x]? with
      | some sx => decide (i ∈ sx.combo)
      | none => false) ||
    (match stats[y]? with
      | some sy => decide (i ∈ sy.combo)
      | none => false)
  | .error _ => false

/-- The entry of `prhap` of every pair with a member that contains the variant `i`
(`inside = true`), or with no such member (`inside = false`), in order. -/
def pair_terms {R : Type} (stats : List (stats_t R)) (haplotypes : List Nat) (i : Nat)
    (inside : Bool) (pairs : List (List Nat)) (prhap : List R) : List R :=
  ((pairs.zip prhap).filter (fun p => pair_covers stats haplotypes i p.1 = inside)).map
    (fun p => p.2)

/-- A sample environment: no reads are fetched, the combinations are the singletons,
no combination is derived, the heap is a stack, and the conversions of `printf` write
a fixed text. -/
def sample_environment {R : Type} [Double R] : environment R :=
  { maxh := 1024, mvh := false, M_LN10 := Double.log (10.0 : R),
    fmt_e := fun _ => "%e".toList, fmt_f := fun _ => "%f".toList,
    bam_fetch := fun _ _ _ => [],
    powerset := fun n _ => (List.range n).map (fun i => [i]),
    derive_combo := fun _ _ => [],
    combinations := fun _ _ => [],
    heap_push := fun h p s => (p, s) :: h,
    heap_pop := fun h =>
      match h with
      | [] => none
      | (_, s) :: rest => some (s, rest) }

/-- Two entries of `stats` for the combinations `[0]` and `[0, 1]`, with
`mut - ref = 0` for the first and `mut - ref = 1` for the second. -/
def sample_stats {R : Type} [Double R] : List (stats_t R) :=
  [{ (stats_create [0] : stats_t R) with «mut» := 0, ref := 0 },
   { (stats_create [0, 1] : stats_t R) with «mut» := Double.of_int 1, ref := 0 }]

/-! ### A sample enumeration of combinations -/

/-- A sample environment for the heap loop with the value `maxh` given: `powerset`
returns the combination of all variants and then the singletons, `derive_combo` adds
one variant with a larger index to a combination, and the heap pops the entry pushed
last. -/
def search_environment {R : Type} [Double R] (maxh : Int) : environment R :=
  { (sample_environment : environment R) with
    maxh := maxh,
    powerset := fun n _ =>
      if n = 1 then [[0]] else List.range n :: (List.range n).map (fun i => [i]),
    derive_combo := fun c n =>
      ((List.range n).filter (fun i =>
        match c.getLast? with
        | some l => decide (l < i)
        | none => false)).map (fun i => c ++ [i]),
    bam_fetch := fun _ _ _ => [plain_read 0] }

/-! ### Notions for the assignment of a read to its best combination -/

/-- The read after the block `if (verbose && prgv > read_data[readi]->prgv)` of
`calc_likelihood`, for a read that crosses the variants of the combination. -/
def track_read {R : Type} [Double R] (o : options R) (k : kernels R) (combo : List Nat)
    (var_data : List variant_t) (refseq : List Char) (refseq_length : Int)
    (has_indel : Bool) (altseq : List Char) (altseq_length : Int) (seti : Nat)
    (read : read_t R) : read_t R :=
  if o.verbose ∧ (mixture_scores o k combo var_data refseq refseq_length has_indel altseq
      altseq_length read).2.2 > read.prgv then
    { read with
        index := seti
        prgu := (mixture_scores o k combo var_data refseq refseq_length has_indel altseq
          altseq_length read).2.1
        prgv := (mixture_scores o k combo var_data refseq refseq_length has_indel altseq
          altseq_length read).2.2
        pout := (mixture_scores o k combo var_data refseq refseq_length has_indel altseq
          altseq_length read).1 }
  else read

/-- The value `prgv` (after the mixture with `pout`) that `calc_likelihood` computes
for a read under a combination: `none` when the read does not cross the variants of
the combination, or when the call does not reach the loop over the reads. -/
def combo_prgv {R : Type} [Double R] (o : options R) (k : kernels R)
    (var_data : List variant_t) (refseq : List Char) (refseq_length : Int)
    (combo : List Nat) (read : read_t R) : Option R :=
  match (if o.lowmem then .ok false else has_indel_loop var_data combo) with
  | .error _ => none
  | .ok has_indel =>
    match (if has_indel ∨ o.dp then construct_altseq refseq refseq_length combo var_data
        else .ok ([], 0)) with
    | .error _ => none
    | .ok (altseq, altseq_length) =>
      match combo_first var_data combo, combo_last var_data combo with
      | some first, some last =>
        if not_spanning read first last then none
        else some (mixture_scores o k combo var_data refseq refseq_length has_indel altseq
          altseq_length read).2.2
      | _, _ => none

/-- Two records of one read: they differ at most in the fields `index`, `prgu`, `prgv`
and `pout` that `calc_likelihood` writes. -/
def same_read {R : Type} (r r1 : read_t R) : Prop :=
  r1 = { r with index := r1.index, prgu := r1.prgu, prgv := r1.prgv, pout := r1.pout }

/-- The kernel `set_prob_matrix` reads the data of a read, not the fields `index`,
`prgu`, `prgv` and `pout`. -/
def reads_only_data {R : Type} (k : kernels R) : Prop :=
  ∀ (r : read_t R) (i : Nat) (u v p : R) (m1 m2 : List R) (b : Bool),
    k.set_prob_matrix { r with index := i, prgu := u, prgv := v, pout := p } m1 m2 b
      = k.set_prob_matrix r m1 m2 b

/-- The pair `(index, prgv)` is the best of the values `vals` (one per scored
combination, `none` where the read does not cross the combination) above the start
`(index0, prgv0)`: `prgv` is at least every value and at least `prgv0`; either
nothing was recorded, or `index` is the first combination whose value is `prgv`, and
`prgv` is above `prgv0`. -/
def best_tracked (vals : List (Option ℝ)) (index0 : Nat) (prgv0 : ℝ) (index : Nat)
    (prgv : ℝ) : Prop :=
  (∀ (j : Nat) (v : ℝ), vals[j]? = some (some v) → v ≤ prgv) ∧ prgv0 ≤ prgv ∧
  ((index = index0 ∧ prgv = prgv0) ∨
   (vals[index]? = some (some prgv) ∧ prgv0 < prgv ∧
      ∀ (j : Nat), j < index → ∀ (v : ℝ), vals[j]? = some (some v) → v < prgv))

/-- Sample kernels whose value under the alternative sequence is minus the number of
variants of the combination. -/
def counting_kernels {R : Type} [Double R] : kernels R :=
  { (flat_kernels (-Double.of_int 20) 0 0 : kernels R) with
    calc_prob_snps := fun combo _ _ _ _ _ _ _ _ _ =>
      (0, -Double.of_int (combo.length : Int)) }

/-- The reads `reads` are the reads `reads0` after the combinations of `stats` were
scored, with the best combination recorded: each read differs from the read it was at
most in the fields written by `calc_likelihood`, and its `(index, prgv)` is the best
of the values of the scored combinations above the `(index, prgv)` it had. -/
def tracked_state (o : options ℝ) (k : kernels ℝ) (var_data : List variant_t)
    (refseq : List Char) (refseq_length : Int) (reads0 : List (read_t ℝ))
    (stats : List (stats_t ℝ)) (reads : List (read_t ℝ)) : Prop :=
  reads.length = reads0.length ∧
  ∀ (p : Nat) (r0 r : read_t ℝ), reads0[p]? = some r0 → reads[p]? = some r →
    same_read r0 r ∧
    best_tracked (stats.map (fun s => combo_prgv o k var_data refseq refseq_length s.combo r0))
      r0.index r0.prgv r.index r.prgv

/-! ## `nat_sort_cmp` and `nat_sort_variant` (vector.c)

The functions of string.h, strings.h, ctype.h and stdio.h that `nat_sort_cmp` calls
are not code of the program: they are the fields of `string_lib`. A string is the
list of its characters before the terminating NUL. -/

/-- The library functions called by `nat_sort_cmp`. The calls of `sscanf` return the
count `t`, and the values stored in `i` and `n` (read by the program only when
`t >= 1`). -/
structure string_lib where
  strcasecmp : List Char → List Char → Int
  strcmp : List Char → List Char → Int
  isspace : Char → Int
  isalpha : Char → Int
  ispunct : Char → Int
  tolower : Char → Char
  /-- The call `sscanf(s, "%d%n", &i, &n)`. -/
  scan_int : List Char → Int × Int × Nat
  /-- The call `sscanf(s, "%*[^0123456789]%d%n", &i, &n)`. -/
  scan_skip_int : List Char → Int × Int × Nat

/-- The value of a `char` (8 bits, signed) in a comparison. -/
def char_val (c : Char) : Int :=
  if c.toNat % 256 < 128 then (c.toNat % 256 : Nat) else (c.toNat % 256 : Nat) - 256

/-- The expression `(x > y) - (x < y)` on `int`. -/
def sign_cmp (x y : Int) : Int :=
  (if x > y then 1 else 0) - (if x < y then 1 else 0)

/-- The two calls of `sscanf` in the branch `compare digits`: the second is made when
the first returns 0. -/
def scan_digits (lib : string_lib) (s : List Char) : Int × Int × Nat :=
  if (lib.scan_int s).1 = 0 then lib.scan_skip_int s else lib.scan_int s

/-- The loop `while (cmp == 0 && *s1 != '\0' && *s2 != '\0')` of `nat_sort_cmp`, on the
rest of the two strings from `s1` and `s2`: the value of `cmp` after the loop. The
characters that the loop overwrites with their lower case lie before `s1` and `s2`
when they are written and are not read again. Moving `s1` or `s2` past the end of its
string is a fault. -/
def nat_sort_loop (lib : string_lib) : Nat → List Char → List Char → Except stop Int
  | 0, _, _ => .error .fuel
  | fuel + 1, s1, s2 =>
    match s1, s2 with
    | c1 :: r1, c2 :: r2 =>
      if lib.isspace c1 ≠ 0 ∧ lib.isspace c2 ≠ 0 then nat_sort_loop lib fuel r1 r2
      else if (lib.isalpha c1 ≠ 0 ∧ lib.isalpha c2 ≠ 0)
          ∨ (lib.ispunct c1 ≠ 0 ∧ lib.ispunct c2 ≠ 0) then
        let cmp := sign_cmp (char_val (lib.tolower c1)) (char_val (lib.tolower c2))
        if cmp = 0 then nat_sort_loop lib fuel r1 r2 else .ok cmp
      else
        let t1 := scan_digits lib s1
        let t2 := scan_digits lib s2
        if t1.1 < 1 ∨ t2.1 < 1 then
          let cmp := lib.strcmp s1 s2
          if cmp = 0 then nat_sort_loop lib fuel s1 s2 else .ok cmp
        else
          let cmp := sign_cmp t1.2.1 t2.2.1
          if cmp = 0 then
            if t1.2.2 ≤ s1.length ∧ t2.2.2 ≤ s2.length then
              nat_sort_loop lib fuel (s1.drop t1.2.2) (s2.drop t2.2.2)
            else .error .index
          else .ok cmp
    | _, _ => .ok 0

/-- The function `nat_sort_variant`: `nat_sort_cmp(a, b, VARIANT_T)` on the variants
`c1 = *a` and `c2 = *b`. -/
def nat_sort_variant (lib : string_lib) (fuel : Nat) (c1 c2 : variant_t) : Except stop Int :=
  if lib.strcasecmp c1.chr c2.chr = 0 then .ok (sign_cmp c1.pos c2.pos)
  else nat_sort_loop lib fuel c1.chr c2.chr

/-! ### The library functions in the "C" locale -/

/-- The function `isspace`: 1 for space and the characters `\t \n \v \f \r`. -/
def c_isspace (c : Char) : Int :=
  if c.toNat = 32 ∨ (9 ≤ c.toNat ∧ c.toNat ≤ 13) then 1 else 0

/-- The function `isalpha`: 1 for the letters `A-Z` and `a-z`. -/
def c_isalpha (c : Char) : Int :=
  if (65 ≤ c.toNat ∧ c.toNat ≤ 90) ∨ (97 ≤ c.toNat ∧ c.toNat ≤ 122) then 1 else 0

/-- The function `isdigit` as a test. -/
def c_isdigit (c : Char) : Bool := decide (48 ≤ c.toNat ∧ c.toNat ≤ 57)

/-- The function `ispunct`: 1 for a printing character that is neither a space, nor a
letter, nor a digit. -/
def c_ispunct (c : Char) : Int :=
  if 33 ≤ c.toNat ∧ c.toNat ≤ 126 ∧ c_isalpha c = 0 ∧ c_isdigit c = false then 1 else 0

/-- The function `tolower`. -/
def c_tolower (c : Char) : Char :=
  if 65 ≤ c.toNat ∧ c.toNat ≤ 90 then Char.ofNat (c.toNat + 32) else c

/-- The function `strcmp`, returning -1, 0 or 1: the strings are compared as
sequences of `unsigned char`. -/
def c_strcmp : List Char → List Char → Int
  | [], [] => 0
  | [], _ :: _ => -1
  | _ :: _, [] => 1
  | a :: s, b :: t =>
    if a.toNat % 256 < b.toNat % 256 then -1
    else if a.toNat % 256 > b.toNat % 256 then 1
    else c_strcmp s t

/-- The function `strcasecmp`: `strcmp` on the strings in lower case. -/
def c_strcasecmp (s t : List Char) : Int :=
  c_strcmp (s.map c_tolower) (t.map c_tolower)

/-- The value of a run of decimal digits after the value `acc`. -/
def digits_value (acc : Int) : List Char → Int
  | [] => acc
  | c :: rest => digits_value (acc * 10 + ((c.toNat : Int) - 48)) rest

/-- The conversion `%d` followed by `%n`, after `n0` characters were read: white space
is skipped, then an optional sign and a non-empty run of digits are read. The count
is 1 with the value and the number of characters read; 0 when the next character
cannot start or continue a number; -1 at the end of the string. -/
def conv_int (n0 : Nat) (s : List Char) : Int × Int × Nat :=
  let ws := s.takeWhile (fun c => decide (c_isspace c ≠ 0))
  let s1 := s.drop ws.length
  match s1 with
  | [] => (-1, 0, 0)
  | c :: rest =>
    let signed : Bool := c = '-' ∨ c = '+'
    let body := if signed then rest else s1
    let ds := body.takeWhile c_isdigit
    if ds = [] then (if signed ∧ body = [] then -1 else 0, 0, 0)
    else
      (1, if c = '-' then -digits_value 0 ds else digits_value 0 ds,
        n0 + ws.length + (if signed then 1 else 0) + ds.length)

/-- The call `sscanf(s, "%d%n", &i, &n)`. -/
def c_scan_int (s : List Char) : Int × Int × Nat := conv_int 0 s

/-- The call `sscanf(s, "%*[^0123456789]%d%n", &i, &n)`: a non-empty run of characters
that are not digits is skipped, then `%d` is read. Nothing is stored when the count is
below 1. -/
def c_scan_skip_int (s : List Char) : Int × Int × Nat :=
  let skipped := s.takeWhile (fun c => !c_isdigit c)
  if skipped = [] then (if s = [] then -1 else 0, 0, 0)
  else
    let r := conv_int skipped.length (s.drop skipped.length)
    if r.1 = 1 then r else (-1, 0, 0)

/-- The library functions in the "C" locale. -/
def c_locale : string_lib :=
  { strcasecmp := c_strcasecmp, strcmp := c_strcmp, isspace := c_isspace,
    isalpha := c_isalpha, ispunct := c_ispunct, tolower := c_tolower,
    scan_int := c_scan_int, scan_skip_int := c_scan_skip_int }


/-! ## Facts about `construct_altseq` -/

theorem memcpy_segments (A B C X Y Z : List Char) (doff soff n : Nat)
    (hA : A.length = doff) (hB : B.length = n) (hX : X.length = soff) (hY : Y.length = n) :
    memcpy (A ++ B ++ C) doff (X ++ Y ++ Z) soff n = .ok (A ++ Y ++ C) := by
  subst hA hX hB
  have h1 : X.length + B.length ≤ (X ++ Y ++ Z).length ∧
      A.length + B.length ≤ (A ++ B ++ C).length := by
    simp only [List.length_append]; omega
  unfold memcpy
  rw [if_pos h1]
  have e1 : List.take A.length (A ++ B ++ C) = A := by
    rw [List.append_assoc, List.take_left]
  have e2 : List.drop (A.length + B.length) (A ++ B ++ C) = C := by
    rw [← List.length_append, List.drop_left]
  have e3 : List.take B.length (List.drop X.length (X ++ Y ++ Z)) = Y := by
    rw [List.append_assoc, List.drop_left, ← hY, List.take_left]
  rw [e1, e2, e3]

theorem strip_common_eq (s1 s2 : List Char) (pos : Nat) (h : s1 ≠ s2) :
    strip_common s1 s2 pos =
      .ok (s1.drop (lcp_len s1 s2), s2.drop (lcp_len s1 s2), pos + lcp_len s1 s2) := by
  induction s1 generalizing s2 pos with
  | nil =>
    cases s2 with
    | nil => exact absurd rfl h
    | cons b t => simp [strip_common, lcp_len]
  | cons a s ih =>
    cases s2 with
    | nil => simp [strip_common, lcp_len]
    | cons b t =>
      by_cases hab : a = b
      · subst hab
        have hst : s ≠ t := fun e => h (by rw [e])
        simp only [strip_common, lcp_len, if_true, List.drop_succ_cons]
        rw [ih t (pos + 1) hst]
        simp only [Nat.add_assoc, Nat.add_comm 1]
      · simp [strip_common, lcp_len, hab]

theorem strip_common_same (s : List Char) (pos : Nat) :
    strip_common s s pos = .error .bad_access := by
  induction s generalizing pos with
  | nil => rfl
  | cons a s ih => simp [strip_common, ih]

theorem select_alleles_eq (v : variant_t) (pos : Nat) (h : v.ref ≠ v.alt) :
    select_alleles v pos = .ok (stripped_ref v, stripped_alt v, pos + stripped_shift v) := by
  unfold select_alleles stripped_ref stripped_alt stripped_shift has_dash
  by_cases h1 : v.ref.head? = some '-'
  · simp [h1]
  · by_cases h2 : v.alt.head? = some '-'
    · simp [h1, h2]
    · simp [h1, h2, strip_common_eq v.ref v.alt pos h]

theorem splice_segments (st : altseq_state) (P R S var_alt : List Char)
    (hbuf : st.altseq = P ++ R ++ S ++ [NUL])
    (hlen : st.altseq_length = ((P ++ R ++ S).length : Int)) :
    splice st P.length R var_alt =
      .ok { altseq := P ++ var_alt ++ S ++ [NUL],
            altseq_length := st.altseq_length + ((var_alt.length : Int) - (R.length : Int)),
            offset := st.offset + ((var_alt.length : Int) - (R.length : Int)) } := by
  simp only [List.length_append] at hlen
  unfold splice
  by_cases hd : (var_alt.length : Int) - (R.length : Int) = 0
  · have hAR : var_alt.length = R.length := by omega
    have hm : memcpy st.altseq P.length var_alt 0 var_alt.length
        = .ok (P ++ var_alt ++ (S ++ [NUL])) := by
      have := memcpy_segments P R (S ++ [NUL]) [] var_alt [] P.length 0 var_alt.length
        rfl hAR.symm rfl rfl
      simpa [hbuf, List.append_assoc] using this
    simp only [hd, if_true, hm, add_zero, List.append_assoc]
  · have hneg : ¬ (st.altseq_length - (P.length : Int) - (R.length : Int) < 0 ∨
        st.altseq_length + ((var_alt.length : Int) - (R.length : Int)) + 1 < 0) := by
      rw [hlen]; omega
    have hN : (st.altseq_length + ((var_alt.length : Int) - (R.length : Int)) + 1).toNat
        = P.length + (var_alt.length + (S.length + 1)) := by
      rw [hlen]; omega
    have hcnt : (st.altseq_length - (P.length : Int) - (R.length : Int)).toNat = S.length := by
      rw [hlen]; omega
    have hL : (st.altseq_length + ((var_alt.length : Int) - (R.length : Int))).toNat
        = (P ++ var_alt ++ S).length := by
      simp only [List.length_append]; rw [hlen]; omega
    have m1 : memcpy (List.replicate (P.length + (var_alt.length + (S.length + 1))) NUL) 0
        st.altseq 0 P.length
        = .ok (P ++ List.replicate (var_alt.length + (S.length + 1)) NUL) := by
      have := memcpy_segments [] (List.replicate P.length NUL)
        (List.replicate (var_alt.length + (S.length + 1)) NUL) [] P (R ++ S ++ [NUL])
        0 0 P.length rfl (by simp) rfl rfl
      simpa [hbuf, List.append_assoc, List.replicate_add] using this
    have m2 : memcpy (P ++ List.replicate (var_alt.length + (S.length + 1)) NUL) P.length
        var_alt 0 var_alt.length
        = .ok (P ++ var_alt ++ List.replicate (S.length + 1) NUL) := by
      have := memcpy_segments P (List.replicate var_alt.length NUL)
        (List.replicate (S.length + 1) NUL) [] var_alt []
        P.length 0 var_alt.length rfl (by simp) rfl rfl
      simpa [List.append_assoc, List.replicate_add] using this
    have m3 : memcpy (P ++ var_alt ++ List.replicate (S.length + 1) NUL)
        (P.length + var_alt.length) st.altseq (P.length + R.length) S.length
        = .ok (P ++ var_alt ++ S ++ [NUL]) := by
      have := memcpy_segments (P ++ var_alt) (List.replicate S.length NUL)
        [NUL] (P ++ R) S [NUL]
        (P.length + var_alt.length) (P.length + R.length) S.length
        (by simp) (by simp) (by simp) rfl
      simpa [hbuf, List.append_assoc, List.replicate_add] using this
    have hset : (P ++ var_alt ++ S ++ [NUL]).set (P ++ var_alt ++ S).length NUL
        = P ++ var_alt ++ S ++ [NUL] := by
      rw [List.set_append_right _ _ (le_refl _)]
      simp
    have hlt : (P ++ var_alt ++ S).length < (P ++ var_alt ++ S ++ [NUL]).length := by
      simp
    simp only [hd, if_false, hneg, hN, m1, m2, hcnt, m3, hL, hlt, if_true, hset]

theorem splice_ref_length (st : altseq_state) (pos : Nat) (r1 r2 var_alt : List Char)
    (h : r1.length = r2.length) : splice st pos r1 var_alt = splice st pos r2 var_alt := by
  unfold splice
  simp only [h]

theorem splice_eq (st : altseq_state) (content var_ref var_alt : List Char) (pos : Nat)
    (hbuf : st.altseq = content ++ [NUL]) (hlen : st.altseq_length = (content.length : Int))
    (hin : pos + var_ref.length ≤ content.length) :
    splice st pos var_ref var_alt =
      .ok { altseq := content.take pos ++ var_alt ++ content.drop (pos + var_ref.length) ++ [NUL],
            altseq_length := st.altseq_length + ((var_alt.length : Int) - (var_ref.length : Int)),
            offset := st.offset + ((var_alt.length : Int) - (var_ref.length : Int)) } := by
  have hP : (content.take pos).length = pos := by
    rw [List.length_take]; omega
  have hR : ((content.drop pos).take var_ref.length).length = var_ref.length := by
    rw [List.length_take, List.length_drop]; omega
  have hsplit : content = content.take pos ++ (content.drop pos).take var_ref.length
      ++ content.drop (pos + var_ref.length) := by
    rw [List.append_assoc, ← List.drop_drop, List.take_append_drop, List.take_append_drop]
  have h := splice_segments st (content.take pos) ((content.drop pos).take var_ref.length)
    (content.drop (pos + var_ref.length)) var_alt (by rw [← hsplit]; exact hbuf)
    (by rw [← hsplit]; exact hlen)
  rw [hP, hR] at h
  rw [splice_ref_length st pos var_ref _ var_alt hR.symm]
  exact h

theorem stripped_alt_subset (v : variant_t) (c : Char) (h : c ∈ stripped_alt v) : c ∈ v.alt := by
  unfold stripped_alt at h
  split at h
  · exact h
  · split at h
    · simp at h
    · exact List.mem_of_mem_drop h

theorem construct_step_eq (var_data : List variant_t) (st : altseq_state) (ci : Nat)
    (v : variant_t) (content : List Char)
    (hv : var_data[ci]? = some v) (hne : v.ref ≠ v.alt)
    (hbuf : st.altseq = content ++ [NUL]) (hlen : st.altseq_length = (content.length : Int))
    (hlo : 0 ≤ v.pos - 1 + st.offset)
    (hhi : v.pos - 1 + st.offset + stripped_shift v + (stripped_ref v).length ≤ content.length) :
    construct_step var_data st ci =
      .ok { altseq := content.take ((v.pos - 1 + st.offset).toNat + stripped_shift v)
              ++ stripped_alt v
              ++ content.drop ((v.pos - 1 + st.offset).toNat + stripped_shift v
                    + (stripped_ref v).length) ++ [NUL],
            altseq_length := st.altseq_length + allele_delta v,
            offset := st.offset + allele_delta v } := by
  unfold construct_step
  have hchk : ¬ (v.pos - 1 + st.offset < 0 ∨ v.pos - 1 + st.offset > st.altseq_length) := by
    rw [hlen]; omega
  simp only [hv, hchk, if_false, select_alleles_eq v _ hne]
  have hin : (v.pos - 1 + st.offset).toNat + stripped_shift v + (stripped_ref v).length
      ≤ content.length := by omega
  rw [splice_eq st content (stripped_ref v) (stripped_alt v) _ hbuf hlen hin]
  rfl

theorem construct_loop_fits (var_data : List variant_t) (refLen : Int) :
    ∀ (combo : List Nat) (st : altseq_state) (content : List Char) (lo : Int),
      (∀ ci ∈ combo, ci < var_data.length) →
      st.altseq = content ++ [NUL] →
      st.altseq_length = (content.length : Int) →
      st.altseq_length = refLen + st.offset →
      0 ≤ lo + st.offset →
      (∀ v ∈ combo_variants var_data combo, v.ref ≠ v.alt) →
      fits refLen lo (combo_variants var_data combo) →
      ∃ content1 : List Char,
        construct_loop var_data st combo =
          .ok { altseq := content1 ++ [NUL],
                altseq_length :=
                  st.altseq_length + ((combo_variants var_data combo).map allele_delta).sum,
                offset := st.offset + ((combo_variants var_data combo).map allele_delta).sum } ∧
        (content1.length : Int) =
          st.altseq_length + ((combo_variants var_data combo).map allele_delta).sum ∧
        ∀ c ∈ content1, c ∈ content ∨ ∃ v ∈ combo_variants var_data combo, c ∈ v.alt := by
  intro combo
  induction combo with
  | nil =>
    intro st content lo _ hbuf hlen _ _ _ _
    refine ⟨content, ?_, ?_, ?_⟩
    · cases st
      simp only [construct_loop, combo_variants, List.filterMap_nil, List.map_nil, List.sum_nil,
        add_zero]
      simp only at hbuf
      rw [hbuf]
    · simp [combo_variants, hlen]
    · intro c hc; exact Or.inl hc
  | cons ci rest ih =>
    intro st content lo hidx hbuf hlen hoff hlo hne hfit
    have hci : ci < var_data.length := hidx ci (List.mem_cons_self _ _)
    have hv : var_data[ci]? = some var_data[ci] := List.getElem?_eq_getElem hci
    have hcv : combo_variants var_data (ci :: rest)
        = var_data[ci] :: combo_variants var_data rest := by
      simp [combo_variants, List.filterMap_cons, hv]
    rw [hcv] at hne hfit ⊢
    obtain ⟨hf1, hf2, hf3⟩ := hfit
    have hnev : (var_data[ci]).ref ≠ (var_data[ci]).alt := hne _ (List.mem_cons_self _ _)
    have hstep := construct_step_eq var_data st ci var_data[ci] content hv hnev hbuf hlen
      (by omega) (by omega)
    have hcl : ((content.take (((var_data[ci]).pos - 1 + st.offset).toNat
          + stripped_shift var_data[ci]) ++ stripped_alt var_data[ci]
          ++ content.drop (((var_data[ci]).pos - 1 + st.offset).toNat
            + stripped_shift var_data[ci] + (stripped_ref var_data[ci]).length)).length : Int)
        = st.altseq_length + allele_delta var_data[ci] := by
      simp only [List.length_append, List.length_take, List.length_drop, allele_delta]
      omega
    obtain ⟨c1, hrun, hlen1, hmem1⟩ := ih
      { altseq := content.take (((var_data[ci]).pos - 1 + st.offset).toNat
          + stripped_shift var_data[ci]) ++ stripped_alt var_data[ci]
          ++ content.drop (((var_data[ci]).pos - 1 + st.offset).toNat
            + stripped_shift var_data[ci] + (stripped_ref var_data[ci]).length) ++ [NUL],
        altseq_length := st.altseq_length + allele_delta var_data[ci],
        offset := st.offset + allele_delta var_data[ci] }
      _ ((var_data[ci]).pos - 1 + stripped_shift var_data[ci]
          + (stripped_ref var_data[ci]).length)
      (fun c hc => hidx c (List.mem_cons_of_mem _ hc)) rfl hcl.symm
      (by simp only; omega)
      (by simp only [allele_delta]; omega)
      (fun v hv => hne v (List.mem_cons_of_mem _ hv)) hf3
    simp only at hrun hlen1
    refine ⟨c1, ?_, ?_, ?_⟩
    · simp only [construct_loop, hstep]
      rw [hrun]
      simp only [List.map_cons, List.sum_cons, add_assoc]
    · simp only [List.map_cons, List.sum_cons]
      omega
    · intro c hc
      rcases hmem1 c hc with h | ⟨v, hv1, hv2⟩
      · rcases List.mem_append.mp h with h2 | h2
        · rcases List.mem_append.mp h2 with h3 | h3
          · exact Or.inl (List.mem_of_mem_take h3)
          · exact Or.inr ⟨_, List.mem_cons_self _ _, stripped_alt_subset _ _ h3⟩
        · exact Or.inl (List.mem_of_mem_drop h2)
      · exact Or.inr ⟨v, List.mem_cons_of_mem _ hv1, hv2⟩

/-- C1. Length law of `construct_altseq`: for every reference window and every
combination of variants with `ref ≠ alt` that lie in the window, in order and
without overlap, the call returns, the stored `altseq_length` is
`refseq_length + Σ (|alt_i| - |ref_i|)` over the combination (an allele `-` read
as empty, the common leading segment dropped), the returned buffer is a string
of exactly that many characters followed by its terminator, and every one of
these characters comes from the reference or from an alternative allele. -/
theorem construct_altseq_length_law (refseq : List Char) (combo : List Nat)
    (var_data : List variant_t)
    (hidx : ∀ ci ∈ combo, ci < var_data.length)
    (hne : ∀ v ∈ combo_variants var_data combo, v.ref ≠ v.alt)
    (hfit : fits refseq.length 0 (combo_variants var_data combo)) :
    ∃ content : List Char,
      construct_altseq refseq refseq.length combo var_data =
        .ok (content ++ [NUL],
          (refseq.length : Int) + ((combo_variants var_data combo).map allele_delta).sum) ∧
      (content.length : Int) =
        (refseq.length : Int) + ((combo_variants var_data combo).map allele_delta).sum ∧
      ∀ c ∈ content, c ∈ refseq ∨ ∃ v ∈ combo_variants var_data combo, c ∈ v.alt := by
  obtain ⟨c1, hrun, hlen, hmem⟩ := construct_loop_fits var_data refseq.length combo
    { altseq := strdup refseq, altseq_length := refseq.length, offset := 0 } refseq 0
    hidx rfl rfl (by simp) (by simp) hne hfit
  refine ⟨c1, ?_, hlen, hmem⟩
  unfold construct_altseq
  rw [hrun]

/-- Instance of C1: an insertion of `AA` after position 2 and a deletion of `T` at
position 4 on `ACGT` give `ACAAG`, of length 4 + 2 - 1. -/
theorem construct_altseq_length_law_witness :
    (∀ ci ∈ [0, 1], ci < [(⟨"chr1".toList, 2, "C".toList, "CAA".toList⟩ : variant_t),
        ⟨"chr1".toList, 4, "T".toList, "-".toList⟩].length) ∧
    ∃ content : List Char,
      construct_altseq "ACGT".toList ("ACGT".toList.length : Int) [0, 1]
          [⟨"chr1".toList, 2, "C".toList, "CAA".toList⟩,
           ⟨"chr1".toList, 4, "T".toList, "-".toList⟩] =
        .ok (content ++ [NUL],
          ("ACGT".toList.length : Int) + ((combo_variants
            [⟨"chr1".toList, 2, "C".toList, "CAA".toList⟩,
             ⟨"chr1".toList, 4, "T".toList, "-".toList⟩] [0, 1]).map allele_delta).sum) ∧
      (content.length : Int) =
        ("ACGT".toList.length : Int) + ((combo_variants
            [⟨"chr1".toList, 2, "C".toList, "CAA".toList⟩,
             ⟨"chr1".toList, 4, "T".toList, "-".toList⟩] [0, 1]).map allele_delta).sum ∧
      ∀ c ∈ content, c ∈ "ACGT".toList ∨ ∃ v ∈ combo_variants
            [⟨"chr1".toList, 2, "C".toList, "CAA".toList⟩,
             ⟨"chr1".toList, 4, "T".toList, "-".toList⟩] [0, 1], c ∈ v.alt :=
  ⟨by decide, construct_altseq_length_law "ACGT".toList [0, 1]
      [⟨"chr1".toList, 2, "C".toList, "CAA".toList⟩,
       ⟨"chr1".toList, 4, "T".toList, "-".toList⟩] (by decide) (by decide) (by decide)⟩

/-- C2. With an empty combination `construct_altseq` returns a copy of `refseq`
(with its terminator) and stores `refseq_length`, for every `refseq`. -/
theorem construct_altseq_empty_combo (refseq : List Char) (refseq_length : Int)
    (var_data : List variant_t) :
    construct_altseq refseq refseq_length [] var_data = .ok (refseq ++ [NUL], refseq_length) :=
  rfl

/-- C3, evaluated on the code. The loop `while (*s1 == *s2)` that drops the common
leading segment of the two alleles has no test for the terminator. For the variant
`(1, A, A)` on `ACGT` the stripped reference allele (the empty string at offset 1)
lies inside the window and the single-variant splice is `ACGT` itself, but the loop
also matches the two terminators and reads past the end of both alleles: the run
leaves the allele strings and no sequence is returned. -/
theorem construct_altseq_same_alleles_fault :
    (1 ≤ (⟨"chr1".toList, 1, "A".toList, "A".toList⟩ : variant_t).pos ∧
      (⟨"chr1".toList, 1, "A".toList, "A".toList⟩ : variant_t).pos - 1
        + stripped_shift ⟨"chr1".toList, 1, "A".toList, "A".toList⟩
        + (stripped_ref ⟨"chr1".toList, 1, "A".toList, "A".toList⟩).length
        ≤ ("ACGT".toList.length : Int)) ∧
    construct_altseq "ACGT".toList 4 [0] [⟨"chr1".toList, 1, "A".toList, "A".toList⟩]
      = .error .bad_access ∧
    construct_altseq "ACGT".toList 4 [0] [⟨"chr1".toList, 1, "A".toList, "A".toList⟩]
      ≠ .ok ("ACGT".toList.take 1 ++ stripped_alt ⟨"chr1".toList, 1, "A".toList, "A".toList⟩
              ++ "ACGT".toList.drop 1 ++ [NUL], 4) := by
  decide

/-- Single-variant splice where the alleles differ: for every `refseq` and every
single variant with `ref ≠ alt`, a 1-based position and its stripped reference allele
inside the window, `construct_altseq` returns `refseq[0 .. p) ++ alt' ++ refseq[p + |ref'| ..]`
(and its terminator), where `ref'` / `alt'` are the alleles with `-` read as empty
or the common leading segment dropped, and `p` is `pos - 1` plus the number of
dropped characters; the stored length is `|refseq| + |alt'| - |ref'|`. -/
theorem construct_altseq_single_splice (refseq : List Char) (var_data : List variant_t)
    (ci : Nat) (v : variant_t)
    (hv : var_data[ci]? = some v) (hne : v.ref ≠ v.alt) (hpos : 1 ≤ v.pos)
    (hin : v.pos - 1 + stripped_shift v + (stripped_ref v).length ≤ (refseq.length : Int)) :
    construct_altseq refseq refseq.length [ci] var_data =
      .ok (refseq.take ((v.pos - 1).toNat + stripped_shift v) ++ stripped_alt v
            ++ refseq.drop ((v.pos - 1).toNat + stripped_shift v + (stripped_ref v).length)
            ++ [NUL],
          (refseq.length : Int) + ((stripped_alt v).length : Int)
            - ((stripped_ref v).length : Int)) := by
  have hstep := construct_step_eq var_data
    { altseq := strdup refseq, altseq_length := refseq.length, offset := 0 } ci v refseq
    hv hne rfl rfl (by simp only; omega) (by simp only; omega)
  unfold construct_altseq
  simp only [construct_loop, hstep, add_zero, allele_delta]
  congr 2
  omega

/-- Instance of the single-variant splice: the deletion `(3, G, -)` on `ACGT` gives
`ACT`, one character shorter than the reference. -/
theorem construct_altseq_single_splice_witness :
    construct_altseq "ACGT".toList ("ACGT".toList.length : Int) [0]
        [⟨"chr1".toList, 3, "G".toList, "-".toList⟩]
      = .ok ("ACT".toList ++ [NUL], ("ACGT".toList.length : Int) - 1) :=
  (construct_altseq_single_splice "ACGT".toList [⟨"chr1".toList, 3, "G".toList, "-".toList⟩] 0
    ⟨"chr1".toList, 3, "G".toList, "-".toList⟩ rfl (by decide) (by decide) (by decide)).trans
    (by decide)

/-- C4, evaluated on the code. A substitution at 1-based position 5 of the 4-base
window `ACGT` is not rejected: the call returns and the terminator of the buffer
has been overwritten. A variant at position 4 whose reference allele `GT` runs
past the end of the window is not rejected either: the length of the last
`memcpy` is negative and the run leaves the buffers. -/
theorem construct_altseq_bounds_missed :
    construct_altseq "ACGT".toList 4 [0] [⟨"chr1".toList, 5, "G".toList, "A".toList⟩]
      = .ok ("ACGTA".toList, 4) ∧
    construct_altseq "ACGT".toList 4 [0] [⟨"chr1".toList, 4, "GT".toList, "A".toList⟩]
      = .error .bad_access ∧
    construct_altseq "ACGT".toList 4 [0] [⟨"chr1".toList, 6, "G".toList, "A".toList⟩]
      = .error .out_of_bounds := by
  decide

/-! ## Facts about the grouping loops -/

theorem run_while_append_drop (ext : variant_t → variant_t → variant_t → Bool) (f : variant_t) :
    ∀ (rest : List variant_t) (p : variant_t),
      run_while ext f p rest ++ rest.drop (run_while ext f p rest).length = rest := by
  intro rest
  induction rest with
  | nil => intro p; simp [run_while]
  | cons w rest ih =>
    intro p
    by_cases h : ext f p w = true
    · simp [run_while, h, ih w]
    · simp [run_while, h]

theorem run_while_length_le (ext : variant_t → variant_t → variant_t → Bool) (f p : variant_t)
    (rest : List variant_t) : (run_while ext f p rest).length ≤ rest.length := by
  have h := congrArg List.length (run_while_append_drop ext f rest p)
  rw [List.length_append] at h
  omega

theorem run_while_chain (ext : variant_t → variant_t → variant_t → Bool) (f : variant_t) :
    ∀ (rest : List variant_t) (p : variant_t),
      List.Chain (fun p w => ext f p w = true) p (run_while ext f p rest) := by
  intro rest
  induction rest with
  | nil => intro p; simp [run_while]
  | cons w rest ih =>
    intro p
    by_cases h : ext f p w = true
    · simp only [run_while, h, if_true]
      exact List.Chain.cons h (ih w)
    · simp [run_while, h]

theorem run_while_stop (ext : variant_t → variant_t → variant_t → Bool) (f : variant_t) :
    ∀ (rest : List variant_t) (p w : variant_t) (more : List variant_t),
      rest.drop (run_while ext f p rest).length = w :: more →
      ext f ((p :: run_while ext f p rest).getLast (List.cons_ne_nil _ _)) w = false := by
  intro rest
  induction rest with
  | nil => intro p w more h; simp at h
  | cons x rest ih =>
    intro p w more h
    by_cases hx : ext f p x = true
    · simp only [run_while, hx, if_true, List.length_cons, List.drop_succ_cons] at h ⊢
      rw [List.getLast_cons (List.cons_ne_nil _ _)]
      exact ih x w more h
    · simp only [run_while, hx, if_false, Bool.false_eq_true, List.length_nil, List.drop_zero,
        List.cons.injEq] at h ⊢
      obtain ⟨rfl, _⟩ := h
      simpa using hx

theorem greedy_fuel (ext : variant_t → variant_t → variant_t → Bool) :
    ∀ (n m : Nat) (l : List variant_t), l.length ≤ n → l.length ≤ m →
      greedy ext n l = greedy ext m l := by
  intro n
  induction n with
  | zero =>
    intro m l hn _
    have : l = [] := List.length_eq_zero.mp (Nat.le_zero.mp hn)
    subst this
    cases m <;> rfl
  | succ n ih =>
    intro m l hn hm
    cases l with
    | nil => cases m <;> rfl
    | cons f rest =>
      cases m with
      | zero => simp at hm
      | succ m =>
        simp only [greedy]
        have hl := run_while_length_le ext f f rest
        simp only [List.length_cons] at hn hm
        rw [ih m _ (by rw [List.length_drop]; omega) (by rw [List.length_drop]; omega)]

theorem greedy_join (ext : variant_t → variant_t → variant_t → Bool) :
    ∀ (n : Nat) (l : List variant_t), l.length ≤ n → (greedy ext n l).flatten = l := by
  intro n
  induction n with
  | zero =>
    intro l hn
    have : l = [] := List.length_eq_zero.mp (Nat.le_zero.mp hn)
    subst this; rfl
  | succ n ih =>
    intro l hn
    cases l with
    | nil => rfl
    | cons f rest =>
      simp only [greedy, List.flatten_cons, List.cons_append]
      have hl := run_while_length_le ext f f rest
      simp only [List.length_cons] at hn
      rw [ih _ (by rw [List.length_drop]; omega), run_while_append_drop]

theorem greedy_linked (ext : variant_t → variant_t → variant_t → Bool) :
    ∀ (n : Nat) (l : List variant_t), ∀ S ∈ greedy ext n l,
      S ≠ [] ∧ linked (fun f p w => ext f p w = true) S := by
  intro n
  induction n with
  | zero => intro l S hS; simp [greedy] at hS
  | succ n ih =>
    intro l S hS
    cases l with
    | nil => simp [greedy] at hS
    | cons f rest =>
      simp only [greedy, List.mem_cons] at hS
      rcases hS with rfl | hS
      · refine ⟨List.cons_ne_nil _ _, ?_⟩
        intro g hg
        simp only [List.head?_cons, Option.some.injEq] at hg
        subst hg
        exact run_while_chain ext f rest f
      · exact ih _ S hS

theorem greedy_head (ext : variant_t → variant_t → variant_t → Bool) (n : Nat)
    (l : List variant_t) (T : List variant_t) (more : List (List variant_t))
    (h : greedy ext n l = T :: more) : T.head? = l.head? := by
  cases n with
  | zero => simp [greedy] at h
  | succ n =>
    cases l with
    | nil => simp [greedy] at h
    | cons f rest =>
      simp only [greedy, List.cons.injEq] at h
      rw [← h.1]; rfl

theorem greedy_separated (ext : variant_t → variant_t → variant_t → Bool) :
    ∀ (n : Nat) (l : List variant_t), l.length ≤ n →
      separated (fun f p w => ext f p w = false) (greedy ext n l) := by
  intro n
  induction n with
  | zero => intro l _; simp [greedy, separated]
  | succ n ih =>
    intro l hn
    cases l with
    | nil => simp [greedy, separated]
    | cons f rest =>
      have hl := run_while_length_le ext f f rest
      simp only [List.length_cons] at hn
      have hrec := ih (rest.drop (run_while ext f f rest).length)
        (by rw [List.length_drop]; omega)
      simp only [greedy, separated] at hrec ⊢
      cases hg : greedy ext n (rest.drop (run_while ext f f rest).length) with
      | nil => simp
      | cons T more =>
        rw [hg] at hrec
        refine List.Chain'.cons ?_ hrec
        intro g p w hg1 hp hw
        simp only [List.head?_cons, Option.some.injEq] at hg1
        subst hg1
        have hT := greedy_head ext n _ T more hg
        rw [hw] at hT
        cases hd : rest.drop (run_while ext f f rest).length with
        | nil => rw [hd] at hT; simp at hT
        | cons x xs =>
          rw [hd] at hT
          simp only [List.head?_cons, Option.some.injEq] at hT
          subst hT
          have := run_while_stop ext f rest f w xs hd
          rw [List.getLast?_eq_getLast _ (List.cons_ne_nil _ _)] at hp
          simp only [Option.some.injEq] at hp
          rw [hp] at this
          exact this

theorem drop_of_getElem? {α : Type} (l : List α) (j : Nat) (x : α) (h : l[j]? = some x) :
    l.drop j = x :: l.drop (j + 1) := by
  obtain ⟨hj, rfl⟩ := List.getElem?_eq_some_iff.mp h
  exact List.drop_eq_getElem_cons hj

theorem drop_of_getElem?_none {α : Type} (l : List α) (j : Nat) (h : l[j]? = none) :
    l.drop j = [] := by
  rw [List.getElem?_eq_none_iff] at h
  exact List.drop_eq_nil_of_le h

theorem ext_first_eq (last : List Char → Int → Int) (f p w : variant_t) :
    ext_first last f p w = true ↔ (f.chr = w.chr ∧ w.pos ≤ last f.chr f.pos) := by
  simp [ext_first]

theorem ext_any_eq (last : List Char → Int → Int) (f p w : variant_t) :
    ext_any last f p w = true ↔ (p.chr = w.chr ∧ w.pos ≤ last p.chr p.pos) := by
  simp [ext_any]

theorem new_set_rule_eq (distlim maxdist : Int) (f p w : variant_t) :
    new_set_rule distlim maxdist f p w = true ↔
      (w.chr ≠ p.chr ∨ ((w.pos - p.pos).natAbs : Int) > distlim
        ∨ (maxdist > 0 ∧ ((w.pos - f.pos).natAbs : Int) > maxdist)) := by
  simp [new_set_rule, or_assoc]

theorem first_inner_eq (last : List Char → Int → Int) (var_data : List variant_t) (i : Nat)
    (vi : variant_t) (hi : var_data[i]? = some vi) :
    ∀ (fuel j : Nat) (curr : List variant_t) (p : variant_t), j ≤ var_data.length →
      var_data.length < fuel + j →
      first_inner var_data i (last vi.chr vi.pos) fuel j curr =
        some (j + (run_while (ext_first last) vi p (var_data.drop j)).length,
              curr ++ run_while (ext_first last) vi p (var_data.drop j)) := by
  intro fuel
  induction fuel with
  | zero => intro j curr p h1 h; omega
  | succ fuel ih =>
    intro j curr p h1 h
    cases hj : var_data[j]? with
    | none =>
      simp [first_inner, hj, drop_of_getElem?_none _ _ hj, run_while]
    | some vj =>
      have hj2 : j < var_data.length := (List.getElem?_eq_some_iff.mp hj).1
      rw [drop_of_getElem? _ _ _ hj]
      by_cases he : ext_first last vi p vj = true
      · obtain ⟨hc, hp⟩ := (ext_first_eq last vi p vj).mp he
        have hp2 : ¬ vj.pos > last vi.chr vi.pos := by omega
        simp only [first_inner, hj, hi, if_pos hc, if_neg hp2, run_while, he, if_true]
        rw [ih (j + 1) (curr ++ [vj]) vj (by omega) (by omega)]
        simp only [List.length_cons, List.append_assoc, List.singleton_append, Option.some.injEq,
          Prod.mk.injEq, and_true]
        omega
      · have hne : ¬ (vi.chr = vj.chr ∧ vj.pos ≤ last vi.chr vi.pos) :=
          fun h2 => he ((ext_first_eq last vi p vj).mpr h2)
        simp only [first_inner, hj, hi, run_while, he, if_false, Bool.false_eq_true,
          List.length_nil, add_zero, List.append_nil]
        by_cases hc : vi.chr = vj.chr
        · have hp2 : vj.pos > last vi.chr vi.pos := by
            by_contra h3; exact hne ⟨hc, by omega⟩
          rw [if_pos hc, if_pos hp2]
        · rw [if_neg hc]

theorem any_inner_eq (last : List Char → Int → Int) (var_data : List variant_t) (f : variant_t) :
    ∀ (fuel i : Nat) (curr : List variant_t) (vi : variant_t), var_data[i]? = some vi →
      var_data.length < fuel + (i + 1) →
      ∃ i1, any_inner last var_data fuel i (i + 1) curr =
        some (i1, i + 1 + (run_while (ext_any last) f vi (var_data.drop (i + 1))).length,
              curr ++ run_while (ext_any last) f vi (var_data.drop (i + 1))) := by
  intro fuel
  induction fuel with
  | zero =>
    intro i curr vi hi h
    have hi2 : i < var_data.length := (List.getElem?_eq_some_iff.mp hi).1
    omega
  | succ fuel ih =>
    intro i curr vi hi h
    cases hj : var_data[i + 1]? with
    | none =>
      exact ⟨i, by simp [any_inner, hj, drop_of_getElem?_none _ _ hj, run_while]⟩
    | some vj =>
      rw [drop_of_getElem? _ _ _ hj]
      by_cases he : ext_any last f vi vj = true
      · obtain ⟨hc, hp⟩ := (ext_any_eq last f vi vj).mp he
        have hp2 : ¬ vj.pos > last vi.chr vi.pos := by omega
        obtain ⟨i1, h1⟩ := ih (i + 1) (curr ++ [vj]) vj hj (by omega)
        refine ⟨i1, ?_⟩
        simp only [any_inner, hj, hi, if_pos hc, if_neg hp2, run_while, he, if_true]
        rw [h1]
        simp only [List.length_cons, List.append_assoc, List.singleton_append, Option.some.injEq,
          Prod.mk.injEq, and_true, true_and]
        omega
      · have hne : ¬ (vi.chr = vj.chr ∧ vj.pos ≤ last vi.chr vi.pos) :=
          fun h2 => he ((ext_any_eq last f vi vj).mpr h2)
        refine ⟨i, ?_⟩
        simp only [any_inner, hj, hi, run_while, he, if_false, Bool.false_eq_true,
          List.length_nil, add_zero, List.append_nil]
        by_cases hc : vi.chr = vj.chr
        · have hp2 : vj.pos > last vi.chr vi.pos := by
            by_contra h3; exact hne ⟨hc, by omega⟩
          rw [if_pos hc, if_pos hp2]
        · rw [if_neg hc]

theorem dist_inner_eq (distlim maxdist : Int) (hd : 0 < distlim) (var_data : List variant_t)
    (i : Nat) (vi : variant_t) (hi : var_data[i]? = some vi) :
    ∀ (fuel j : Nat) (curr : List variant_t) (vp : variant_t), var_data[j]? = some vp →
      var_data.length < fuel + (j + 1) →
      dist_inner distlim maxdist var_data i fuel (j + 1) curr =
        some (j + 1 + (run_while (fun f p w => !new_set_rule distlim maxdist f p w) vi vp
                (var_data.drop (j + 1))).length,
              curr ++ run_while (fun f p w => !new_set_rule distlim maxdist f p w) vi vp
                (var_data.drop (j + 1))) := by
  intro fuel
  induction fuel with
  | zero =>
    intro j curr vp hj h
    have hj2 : j < var_data.length := (List.getElem?_eq_some_iff.mp hj).1
    omega
  | succ fuel ih =>
    intro j curr vp hp h
    have hd2 : distlim > 0 := hd
    cases hj : var_data[j + 1]? with
    | none =>
      simp [dist_inner, hd2, hj, drop_of_getElem?_none _ _ hj, run_while]
    | some vj =>
      rw [drop_of_getElem? _ _ _ hj]
      by_cases he : new_set_rule distlim maxdist vi vp vj = true
      · have hr := (new_set_rule_eq distlim maxdist vi vp vj).mp he
        simp only [dist_inner, if_pos hd2, hj, Nat.add_sub_cancel, hp, hi, run_while, he,
          Bool.not_true, Bool.false_eq_true, if_false, List.length_nil, add_zero,
          List.append_nil]
        by_cases hc : vj.chr = vp.chr ∧ ((vj.pos - vp.pos).natAbs : Int) ≤ distlim
        · have hm : maxdist > 0 ∧ ((vj.pos - vi.pos).natAbs : Int) > maxdist := by
            rcases hr with h1 | h1 | h1
            · exact absurd hc.1 h1
            · omega
            · exact h1
          rw [if_pos hc, if_pos hm]
        · rw [if_neg hc]
      · have hr : ¬ (vj.chr ≠ vp.chr ∨ ((vj.pos - vp.pos).natAbs : Int) > distlim
            ∨ (maxdist > 0 ∧ ((vj.pos - vi.pos).natAbs : Int) > maxdist)) :=
          fun h2 => he ((new_set_rule_eq distlim maxdist vi vp vj).mpr h2)
        have he2 : new_set_rule distlim maxdist vi vp vj = false := by
          simpa using he
        have hc : vj.chr = vp.chr ∧ ((vj.pos - vp.pos).natAbs : Int) ≤ distlim := by
          constructor
          · by_contra h3; exact hr (Or.inl h3)
          · by_contra h3; exact hr (Or.inr (Or.inl (by omega)))
        have hm : ¬ (maxdist > 0 ∧ ((vj.pos - vi.pos).natAbs : Int) > maxdist) :=
          fun h3 => hr (Or.inr (Or.inr h3))
        simp only [dist_inner, if_pos hd2, hj, Nat.add_sub_cancel, hp, hi, if_pos hc, if_neg hm,
          run_while, he2, Bool.not_false, if_true]
        rw [ih (j + 1) (curr ++ [vj]) vj hj (by omega)]
        simp only [List.length_cons, List.append_assoc, List.singleton_append, Option.some.injEq,
          Prod.mk.injEq, and_true]
        omega

theorem dist_inner_off (distlim maxdist : Int) (hd : distlim ≤ 0) (var_data : List variant_t)
    (i fuel j : Nat) (curr : List variant_t) :
    dist_inner distlim maxdist var_data i (fuel + 1) j curr = some (j, curr) := by
  have hd2 : ¬ distlim > 0 := by omega
  simp only [dist_inner, if_neg hd2]

theorem greedy_nil (ext : variant_t → variant_t → variant_t → Bool) (n : Nat) :
    greedy ext n [] = [] := by
  cases n <;> rfl

theorem greedy_cons (ext : variant_t → variant_t → variant_t → Bool) (n : Nat) (f : variant_t)
    (rest : List variant_t) (h : rest.length < n) :
    greedy ext n (f :: rest) =
      (f :: run_while ext f f rest)
        :: greedy ext n (rest.drop (run_while ext f f rest).length) := by
  cases n with
  | zero => omega
  | succ n =>
    simp only [greedy]
    rw [greedy_fuel ext n (n + 1) _ (by rw [List.length_drop]; omega)
      (by rw [List.length_drop]; omega)]

theorem first_outer_eq (last : List Char → Int → Int) (var_data : List variant_t) :
    ∀ (fuel i : Nat) (var_set : List (List variant_t)), i ≤ var_data.length →
      var_data.length < fuel + i →
      first_outer last var_data fuel i var_set =
        some (var_set ++ greedy (ext_first last) var_data.length (var_data.drop i)) := by
  intro fuel
  induction fuel with
  | zero => intro i var_set h1 h; omega
  | succ fuel ih =>
    intro i var_set h1 h
    cases hi : var_data[i]? with
    | none =>
      simp [first_outer, hi, drop_of_getElem?_none _ _ hi, greedy_nil]
    | some vi =>
      have hi2 : i < var_data.length := (List.getElem?_eq_some_iff.mp hi).1
      have hrun := run_while_length_le (ext_first last) vi vi (var_data.drop (i + 1))
      rw [List.length_drop] at hrun
      simp only [first_outer, hi]
      rw [first_inner_eq last var_data i vi hi (var_data.length + 1) (i + 1) [vi] vi
        (by omega) (by omega)]
      simp only
      rw [ih _ _ (by omega) (by omega), drop_of_getElem? _ _ _ hi,
        greedy_cons _ _ _ _ (by rw [List.length_drop]; omega), List.drop_drop]
      simp only [List.append_assoc, List.singleton_append, List.cons_append, List.nil_append,
        Nat.add_comm]

theorem any_outer_eq (last : List Char → Int → Int) (var_data : List variant_t) :
    ∀ (fuel i : Nat) (var_set : List (List variant_t)), i ≤ var_data.length →
      var_data.length < fuel + i →
      any_outer last var_data fuel i var_set =
        some (var_set ++ greedy (ext_any last) var_data.length (var_data.drop i)) := by
  intro fuel
  induction fuel with
  | zero => intro i var_set h1 h; omega
  | succ fuel ih =>
    intro i var_set h1 h
    cases hi : var_data[i]? with
    | none =>
      simp [any_outer, hi, drop_of_getElem?_none _ _ hi, greedy_nil]
    | some vi =>
      have hi2 : i < var_data.length := (List.getElem?_eq_some_iff.mp hi).1
      have hrun := run_while_length_le (ext_any last) vi vi (var_data.drop (i + 1))
      rw [List.length_drop] at hrun
      obtain ⟨i1, hin⟩ := any_inner_eq last var_data vi (var_data.length + 1) i [vi] vi hi
        (by omega)
      simp only [any_outer, hi]
      rw [hin]
      simp only
      rw [ih _ _ (by omega) (by omega), drop_of_getElem? _ _ _ hi,
        greedy_cons _ _ _ _ (by rw [List.length_drop]; omega), List.drop_drop]
      simp only [List.append_assoc, List.singleton_append, List.cons_append, List.nil_append,
        Nat.add_comm]

theorem dist_outer_eq (distlim maxdist : Int) (hd : 0 < distlim) (var_data : List variant_t) :
    ∀ (fuel i : Nat) (var_set : List (List variant_t)), i ≤ var_data.length →
      var_data.length < fuel + i →
      dist_outer distlim maxdist var_data fuel i var_set =
        some (var_set ++ greedy (fun f p w => !new_set_rule distlim maxdist f p w)
          var_data.length (var_data.drop i)) := by
  intro fuel
  induction fuel with
  | zero => intro i var_set h1 h; omega
  | succ fuel ih =>
    intro i var_set h1 h
    cases hi : var_data[i]? with
    | none =>
      simp [dist_outer, hi, drop_of_getElem?_none _ _ hi, greedy_nil]
    | some vi =>
      have hi2 : i < var_data.length := (List.getElem?_eq_some_iff.mp hi).1
      have hrun := run_while_length_le (fun f p w => !new_set_rule distlim maxdist f p w)
        vi vi (var_data.drop (i + 1))
      rw [List.length_drop] at hrun
      simp only [dist_outer, hi]
      rw [dist_inner_eq distlim maxdist hd var_data i vi hi (var_data.length + 1) i [vi] vi hi
        (by omega)]
      simp only
      rw [ih _ _ (by omega) (by omega), drop_of_getElem? _ _ _ hi,
        greedy_cons _ _ _ _ (by rw [List.length_drop]; omega), List.drop_drop]
      simp only [List.append_assoc, List.singleton_append, List.cons_append, List.nil_append,
        Nat.add_comm]

theorem dist_outer_off (distlim maxdist : Int) (hd : distlim ≤ 0) (var_data : List variant_t) :
    ∀ (fuel i : Nat) (var_set : List (List variant_t)), i ≤ var_data.length →
      var_data.length < fuel + i →
      dist_outer distlim maxdist var_data fuel i var_set =
        some (var_set ++ (var_data.drop i).map (fun v => [v])) := by
  intro fuel
  induction fuel with
  | zero => intro i var_set h1 h; omega
  | succ fuel ih =>
    intro i var_set h1 h
    cases hi : var_data[i]? with
    | none =>
      simp [dist_outer, hi, drop_of_getElem?_none _ _ hi]
    | some vi =>
      have hi2 : i < var_data.length := (List.getElem?_eq_some_iff.mp hi).1
      simp only [dist_outer, hi, dist_inner_off distlim maxdist hd]
      rw [ih _ _ (by omega) (by omega), drop_of_getElem? _ _ _ hi]
      simp

theorem separated_imp (sep1 sep2 : variant_t → variant_t → variant_t → Prop)
    (h : ∀ f p w, sep1 f p w → sep2 f p w) (sets : List (List variant_t))
    (hs : separated sep1 sets) : separated sep2 sets := by
  unfold separated at hs ⊢
  exact List.Chain'.imp (fun S T hST f p w hf hp hw => h f p w (hST f p w hf hp hw)) hs

theorem linked_imp (ok1 ok2 : variant_t → variant_t → variant_t → Prop)
    (h : ∀ f p w, ok1 f p w → ok2 f p w) (S : List variant_t)
    (hs : linked ok1 S) : linked ok2 S := by
  intro f hf
  exact List.Chain'.imp (fun p w hpw => h f p w hpw) (hs f hf)

theorem chain_forall {Q : variant_t → Prop} :
    ∀ (l : List variant_t) (a : variant_t), List.Chain (fun _ w => Q w) a l → ∀ w ∈ l, Q w := by
  intro l
  induction l with
  | nil => intro a _ w hw; simp at hw
  | cons x l ih =>
    intro a hc w hw
    rw [List.chain_cons] at hc
    rcases List.mem_cons.mp hw with rfl | hw
    · exact hc.1
    · exact ih x hc.2 w hw

/-- C5. Distance grouping (`sharedr = 0`) before the split pass, for every variant
list: the loop finishes; the sets are consecutive runs of the input (their
concatenation is the input, none is empty); when `distlim > 0`, inside a set no
variant after the first satisfies the new-set rule (chromosome differs from the
previous variant, or distance to the previous variant above `distlim`, or
`maxdist > 0` and distance to the first variant of the set above `maxdist`), and
the first variant of every following set does satisfy it; when `distlim ≤ 0`
(in particular `distlim = 0`) every set is a singleton. -/
theorem group_distance_rule (distlim maxdist : Int) (last : List Char → Int → Int)
    (var_list : List variant_t) :
    ∃ sets : List (List variant_t),
      group_variants 0 distlim maxdist last var_list = some sets ∧
      sets.flatten = var_list ∧
      (∀ S ∈ sets, S ≠ []) ∧
      (0 < distlim →
        (∀ S ∈ sets, linked (fun f p w => new_set_rule distlim maxdist f p w = false) S) ∧
        separated (fun f p w => new_set_rule distlim maxdist f p w = true) sets) ∧
      (distlim ≤ 0 → sets = var_list.map (fun v => [v])) := by
  by_cases hd : 0 < distlim
  · refine ⟨greedy (fun f p w => !new_set_rule distlim maxdist f p w) var_list.length var_list,
      ?_, greedy_join _ _ _ (le_refl _), fun S hS => (greedy_linked _ _ _ S hS).1, ?_, ?_⟩
    · have h := dist_outer_eq distlim maxdist hd var_list (var_list.length + 1) 0 []
        (Nat.zero_le _) (by omega)
      simpa [group_variants] using h
    · intro _
      constructor
      · intro S hS
        exact linked_imp _ _ (fun f p w h => by simpa using h) S (greedy_linked _ _ _ S hS).2
      · exact separated_imp _ _ (fun f p w h => by simpa using h) _
          (greedy_separated _ _ _ (le_refl _))
    · intro h; omega
  · have hd2 : distlim ≤ 0 := by omega
    refine ⟨var_list.map (fun v => [v]), ?_, ?_, ?_, fun h => absurd h hd, fun _ => rfl⟩
    · have h := dist_outer_off distlim maxdist hd2 var_list (var_list.length + 1) 0 []
        (Nat.zero_le _) (by omega)
      simpa [group_variants] using h
    · induction var_list with
      | nil => rfl
      | cons v l ih => simp [ih]
    · intro S hS
      simp only [List.mem_map] at hS
      obtain ⟨v, _, rfl⟩ := hS
      exact List.cons_ne_nil _ _

/-- C6. Grouping by reads shared with the first variant (`sharedr = 1`) before the
split pass, with `bam_fetch_last` as a function `last chr pos`: the loop
finishes; the concatenation of the sets is the input; every set is a first
variant `v` followed by variants on the chromosome of `v` at positions
`≤ last v.chr v.pos`, and the run is maximal, since the first variant of the next
set is not such a variant; when `last v.chr v.pos = -1` (no read over `v`; positions
are not negative) the set is the singleton of `v`. -/
theorem group_share_first (distlim maxdist : Int) (last : List Char → Int → Int)
    (var_list : List variant_t) :
    ∃ sets : List (List variant_t),
      group_variants 1 distlim maxdist last var_list = some sets ∧
      sets.flatten = var_list ∧
      (∀ S ∈ sets, ∃ v tail, S = v :: tail ∧
        (∀ w ∈ tail, v.chr = w.chr ∧ w.pos ≤ last v.chr v.pos) ∧
        (last v.chr v.pos = -1 → (∀ w ∈ var_list, 0 ≤ w.pos) → S = [v])) ∧
      separated (fun v _ w => ¬ (v.chr = w.chr ∧ w.pos ≤ last v.chr v.pos)) sets := by
  have hjoin := greedy_join (ext_first last) var_list.length var_list (le_refl _)
  refine ⟨greedy (ext_first last) var_list.length var_list, ?_, hjoin, ?_, ?_⟩
  · have h := first_outer_eq last var_list (var_list.length + 1) 0 [] (Nat.zero_le _) (by omega)
    simpa [group_variants] using h
  · intro S hS
    obtain ⟨hne, hl⟩ := greedy_linked _ _ _ S hS
    cases S with
    | nil => exact absurd rfl hne
    | cons v tail =>
      have hc : List.Chain (fun _ w => v.chr = w.chr ∧ w.pos ≤ last v.chr v.pos) v tail :=
        List.Chain.imp (fun p w h => (ext_first_eq last v p w).mp h) (hl v rfl)
      have hall := chain_forall tail v hc
      refine ⟨v, tail, rfl, hall, ?_⟩
      intro hlast hpos
      cases tail with
      | nil => rfl
      | cons w t =>
        have h1 := (hall w (List.mem_cons_self _ _)).2
        have hw : w ∈ var_list := by
          rw [← hjoin]
          exact List.mem_flatten.mpr ⟨_, hS, List.mem_cons_of_mem _ (List.mem_cons_self _ _)⟩
        have h2 := hpos w hw
        omega
  · exact separated_imp _ _
      (fun f p w h hc => by
        rw [(ext_first_eq last f p w).mpr hc] at h; exact Bool.noConfusion h) _
      (greedy_separated _ _ _ (le_refl _))

/-- C7. Grouping by reads shared with any neighbour (`sharedr = 2`) before the split
pass, with `bam_fetch_last` as a function `last chr pos`: the loop finishes; the
concatenation of the sets is the input; inside a set every variant `w` after the
first is on the chromosome of the variant `p` just before it (the current tail) with
`w.pos ≤ last p.chr p.pos`; and the first variant `w` of the next set fails this
test against the last variant `p` of the set: the read end is taken from the
advancing tail, not from the first variant of the set. -/
theorem group_share_any (distlim maxdist : Int) (last : List Char → Int → Int)
    (var_list : List variant_t) :
    ∃ sets : List (List variant_t),
      group_variants 2 distlim maxdist last var_list = some sets ∧
      sets.flatten = var_list ∧
      (∀ S ∈ sets, S ≠ [] ∧
        List.Chain' (fun p w => p.chr = w.chr ∧ w.pos ≤ last p.chr p.pos) S) ∧
      separated (fun _ p w => ¬ (p.chr = w.chr ∧ w.pos ≤ last p.chr p.pos)) sets := by
  refine ⟨greedy (ext_any last) var_list.length var_list, ?_,
    greedy_join _ _ _ (le_refl _), ?_, ?_⟩
  · have h := any_outer_eq last var_list (var_list.length + 1) 0 [] (Nat.zero_le _) (by omega)
    simpa [group_variants] using h
  · intro S hS
    obtain ⟨hne, hl⟩ := greedy_linked _ _ _ S hS
    refine ⟨hne, ?_⟩
    cases S with
    | nil => exact absurd rfl hne
    | cons v tail =>
      exact List.Chain'.imp (fun p w h => (ext_any_eq last v p w).mp h) (hl v rfl)
  · exact separated_imp _ _
      (fun f p w h hc => by
        rw [(ext_any_eq last f p w).mpr hc] at h; exact Bool.noConfusion h) _
      (greedy_separated _ _ _ (le_refl _))

/-! ## Facts about the split pass -/

theorem vector_del_sublist {α : Type} (a b : List α) (i : Nat) (h : vector_del a i = .ok b) :
    List.Sublist b a := by
  unfold vector_del at h
  split at h
  · cases h; exact List.eraseIdx_sublist _ _
  · cases h

theorem dedup_loop_sublist :
    ∀ (fuel j : Nat) (cs : List variant_t) (flag : Bool) (r : List variant_t × Bool),
      dedup_loop fuel j cs flag = .ok r → List.Sublist r.1 cs := by
  intro fuel
  induction fuel with
  | zero => intro j cs flag r h; simp [dedup_loop] at h
  | succ fuel ih =>
    intro j cs flag r h
    rw [dedup_loop] at h
    split at h
    · cases h
    · split at h
      · split at h
        · split at h
          · split at h
            · cases h
            · rename_i cs1 hdel
              exact (ih _ _ _ _ h).trans (vector_del_sublist _ _ _ hdel)
          · split at h
            · exact ih _ _ _ _ h
            · exact ih _ _ _ _ h
        · cases h
      · cases h; exact List.Sublist.refl _

theorem pop_loop_sublist :
    ∀ (fuel : Nat) (cs : List variant_t) (added : List (List variant_t))
      (r : List variant_t × List (List variant_t)),
      pop_loop fuel cs added = .ok r →
      List.Sublist r.1 cs ∧ r.1.length ≤ 1 ∧ ∀ S ∈ r.2, S ∈ added ∨ S.length = 1 ∧ List.Sublist S cs := by
  intro fuel
  induction fuel with
  | zero => intro cs added r h; simp [pop_loop] at h
  | succ fuel ih =>
    intro cs added r h
    rw [pop_loop] at h
    split at h
    · rename_i hlen
      split at h
      · cases h
      · rename_i curr cs1 hpop
        have hne : ¬ cs.length ≤ 0 := by omega
        simp only [vector_pop, if_neg hne, Prod.mk.injEq] at hpop
        obtain ⟨hlast, hdrop⟩ := hpop
        subst hdrop
        obtain ⟨h1, h2, h3⟩ := ih _ _ _ h
        refine ⟨h1.trans (List.dropLast_sublist _), h2, ?_⟩
        intro S hS
        rcases h3 S hS with h4 | ⟨h4, h5⟩
        · simp only [vector_add, List.nil_append, List.mem_append, List.mem_singleton] at h4
          rcases h4 with h4 | h4
          · exact Or.inl h4
          · right
            subst h4
            refine ⟨rfl, ?_⟩
            have hm : curr ∈ cs := List.mem_of_getLast?_eq_some hlast
            exact List.singleton_sublist.mpr hm
        · exact Or.inr ⟨h4, h5.trans (List.dropLast_sublist _)⟩
    · rename_i hlen
      cases h
      exact ⟨List.Sublist.refl _, by simp only; omega, fun S hS => Or.inl hS⟩

theorem dup_loop_sublist :
    ∀ (fuel j : Nat) (cs : List variant_t) (added : List (List variant_t)) (flag : Bool)
      (r : List variant_t × List (List variant_t) × Bool),
      dup_loop fuel j cs added flag = .ok r →
      List.Sublist r.1 cs ∧ ∀ S ∈ r.2.1, S ∈ added ∨ List.Sublist S cs := by
  intro fuel
  induction fuel with
  | zero => intro j cs added flag r h; simp [dup_loop] at h
  | succ fuel ih =>
    intro j cs added flag r h
    rw [dup_loop] at h
    split at h
    · cases h
    · split at h
      · split at h
        · split at h
          · simp only at h
            split at h
            · rename_i cs1 dup1 hd1 hd2
              obtain ⟨h1, h2⟩ := ih _ _ _ _ _ h
              have s1 := vector_del_sublist _ _ _ hd1
              have s2 := vector_del_sublist _ _ _ hd2
              refine ⟨h1.trans s1, ?_⟩
              intro S hS
              rcases h2 S hS with h3 | h3
              · simp only [vector_add, List.mem_append, List.mem_singleton] at h3
                rcases h3 with h3 | h3
                · exact Or.inl h3
                · subst h3; exact Or.inr s2
              · exact Or.inr (h3.trans s1)
            · cases h
          · exact ih _ _ _ _ _ h
        · cases h
      · cases h
        exact ⟨List.Sublist.refl _, fun S hS => Or.inl hS⟩

theorem split_set_sublist (cs : List variant_t) (flag : Bool)
    (r : List variant_t × List (List variant_t) × Bool) (h : split_set cs flag = .ok r) :
    List.Sublist r.1 cs ∧ ∀ S ∈ r.2.1, List.Sublist S cs := by
  unfold split_set at h
  split at h
  · cases h
  · rename_i cs1 flag_nonset hded
    have s1 := dedup_loop_sublist _ _ _ _ _ hded
    simp only at s1
    split at h
    · split at h
      · cases h
      · rename_i cs2 added hpop
        cases h
        obtain ⟨h1, _, h3⟩ := pop_loop_sublist _ _ _ _ hpop
        refine ⟨h1.trans s1, ?_⟩
        intro S hS
        rcases h3 S hS with h4 | ⟨_, h5⟩
        · simp at h4
        · exact h5.trans s1
    · obtain ⟨h1, h2⟩ := dup_loop_sublist _ _ _ _ _ _ h
      refine ⟨h1.trans s1, ?_⟩
      intro S hS
      rcases h2 S hS with h4 | h5
      · simp at h4
      · exact h5.trans s1

theorem dup_loop_flag :
    ∀ (fuel j : Nat) (cs : List variant_t) (added : List (List variant_t))
      (r : List variant_t × List (List variant_t) × Bool),
      dup_loop fuel j cs added true = .ok r → r.2.2 = true := by
  intro fuel
  induction fuel with
  | zero => intro j cs added r h; simp [dup_loop] at h
  | succ fuel ih =>
    intro j cs added r h
    rw [dup_loop] at h
    split at h
    · cases h
    · split at h
      · split at h
        · split at h
          · simp only at h
            split at h
            · exact ih _ _ _ _ h
            · cases h
          · exact ih _ _ _ _ h
        · cases h
      · cases h; rfl

theorem dup_loop_quiet :
    ∀ (fuel j : Nat) (cs : List variant_t) (added : List (List variant_t))
      (cs1 : List variant_t) (added1 : List (List variant_t)),
      dup_loop fuel j cs added false = .ok (cs1, added1, false) →
      cs1 = cs ∧ added1 = added ∧
      ∀ k, j ≤ k → ∀ a b, cs[k]? = some a → cs[k + 1]? = some b → a.pos ≠ b.pos := by
  intro fuel
  induction fuel with
  | zero => intro j cs added cs1 added1 h; simp [dup_loop] at h
  | succ fuel ih =>
    intro j cs added cs1 added1 h
    rw [dup_loop] at h
    split at h
    · cases h
    · rename_i hlen
      split at h
      · rename_i hj
        split at h
        · rename_i curr next hc hn
          split at h
          · simp only at h
            split at h
            · have := dup_loop_flag _ _ _ _ _ h
              simp at this
            · cases h
          · rename_i hpos
            obtain ⟨h1, h2, h3⟩ := ih _ _ _ _ _ h
            refine ⟨h1, h2, ?_⟩
            intro k hk a b ha hb
            by_cases hkj : k = j
            · subst hkj
              rw [hc] at ha; rw [hn] at hb
              cases ha; cases hb
              exact hpos
            · exact h3 k (by omega) a b ha hb
        · cases h
      · rename_i hj
        cases h
        refine ⟨rfl, rfl, ?_⟩
        intro k hk a b _ hb
        have : k + 1 < cs.length := (List.getElem?_eq_some_iff.mp hb).1
        omega

theorem chain_of_adjacent (R : variant_t → variant_t → Prop) (cs : List variant_t)
    (h : ∀ k, ∀ a b, cs[k]? = some a → cs[k + 1]? = some b → R a b) : List.Chain' R cs := by
  rw [List.chain'_iff_get]
  intro i hi
  exact h i _ _ (by rw [List.getElem?_eq_getElem]; rfl) (by rw [List.getElem?_eq_getElem]; rfl)

theorem split_set_flag (cs : List variant_t)
    (r : List variant_t × List (List variant_t) × Bool) (h : split_set cs true = .ok r) :
    r.2.2 = true := by
  unfold split_set at h
  split at h
  · cases h
  · split at h
    · split at h
      · cases h
      · cases h; rfl
    · exact dup_loop_flag _ _ _ _ _ h

theorem split_set_quiet (cs : List variant_t) (flag : Bool) (cs1 : List variant_t)
    (added : List (List variant_t)) (h : split_set cs flag = .ok (cs1, added, false)) :
    List.Chain' (fun a b => a.pos ≠ b.pos) cs1 ∧
      ∀ S ∈ added, List.Chain' (fun a b : variant_t => a.pos ≠ b.pos) S := by
  unfold split_set at h
  split at h
  · cases h
  · rename_i cs2 flag_nonset hded
    split at h
    · split at h
      · cases h
      · rename_i cs3 added3 hpop
        cases h
        obtain ⟨_, h2, h3⟩ := pop_loop_sublist _ _ _ _ hpop
        simp only at h2 h3
        constructor
        · match cs1, h2 with
          | [], _ => exact List.chain'_nil
          | [a], _ => exact List.chain'_singleton a
          | _ :: _ :: _, h2 => simp at h2
        · intro S hS
          rcases h3 S hS with h4 | ⟨h4, _⟩
          · simp at h4
          · match S, h4 with
            | [a], _ => exact List.chain'_singleton a
    · cases flag with
      | true =>
        have := dup_loop_flag _ _ _ _ _ h
        simp at this
      | false =>
        obtain ⟨h1, h2, h3⟩ := dup_loop_quiet _ _ _ _ _ _ h
        subst h1 h2
        exact ⟨chain_of_adjacent _ _ (fun k a b ha hb => h3 k (Nat.zero_le _) a b ha hb),
          fun S hS => by simp at hS⟩

theorem set_loop_flag :
    ∀ (fuel i : Nat) (var_set : List (List variant_t)) (r : List (List variant_t) × Bool),
      set_loop fuel i var_set true = .ok r → r.2 = true := by
  intro fuel
  induction fuel with
  | zero => intro i var_set r h; simp [set_loop] at h
  | succ fuel ih =>
    intro i var_set r h
    rw [set_loop] at h
    split at h
    · cases h; rfl
    · split at h
      · exact ih _ _ _ h
      · split at h
        · cases h
        · rename_i cs added flag hs
          have := split_set_flag _ _ hs
          simp only at this
          subst this
          exact ih _ _ _ h

theorem set_loop_quiet :
    ∀ (fuel i : Nat) (var_set : List (List variant_t)) (flag : Bool)
      (out : List (List variant_t)),
      set_loop fuel i var_set flag = .ok (out, false) →
      (∀ k, k < i → ∀ S, var_set[k]? = some S →
        List.Chain' (fun a b : variant_t => a.pos ≠ b.pos) S) →
      ∀ S ∈ out, List.Chain' (fun a b : variant_t => a.pos ≠ b.pos) S := by
  intro fuel
  induction fuel with
  | zero => intro i var_set flag out h; simp [set_loop] at h
  | succ fuel ih =>
    intro i var_set flag out h hprev
    rw [set_loop] at h
    split at h
    · rename_i hnone
      cases h
      intro S hS
      obtain ⟨k, hk, hSk⟩ := List.mem_iff_getElem.mp hS
      have hi : var_set.length ≤ i := List.getElem?_eq_none_iff.mp hnone
      exact hprev k (by omega) S (by rw [List.getElem?_eq_getElem hk, hSk])
    · rename_i curr_set hsome
      have hi : i < var_set.length := (List.getElem?_eq_some_iff.mp hsome).1
      split at h
      · rename_i hone
        refine ih _ _ _ _ h ?_
        intro k hk S hS
        by_cases hki : k = i
        · subst hki
          rw [hsome] at hS; cases hS
          match curr_set, hone with
          | [a], _ => exact List.chain'_singleton a
        · exact hprev k (by omega) S hS
      · split at h
        · cases h
        · rename_i cs added flag1 hs
          cases hf : flag1 with
          | true =>
            subst hf
            have := set_loop_flag _ _ _ _ h
            simp at this
          | false =>
            subst hf
            obtain ⟨hg, _⟩ := split_set_quiet _ _ _ _ hs
            refine ih _ _ _ _ h ?_
            intro k hk S hS
            have hk2 : k < (var_set.set i cs).length := by rw [List.length_set]; omega
            rw [List.getElem?_append_left hk2] at hS
            by_cases hki : k = i
            · subst hki
              rw [List.getElem?_set_self hi] at hS
              cases hS
              exact hg
            · rw [List.getElem?_set_ne (Ne.symm hki)] at hS
              exact hprev k (by omega) S hS

theorem set_loop_origin :
    ∀ (fuel i : Nat) (var_set : List (List variant_t)) (flag : Bool)
      (r : List (List variant_t) × Bool),
      set_loop fuel i var_set flag = .ok r →
      ∀ S ∈ r.1, ∃ S0 ∈ var_set, List.Sublist S S0 := by
  intro fuel
  induction fuel with
  | zero => intro i var_set flag r h; simp [set_loop] at h
  | succ fuel ih =>
    intro i var_set flag r h
    rw [set_loop] at h
    split at h
    · cases h
      intro S hS
      exact ⟨S, hS, List.Sublist.refl _⟩
    · rename_i curr_set hsome
      have hcm : curr_set ∈ var_set := List.getElem?_mem hsome
      split at h
      · exact ih _ _ _ _ h
      · split at h
        · cases h
        · rename_i cs added flag1 hs
          obtain ⟨h1, h2⟩ := split_set_sublist _ _ _ hs
          simp only at h1 h2
          intro S hS
          obtain ⟨S0, hS0, hsub⟩ := ih _ _ _ _ h S hS
          rcases List.mem_append.mp hS0 with h3 | h3
          · rcases List.mem_or_eq_of_mem_set h3 with h4 | h4
            · exact ⟨S0, h4, hsub⟩
            · subst h4
              exact ⟨curr_set, hcm, hsub.trans h1⟩
          · exact ⟨curr_set, hcm, hsub.trans (h2 S0 h3)⟩

theorem split_pass_origin :
    ∀ (fuel : Nat) (var_set out : List (List variant_t)),
      split_pass fuel var_set = .ok out →
      ∀ S ∈ out, ∃ S0 ∈ var_set, List.Sublist S S0 := by
  intro fuel
  induction fuel with
  | zero => intro var_set out h; simp [split_pass] at h
  | succ fuel ih =>
    intro var_set out h
    rw [split_pass] at h
    split at h
    · cases h
    · rename_i vs flag hloop
      have ho := set_loop_origin _ _ _ _ _ hloop
      simp only at ho
      split at h
      · intro S hS
        obtain ⟨S1, hS1, hsub1⟩ := ih _ _ h S hS
        obtain ⟨S0, hS0, hsub0⟩ := ho S1 hS1
        exact ⟨S0, hS0, hsub1.trans hsub0⟩
      · cases h
        exact ho

theorem split_pass_quiet :
    ∀ (fuel : Nat) (var_set out : List (List variant_t)),
      split_pass fuel var_set = .ok out →
      ∀ S ∈ out, List.Chain' (fun a b : variant_t => a.pos ≠ b.pos) S := by
  intro fuel
  induction fuel with
  | zero => intro var_set out h; simp [split_pass] at h
  | succ fuel ih =>
    intro var_set out h
    rw [split_pass] at h
    split at h
    · cases h
    · rename_i vs flag hloop
      split at h
      · exact ih _ _ h
      · rename_i hflag
        cases h
        have hf : flag = false := by simpa using hflag
        subst hf
        exact set_loop_quiet _ _ _ _ _ hloop (fun k hk => absurd hk (Nat.not_lt_zero k))

theorem nodup_of_ordered_quiet (S : List variant_t) (ho : ordered S)
    (hq : List.Chain' (fun a b : variant_t => a.pos ≠ b.pos) S) : S.Nodup := by
  have hc : List.Chain' (fun a b : variant_t => a.chr = b.chr ∧ a.pos ≤ b.pos) S :=
    List.Pairwise.chain' ho
  have hlt : List.Chain' (fun a b : variant_t => a.pos < b.pos) S := by
    rw [List.chain'_iff_get] at hc hq ⊢
    intro i hi
    have h1 := (hc i hi).2
    have h2 := hq i hi
    omega
  have hp : List.Pairwise (fun a b : variant_t => a.pos < b.pos) S :=
    (@List.chain'_iff_pairwise _ (fun a b : variant_t => a.pos < b.pos)
      ⟨fun a b c h1 h2 => lt_trans h1 h2⟩ S).mp hlt
  exact List.Pairwise.imp (fun {a b} h e => by rw [e] at h; exact lt_irrefl _ h) hp

theorem run_chain_chr (ext : variant_t → variant_t → variant_t → Bool) (f : variant_t)
    (hext : ∀ p w, ext f p w = true → f.chr = p.chr → p.chr = w.chr) :
    ∀ (l : List variant_t) (p : variant_t), f.chr = p.chr →
      List.Chain (fun p w => ext f p w = true) p l →
      List.Chain (fun a b : variant_t => a.chr = b.chr) p l := by
  intro l
  induction l with
  | nil => intro p _ _; exact List.Chain.nil
  | cons w l ih =>
    intro p hp hc
    rw [List.chain_cons] at hc
    have hpw := hext p w hc.1 hp
    exact List.Chain.cons hpw (ih w (hp.trans hpw) hc.2)

theorem ordered_of_chains (S : List variant_t)
    (h1 : List.Chain' (fun a b : variant_t => a.chr = b.chr) S)
    (h2 : List.Chain' (fun a b : variant_t => a.chr = b.chr → a.pos ≤ b.pos) S) :
    ordered S := by
  have hc : List.Chain' (fun a b : variant_t => a.chr = b.chr ∧ a.pos ≤ b.pos) S := by
    rw [List.chain'_iff_get] at h1 h2 ⊢
    intro i hi
    exact ⟨h1 i hi, h2 i hi (h1 i hi)⟩
  exact (@List.chain'_iff_pairwise _ (fun a b : variant_t => a.chr = b.chr ∧ a.pos ≤ b.pos)
    ⟨fun a b c h1 h2 => ⟨h1.1.trans h2.1, le_trans h1.2 h2.2⟩⟩ S).mp hc

theorem greedy_ordered (ext : variant_t → variant_t → variant_t → Bool)
    (hext : ∀ f p w, ext f p w = true → f.chr = p.chr → p.chr = w.chr)
    (l : List variant_t) (hl : sorted_input l) :
    ∀ S ∈ greedy ext l.length l, ordered S := by
  intro S hS
  have hinf : S <:+: l := by
    have := List.infix_of_mem_flatten hS
    rwa [greedy_join ext l.length l (le_refl _)] at this
  obtain ⟨hne, hlk⟩ := greedy_linked ext _ _ S hS
  refine ordered_of_chains S ?_ ( List.Chain'.infix hl hinf)
  cases S with
  | nil => exact List.chain'_nil
  | cons f tail => exact run_chain_chr ext f (hext f) tail f rfl (hlk f rfl)

theorem group_variants_ordered (sharedr distlim maxdist : Int) (last : List Char → Int → Int)
    (var_list : List variant_t) (sets : List (List variant_t)) (hl : sorted_input var_list)
    (h : group_variants sharedr distlim maxdist last var_list = some sets) :
    ∀ S ∈ sets, ordered S := by
  unfold group_variants at h
  split at h
  · rw [first_outer_eq last var_list _ 0 [] (Nat.zero_le _) (by omega)] at h
    simp only [List.drop_zero, List.nil_append, Option.some.injEq] at h
    subst h
    exact greedy_ordered _ (fun f p w he hfp => by
      have := ((ext_first_eq last f p w).mp he).1
      exact hfp.symm.trans this) var_list hl
  · split at h
    · rw [any_outer_eq last var_list _ 0 [] (Nat.zero_le _) (by omega)] at h
      simp only [List.drop_zero, List.nil_append, Option.some.injEq] at h
      subst h
      exact greedy_ordered _ (fun f p w he _ => ((ext_any_eq last f p w).mp he).1) var_list hl
    · by_cases hd : 0 < distlim
      · rw [dist_outer_eq distlim maxdist hd var_list _ 0 [] (Nat.zero_le _) (by omega)] at h
        simp only [List.drop_zero, List.nil_append, Option.some.injEq] at h
        subst h
        refine greedy_ordered _ (fun f p w he _ => ?_) var_list hl
        have hn : new_set_rule distlim maxdist f p w = false := by simpa using he
        by_contra hne
        have := (new_set_rule_eq distlim maxdist f p w).mpr (Or.inl (fun e => hne e.symm))
        rw [hn] at this
        exact Bool.noConfusion this
      · rw [dist_outer_off distlim maxdist (by omega) var_list _ 0 [] (Nat.zero_le _)
          (by omega)] at h
        simp only [List.drop_zero, List.nil_append, Option.some.injEq] at h
        subst h
        intro S hS
        simp only [List.mem_map] at hS
        obtain ⟨v, _, rfl⟩ := hS
        exact List.pairwise_singleton _ _

/-! ### The split pass finishes -/

theorem set_weight_pos (S : List variant_t) : 0 < set_weight S := by
  unfold set_weight
  positivity

theorem total_weight_append (a b : List (List variant_t)) :
    total_weight (a ++ b) = total_weight a + total_weight b := by
  simp [total_weight]

theorem three_mul_le_pow : ∀ m : Nat, 0 < m → 3 * m ≤ 3 ^ m := by
  intro m
  induction m with
  | zero => intro h; omega
  | succ m ih =>
    intro _
    cases m with
    | zero => decide
    | succ m =>
      have := ih (by omega)
      rw [Nat.pow_succ]
      omega

theorem set_weight_mono (S T : List variant_t) (h : S.length ≤ T.length) :
    set_weight S ≤ set_weight T := by
  unfold set_weight
  exact Nat.pow_le_pow_right (by decide) h

theorem dedup_loop_ok :
    ∀ (fuel j : Nat) (cs : List variant_t) (flag : Bool),
      cs ≠ [] → cs.length ≤ fuel + j → 0 < fuel →
      ∃ cs1 flag1, dedup_loop fuel j cs flag = .ok (cs1, flag1) ∧ cs1 ≠ [] ∧
        cs1.length ≤ cs.length := by
  intro fuel
  induction fuel with
  | zero => intro j cs flag _ _ h; omega
  | succ fuel ih =>
    intro j cs flag hne hlen _
    have hl0 : ¬ cs.length = 0 := fun h => hne (List.length_eq_zero.mp h)
    rw [dedup_loop, if_neg hl0]
    by_cases hj : j < cs.length - 1
    · rw [if_pos hj]
      have h1 : cs[j]? = some cs[j] := List.getElem?_eq_getElem (by omega)
      have h2 : cs[j + 1]? = some cs[j + 1] := List.getElem?_eq_getElem (by omega)
      rw [h1, h2]
      simp only
      by_cases hs : same_variant cs[j] cs[j + 1] = true
      · rw [if_pos hs]
        have hd : vector_del cs (j + 1) = .ok (cs.eraseIdx (j + 1)) := by
          unfold vector_del
          rw [if_pos (by omega)]
        rw [hd]
        simp only
        have hel : (cs.eraseIdx (j + 1)).length = cs.length - 1 :=
          List.length_eraseIdx_of_lt (by omega)
        obtain ⟨cs1, flag1, hr, hn1, hl1⟩ := ih (j + 1) (cs.eraseIdx (j + 1)) flag
          (by intro h; rw [h] at hel; simp at hel; omega) (by omega) (by omega)
        exact ⟨cs1, flag1, hr, hn1, by omega⟩
      · rw [if_neg hs]
        split
        · exact ih (j + 1) cs false hne (by omega) (by omega)
        · exact ih (j + 1) cs flag hne (by omega) (by omega)
    · rw [if_neg hj]
      exact ⟨cs, flag, rfl, hne, le_refl _⟩

theorem pop_loop_ok :
    ∀ (fuel : Nat) (cs : List variant_t) (added : List (List variant_t)),
      cs ≠ [] → cs.length ≤ fuel →
      ∃ cs1 added1, pop_loop fuel cs added = .ok (cs1, added1) ∧ cs1.length = 1 ∧
        total_weight added1 + 3 = total_weight added + 3 * cs.length ∧
        ∀ S ∈ added1, S ∈ added ∨ S ≠ [] := by
  intro fuel
  induction fuel with
  | zero =>
    intro cs added hne hlen
    exact absurd (List.length_eq_zero.mp (Nat.le_zero.mp hlen)) hne
  | succ fuel ih =>
    intro cs added hne hlen
    rw [pop_loop]
    by_cases h1 : cs.length > 1
    · rw [if_pos h1]
      have hp : vector_pop cs = (some (cs.getLast hne), cs.dropLast) := by
        unfold vector_pop
        rw [if_neg (by omega), List.getLast?_eq_getLast _ hne]
      rw [hp]
      simp only
      have hdl : cs.dropLast.length = cs.length - 1 := List.length_dropLast _
      obtain ⟨cs1, added1, hr, hl1, hw, hm⟩ := ih cs.dropLast
        (vector_add added (vector_add [] (cs.getLast hne)))
        (by intro h; rw [h] at hdl; simp at hdl; omega) (by omega)
      refine ⟨cs1, added1, hr, hl1, ?_, ?_⟩
      · rw [hw, hdl]
        simp only [vector_add, List.nil_append, total_weight_append]
        simp only [total_weight, List.map_cons, List.map_nil, List.sum_cons, List.sum_nil,
          set_weight, List.length_singleton]
        omega
      · intro S hS
        rcases hm S hS with h2 | h2
        · simp only [vector_add, List.nil_append, List.mem_append, List.mem_singleton] at h2
          rcases h2 with h2 | h2
          · exact Or.inl h2
          · right; rw [h2]; exact List.cons_ne_nil _ _
        · exact Or.inr h2
    · rw [if_neg h1]
      have hl : cs.length = 1 := by
        have : cs.length ≠ 0 := fun h => hne (List.length_eq_zero.mp h)
        omega
      exact ⟨cs, added, rfl, hl, by rw [hl], fun S hS => Or.inl hS⟩

theorem dup_loop_ok :
    ∀ (fuel j : Nat) (cs : List variant_t) (added : List (List variant_t)) (flag : Bool),
      cs ≠ [] → cs.length ≤ fuel + j → 0 < fuel →
      ∃ cs1 added1 flag1, dup_loop fuel j cs added flag = .ok (cs1, added1, flag1) ∧
        cs1 ≠ [] ∧ (∀ S ∈ added1, S ∈ added ∨ S ≠ []) ∧
        set_weight cs1 + total_weight added1 ≤ set_weight cs + total_weight added ∧
        (flag1 = true → flag = true ∨
          set_weight cs1 + total_weight added1 < set_weight cs + total_weight added) := by
  intro fuel
  induction fuel with
  | zero => intro j cs added flag _ _ h; omega
  | succ fuel ih =>
    intro j cs added flag hne hlen _
    have hl0 : ¬ cs.length = 0 := fun h => hne (List.length_eq_zero.mp h)
    rw [dup_loop, if_neg hl0]
    by_cases hj : j < cs.length - 1
    · rw [if_pos hj]
      have h1 : cs[j]? = some cs[j] := List.getElem?_eq_getElem (by omega)
      have h2 : cs[j + 1]? = some cs[j + 1] := List.getElem?_eq_getElem (by omega)
      rw [h1, h2]
      simp only
      by_cases hs : (cs[j]).pos = (cs[j + 1]).pos
      · rw [if_pos hs]
        have hd1 : vector_del cs j = .ok (cs.eraseIdx j) := by
          unfold vector_del
          rw [if_pos (by omega)]
        have hd2 : vector_del (vector_dup cs) (j + 1) = .ok (cs.eraseIdx (j + 1)) := by
          unfold vector_del vector_dup
          rw [if_pos (by omega)]
        rw [hd1, hd2]
        simp only
        have hel1 : (cs.eraseIdx j).length = cs.length - 1 :=
          List.length_eraseIdx_of_lt (by omega)
        have hel2 : (cs.eraseIdx (j + 1)).length = cs.length - 1 :=
          List.length_eraseIdx_of_lt (by omega)
        obtain ⟨cs1, added1, flag1, hr, hn1, hm, hw, _⟩ := ih (j + 1) (cs.eraseIdx j)
          (vector_add added (cs.eraseIdx (j + 1))) true
          (by intro h; rw [h] at hel1; simp at hel1; omega) (by omega) (by omega)
        have hstep : set_weight (cs.eraseIdx j)
            + total_weight (vector_add added (cs.eraseIdx (j + 1)))
            < set_weight cs + total_weight added := by
          simp only [vector_add, total_weight_append]
          simp only [total_weight, List.map_cons, List.map_nil, List.sum_cons, List.sum_nil,
            set_weight, hel1, hel2]
          have hp : 3 ^ cs.length = 3 * 3 ^ (cs.length - 1) := by
            rw [← Nat.pow_succ']
            congr 1
            omega
          have hpos : 0 < 3 ^ (cs.length - 1) := by positivity
          omega
        refine ⟨cs1, added1, flag1, hr, hn1, ?_, by omega, fun _ => Or.inr (by omega)⟩
        intro S hS
        rcases hm S hS with h3 | h3
        · simp only [vector_add, List.mem_append, List.mem_singleton] at h3
          rcases h3 with h3 | h3
          · exact Or.inl h3
          · right
            rw [h3]
            intro h4
            rw [h4] at hel2
            simp at hel2
            omega
        · exact Or.inr h3
      · rw [if_neg hs]
        exact ih (j + 1) cs added flag hne (by omega) (by omega)
    · rw [if_neg hj]
      exact ⟨cs, added, flag, rfl, hne, fun S hS => Or.inl hS, le_refl _, fun h => Or.inl h⟩

theorem split_set_ok (cs : List variant_t) (flag : Bool) (hne : cs ≠ []) :
    ∃ cs1 added flag1, split_set cs flag = .ok (cs1, added, flag1) ∧
      cs1 ≠ [] ∧ (∀ S ∈ added, S ≠ []) ∧
      set_weight cs1 + total_weight added ≤ set_weight cs ∧
      (flag1 = true → flag = true ∨ set_weight cs1 + total_weight added < set_weight cs) := by
  obtain ⟨cs2, flag2, hded, hn2, hl2⟩ := dedup_loop_ok (cs.length + 1) 0 cs true hne
    (by omega) (by omega)
  have hw2 := set_weight_mono cs2 cs hl2
  unfold split_set
  rw [hded]
  simp only
  cases flag2 with
  | true =>
    obtain ⟨cs3, added3, hpop, hl3, hw3, hm3⟩ := pop_loop_ok (cs2.length + 1) cs2 [] hn2
      (by omega)
    simp only [if_true, hpop]
    have hw : set_weight cs3 + total_weight added3 ≤ set_weight cs := by
      have h3 : set_weight cs3 = 3 := by simp [set_weight, hl3]
      have h0 : total_weight ([] : List (List variant_t)) = 0 := rfl
      rw [h0] at hw3
      have hm := three_mul_le_pow cs2.length
        (Nat.pos_of_ne_zero (fun h => hn2 (List.length_eq_zero.mp h)))
      rw [h3]
      unfold set_weight at hw2 ⊢
      omega
    refine ⟨cs3, added3, flag, rfl, ?_, ?_, hw, fun h => Or.inl h⟩
    · intro h; rw [h] at hl3; simp at hl3
    · intro S hS
      rcases hm3 S hS with h4 | h4
      · simp at h4
      · exact h4
  | false =>
    obtain ⟨cs3, added3, flag3, hdup, hn3, hm3, hw3, hf3⟩ := dup_loop_ok (cs2.length + 1) 0
      cs2 [] flag hn2 (by omega) (by omega)
    have h0 : total_weight ([] : List (List variant_t)) = 0 := rfl
    rw [h0] at hw3 hf3
    simp only [Bool.false_eq_true, if_false, hdup]
    refine ⟨cs3, added3, flag3, rfl, hn3, ?_, by omega, ?_⟩
    · intro S hS
      rcases hm3 S hS with h4 | h4
      · simp at h4
      · exact h4
    · intro h
      rcases hf3 h with h5 | h5
      · exact Or.inl h5
      · exact Or.inr (by omega)

theorem total_weight_set :
    ∀ (vs : List (List variant_t)) (i : Nat) (cs cs1 : List variant_t), vs[i]? = some cs →
      total_weight (vs.set i cs1) + set_weight cs = total_weight vs + set_weight cs1 := by
  intro vs
  induction vs with
  | nil => intro i cs cs1 h; simp at h
  | cons S vs ih =>
    intro i cs cs1 h
    cases i with
    | zero =>
      simp only [List.getElem?_cons_zero, Option.some.injEq] at h
      subst h
      simp only [List.set_cons_zero, total_weight, List.map_cons, List.sum_cons]
      omega
    | succ i =>
      simp only [List.getElem?_cons_succ] at h
      have := ih i cs cs1 h
      simp only [List.set_cons_succ, total_weight, List.map_cons, List.sum_cons] at this ⊢
      omega

theorem total_weight_drop (vs : List (List variant_t)) (i : Nat) (cs : List variant_t)
    (h : vs[i]? = some cs) :
    total_weight (vs.drop i) = set_weight cs + total_weight (vs.drop (i + 1)) := by
  rw [drop_of_getElem? vs i cs h]
  simp [total_weight]

theorem set_loop_ok :
    ∀ (fuel i : Nat) (vs : List (List variant_t)) (flag : Bool),
      (∀ S ∈ vs, S ≠ []) → total_weight (vs.drop i) < fuel →
      ∃ out flag1, set_loop fuel i vs flag = .ok (out, flag1) ∧ (∀ S ∈ out, S ≠ []) ∧
        total_weight out ≤ total_weight vs ∧
        (flag1 = true → flag = true ∨ total_weight out < total_weight vs) := by
  intro fuel
  induction fuel with
  | zero => intro i vs flag _ h; omega
  | succ fuel ih =>
    intro i vs flag hne hw
    rw [set_loop]
    cases hi : vs[i]? with
    | none =>
      exact ⟨vs, flag, rfl, hne, le_refl _, fun h => Or.inl h⟩
    | some cs =>
      simp only
      have hdrop := total_weight_drop vs i cs hi
      have hcs : cs ≠ [] := hne cs (List.getElem?_mem hi)
      have hpos := set_weight_pos cs
      by_cases h1 : cs.length = 1
      · rw [if_pos h1]
        exact ih (i + 1) vs flag hne (by omega)
      · rw [if_neg h1]
        obtain ⟨cs1, added, flag1, hs, hn1, hna, hws, hfs⟩ := split_set_ok cs flag hcs
        rw [hs]
        simp only
        have hilt : i < vs.length := (List.getElem?_eq_some_iff.mp hi).1
        have hne1 : ∀ S ∈ vs.set i cs1 ++ added, S ≠ [] := by
          intro S hS
          rcases List.mem_append.mp hS with h2 | h2
          · rcases List.mem_or_eq_of_mem_set h2 with h3 | h3
            · exact hne S h3
            · rw [h3]; exact hn1
          · exact hna S h2
        have hd1 : (vs.set i cs1 ++ added).drop (i + 1) = vs.drop (i + 1) ++ added := by
          rw [List.drop_append_of_le_length (by rw [List.length_set]; omega),
            List.drop_set_of_lt _ _ (by omega)]
        have hpos1 := set_weight_pos cs1
        have hset := total_weight_set vs i cs cs1 hi
        have htot : total_weight (vs.set i cs1 ++ added) + set_weight cs
            = total_weight vs + set_weight cs1 + total_weight added := by
          rw [total_weight_append]; omega
        obtain ⟨out, flag2, hr, hno, hwo, hfo⟩ := ih (i + 1) (vs.set i cs1 ++ added) flag1 hne1
          (by rw [hd1, total_weight_append]; omega)
        refine ⟨out, flag2, hr, hno, by omega, ?_⟩
        intro h
        rcases hfo h with h4 | h4
        · rcases hfs h4 with h5 | h5
          · exact Or.inl h5
          · exact Or.inr (by omega)
        · exact Or.inr (by omega)

theorem split_pass_ok :
    ∀ (fuel : Nat) (vs : List (List variant_t)),
      (∀ S ∈ vs, S ≠ []) → total_weight vs < fuel →
      ∃ out, split_pass fuel vs = .ok out ∧ ∀ S ∈ out, S ≠ [] := by
  intro fuel
  induction fuel with
  | zero => intro vs _ h; omega
  | succ fuel ih =>
    intro vs hne hw
    obtain ⟨vs1, flag1, hr, hn1, hw1, hf1⟩ := set_loop_ok (fuel + 1) 0 vs false hne
      (by rw [List.drop_zero]; exact hw)
    rw [split_pass, hr]
    simp only
    cases flag1 with
    | true =>
      simp only [if_true]
      rcases hf1 rfl with h | h
      · exact absurd h (by decide)
      · exact ih vs1 hn1 (by omega)
    | false =>
      exact ⟨vs1, by simp, hn1⟩

theorem group_variants_ok (sharedr distlim maxdist : Int) (last : List Char → Int → Int)
    (var_list : List variant_t) :
    ∃ sets, group_variants sharedr distlim maxdist last var_list = some sets ∧
      sets.flatten = var_list ∧ ∀ S ∈ sets, S ≠ [] := by
  unfold group_variants
  split
  · rw [first_outer_eq last var_list _ 0 [] (Nat.zero_le _) (by omega)]
    exact ⟨greedy (ext_first last) var_list.length var_list, by simp,
      greedy_join _ _ _ (le_refl _), fun S hS => (greedy_linked _ _ _ S hS).1⟩
  · split
    · rw [any_outer_eq last var_list _ 0 [] (Nat.zero_le _) (by omega)]
      exact ⟨greedy (ext_any last) var_list.length var_list, by simp,
        greedy_join _ _ _ (le_refl _), fun S hS => (greedy_linked _ _ _ S hS).1⟩
    · by_cases hd : 0 < distlim
      · rw [dist_outer_eq distlim maxdist hd var_list _ 0 [] (Nat.zero_le _) (by omega)]
        exact ⟨greedy (fun f p w => !new_set_rule distlim maxdist f p w) var_list.length
          var_list, by simp, greedy_join _ _ _ (le_refl _),
          fun S hS => (greedy_linked _ _ _ S hS).1⟩
      · rw [dist_outer_off distlim maxdist (by omega) var_list _ 0 [] (Nat.zero_le _)
          (by omega)]
        refine ⟨var_list.map (fun v => [v]), by simp, ?_, ?_⟩
        · induction var_list with
          | nil => rfl
          | cons v l ih => simp [ih]
        · intro S hS
          simp only [List.mem_map] at hS
          obtain ⟨v, _, rfl⟩ := hS
          exact List.cons_ne_nil _ _

theorem process_sets_ok (sharedr distlim maxdist : Int) (last : List Char → Int → Int)
    (var_list : List variant_t) :
    ∃ fuel out, process_sets sharedr distlim maxdist last fuel var_list = .ok out ∧
      ∀ S ∈ out, S ≠ [] := by
  obtain ⟨sets, hg, _, hne⟩ := group_variants_ok sharedr distlim maxdist last var_list
  obtain ⟨out, hr, hno⟩ := split_pass_ok (total_weight sets + 1) sets hne (by omega)
  refine ⟨total_weight sets + 1, out, ?_, hno⟩
  unfold process_sets
  rw [hg]
  exact hr

/-- C8, evaluated on the code. The set made of the variant `chr1:5 A>G` twice and of
`chr1:7 C>T` holds two distinct positions, yet the split pass breaks it into the
singleton sets of `chr1:5 A>G` and `chr1:7 C>T`: after `vector_del` removes the
duplicate at index 1 the loop index moves on, the pair at positions 5 and 7 is never
compared, and `flag_nonset` stays 1. The same happens from the sorted list of the three
variants grouped by distance. -/
theorem split_pass_breaks_mixed_set :
    split_pass 3
        [[⟨"chr1".toList, 5, "A".toList, "G".toList⟩,
          ⟨"chr1".toList, 5, "A".toList, "G".toList⟩,
          ⟨"chr1".toList, 7, "C".toList, "T".toList⟩]]
      = .ok [[⟨"chr1".toList, 5, "A".toList, "G".toList⟩],
             [⟨"chr1".toList, 7, "C".toList, "T".toList⟩]] ∧
    process_sets 0 10 0 (fun _ _ => -1) 3
        [⟨"chr1".toList, 5, "A".toList, "G".toList⟩,
         ⟨"chr1".toList, 5, "A".toList, "G".toList⟩,
         ⟨"chr1".toList, 7, "C".toList, "T".toList⟩]
      = .ok [[⟨"chr1".toList, 5, "A".toList, "G".toList⟩],
             [⟨"chr1".toList, 7, "C".toList, "T".toList⟩]] := by
  decide

/-- C9. For every input list in which neighbours on one chromosome are in ascending
position order and every grouping mode, the split pass finishes (some step budget
lets grouping and split pass return), and whenever it has finished no set contains
two identical variants and no set with more than one variant contains two adjacent
variants at the same position. -/
theorem split_pass_sets_distinct (sharedr distlim maxdist : Int)
    (last : List Char → Int → Int) (var_list : List variant_t)
    (hs : sorted_input var_list) :
    (∃ fuel out, process_sets sharedr distlim maxdist last fuel var_list = .ok out) ∧
    ∀ (fuel : Nat) (out : List (List variant_t)),
      process_sets sharedr distlim maxdist last fuel var_list = .ok out →
      ∀ S ∈ out, S.Nodup ∧
        (1 < S.length → List.Chain' (fun a b : variant_t => a.pos ≠ b.pos) S) := by
  constructor
  · obtain ⟨fuel, out, h, _⟩ := process_sets_ok sharedr distlim maxdist last var_list
    exact ⟨fuel, out, h⟩
  · intro fuel out hrun
    unfold process_sets at hrun
    split at hrun
    · cases hrun
    · rename_i sets hg
      intro S hS
      have hq := split_pass_quiet _ _ _ hrun S hS
      obtain ⟨S0, hS0, hsub⟩ := split_pass_origin _ _ _ hrun S hS
      have ho : ordered S :=
        List.Pairwise.sublist hsub (group_variants_ordered _ _ _ _ _ _ hs hg S0 hS0)
      exact ⟨nodup_of_ordered_quiet S ho hq, fun _ => hq⟩

/-- Instance of C9: two alleles at position 5 and a variant at position 7, grouped by
distance, end as the two sets that pair each allele with the variant at position 7. -/
theorem split_pass_sets_distinct_witness :
    sorted_input [⟨"chr1".toList, 5, "A".toList, "G".toList⟩,
        ⟨"chr1".toList, 5, "A".toList, "T".toList⟩,
        ⟨"chr1".toList, 7, "C".toList, "T".toList⟩] ∧
    process_sets 0 10 0 (fun _ _ => -1) 5
        [⟨"chr1".toList, 5, "A".toList, "G".toList⟩,
         ⟨"chr1".toList, 5, "A".toList, "T".toList⟩,
         ⟨"chr1".toList, 7, "C".toList, "T".toList⟩]
      = .ok [[⟨"chr1".toList, 5, "A".toList, "T".toList⟩,
              ⟨"chr1".toList, 7, "C".toList, "T".toList⟩],
             [⟨"chr1".toList, 5, "A".toList, "G".toList⟩,
              ⟨"chr1".toList, 7, "C".toList, "T".toList⟩]] ∧
    ∀ S ∈ [[(⟨"chr1".toList, 5, "A".toList, "T".toList⟩ : variant_t),
              ⟨"chr1".toList, 7, "C".toList, "T".toList⟩],
             [⟨"chr1".toList, 5, "A".toList, "G".toList⟩,
              ⟨"chr1".toList, 7, "C".toList, "T".toList⟩]],
      S.Nodup ∧ (1 < S.length → List.Chain' (fun a b : variant_t => a.pos ≠ b.pos) S) :=
  ⟨by simp [sorted_input], by decide,
   (split_pass_sets_distinct 0 10 0 (fun _ _ => -1)
    [⟨"chr1".toList, 5, "A".toList, "G".toList⟩,
     ⟨"chr1".toList, 5, "A".toList, "T".toList⟩,
     ⟨"chr1".toList, 7, "C".toList, "T".toList⟩] (by simp [sorted_input])).2 5 _ (by decide)⟩

/-! ## Facts about `calc_likelihood` -/

theorem read_step_skip {R : Type} [Double R] (o : options R) (k : kernels R)
    (var_data : List variant_t) (refseq : List Char) (refseq_length : Int)
    (has_indel : Bool) (altseq : List Char) (altseq_length : Int) (seti : Nat)
    (stat : stats_t R) (read : read_t R) (first last : variant_t)
    (hfirst : combo_first var_data stat.combo = some first)
    (hlast : combo_last var_data stat.combo = some last)
    (hns : read.pos > first.pos ∨ read.«end» < last.pos) :
    read_step o k var_data refseq refseq_length has_indel altseq altseq_length seti stat read
      = .ok ({ stat with read_prgv := stat.read_prgv ++ [-Double.DBL_MAX] }, read) := by
  unfold combo_first at hfirst
  unfold combo_last at hlast
  cases h0 : stat.combo.head? with
  | none => rw [h0] at hfirst; simp at hfirst
  | some c0 =>
    cases h1 : stat.combo.getLast? with
    | none => rw [h1] at hlast; simp at hlast
    | some c1 =>
      rw [h0] at hfirst; rw [h1] at hlast
      simp only [Option.some_bind] at hfirst hlast
      have hn : not_spanning read first last = true := by
        simp only [not_spanning, Bool.or_eq_true, decide_eq_true_eq]
        exact hns
      simp only [read_step, h0, h1, hfirst, hlast, hn, if_true]

theorem read_step_combo {R : Type} [Double R] (o : options R) (k : kernels R)
    (var_data : List variant_t) (refseq : List Char) (refseq_length : Int)
    (has_indel : Bool) (altseq : List Char) (altseq_length : Int) (seti : Nat)
    (stat stat1 : stats_t R) (read read1 : read_t R)
    (h : read_step o k var_data refseq refseq_length has_indel altseq altseq_length seti
      stat read = .ok (stat1, read1)) :
    stat1.combo = stat.combo ∧ stat1.read_prgv.length = stat.read_prgv.length + 1 ∧
      stat1.read_prgv.take stat.read_prgv.length = stat.read_prgv := by
  unfold read_step at h
  split at h
  · split at h
    · split at h
      · cases h
        simp
      · cases h
        simp [score_read]
    · cases h
  · cases h

theorem read_loop_skip {R : Type} [Double R] (o : options R) (k : kernels R)
    (var_data : List variant_t) (refseq : List Char) (refseq_length : Int)
    (has_indel : Bool) (altseq : List Char) (altseq_length : Int) (seti : Nat)
    (first last : variant_t) :
    ∀ (read_data : List (read_t R)) (stat stat1 : stats_t R) (reads1 : List (read_t R)),
      combo_first var_data stat.combo = some first →
      combo_last var_data stat.combo = some last →
      read_loop o k var_data refseq refseq_length has_indel altseq altseq_length seti
        stat read_data = .ok (stat1, reads1) →
      stat1.read_prgv.length = stat.read_prgv.length + read_data.length ∧
      stat1.read_prgv.take stat.read_prgv.length = stat.read_prgv ∧
      ∀ (i : Nat) (read : read_t R), read_data[i]? = some read →
        (read.pos > first.pos ∨ read.«end» < last.pos) →
        stat1.read_prgv[stat.read_prgv.length + i]? = some (-Double.DBL_MAX) ∧
          reads1[i]? = some read := by
  intro read_data
  induction read_data with
  | nil =>
    intro stat stat1 reads1 _ _ h
    simp only [read_loop, Except.ok.injEq, Prod.mk.injEq] at h
    obtain ⟨h1, _⟩ := h
    subst h1
    simp
  | cons r rest ih =>
    intro stat stat1 reads1 hf hl h
    rw [read_loop] at h
    split at h
    · cases h
    · rename_i st1 r1 hstep
      split at h
      · cases h
      · rename_i st2 rest1 hrest
        cases h
        obtain ⟨hc, hlen, htake⟩ := read_step_combo _ _ _ _ _ _ _ _ _ _ _ _ _ hstep
        obtain ⟨h1, h2, h3⟩ := ih st1 stat1 rest1 (by rw [hc]; exact hf) (by rw [hc]; exact hl)
          hrest
        refine ⟨by simp only [List.length_cons]; omega, ?_, ?_⟩
        · have hle : stat.read_prgv.length ≤ st1.read_prgv.length := by omega
          have e : List.take stat.read_prgv.length (List.take st1.read_prgv.length
              stat1.read_prgv) = List.take stat.read_prgv.length stat1.read_prgv := by
            rw [List.take_take, Nat.min_eq_left hle]
          rw [← e, h2, htake]
        · intro i read hi hns
          cases i with
          | zero =>
            simp only [List.getElem?_cons_zero, Option.some.injEq] at hi
            subst hi
            rw [read_step_skip o k var_data refseq refseq_length has_indel altseq
              altseq_length seti stat r first last hf hl hns] at hstep
            simp only [Except.ok.injEq, Prod.mk.injEq] at hstep
            obtain ⟨hs, hr⟩ := hstep
            refine ⟨?_, by rw [← hr]; simp⟩
            have hlt : stat.read_prgv.length < st1.read_prgv.length := by omega
            have e2 := congrArg (fun l => l[stat.read_prgv.length]?) h2
            simp only at e2
            rw [List.getElem?_take_of_lt hlt] at e2
            rw [Nat.add_zero, e2, ← hs]
            simp
          | succ i =>
            simp only [List.getElem?_cons_succ] at hi ⊢
            obtain ⟨h4, h5⟩ := h3 i read hi hns
            refine ⟨?_, h5⟩
            rw [← h4, hlen]
            congr 1
            omega

/-- C10. Read spanning in `calc_likelihood`: for a read with `read.pos` above the
position of the first variant of the combination, or `read.end` below the position
of the last one, the loop body returns the statistics with `-DBL_MAX` appended to
`read_prgv` and every other field (`seen`, `ref_count`, `alt_count`, `ref`, `alt`,
`het`) as before, and the read as before; and when `calc_likelihood` returns, the
entry of `read_prgv` appended for that read is `-DBL_MAX`, `read_prgv` has grown by
one entry per read, and the read is returned unchanged. -/
theorem calc_likelihood_not_spanning {R : Type} [Double R] (o : options R) (k : kernels R)
    (var_data : List variant_t) (refseq : List Char) (refseq_length : Int) (seti : Nat)
    (stat : stats_t R) (read_data : List (read_t R)) (i : Nat) (read : read_t R)
    (first last : variant_t)
    (hfirst : combo_first var_data stat.combo = some first)
    (hlast : combo_last var_data stat.combo = some last)
    (hread : read_data[i]? = some read)
    (hns : read.pos > first.pos ∨ read.«end» < last.pos) :
    (∀ (has_indel : Bool) (altseq : List Char) (altseq_length : Int) (st : stats_t R),
      st.combo = stat.combo →
      read_step o k var_data refseq refseq_length has_indel altseq altseq_length seti st read
        = .ok ({ st with read_prgv := st.read_prgv ++ [-Double.DBL_MAX] }, read)) ∧
    (∀ (stat1 : stats_t R) (reads1 : List (read_t R)),
      calc_likelihood o k stat var_data refseq refseq_length read_data seti
        = .ok (stat1, reads1) →
      stat1.read_prgv.length = stat.read_prgv.length + read_data.length ∧
      stat1.read_prgv[stat.read_prgv.length + i]? = some (-Double.DBL_MAX) ∧
      reads1[i]? = some read) := by
  constructor
  · intro has_indel altseq altseq_length st hst
    exact read_step_skip o k var_data refseq refseq_length has_indel altseq altseq_length seti
      st read first last (by rw [hst]; exact hfirst) (by rw [hst]; exact hlast) hns
  · intro stat1 reads1 h
    unfold calc_likelihood at h
    simp only at h
    split at h
    · cases h
    · rename_i has_indel _
      split at h
      · cases h
      · rename_i altseq altseq_length _
        split at h
        · cases h
        · rename_i st2 rd2 hloop
          simp only [Except.ok.injEq, Prod.mk.injEq] at h
          obtain ⟨hs, hr⟩ := h
          subst hs hr
          obtain ⟨h1, _, h3⟩ := read_loop_skip o k var_data refseq refseq_length has_indel
            altseq altseq_length seti first last read_data (reset_stats stat) st2 rd2
            hfirst hlast hloop
          obtain ⟨h4, h5⟩ := h3 i read hread hns
          exact ⟨h1, h4, h5⟩

/-- Instance of C10: a read mapped at position 5 does not cross the variant at
position 3, and the loop body only appends `-DBL_MAX`. -/
theorem calc_likelihood_not_spanning_witness :
    ((sample_read 5).pos > (⟨"chr1".toList, 3, "G".toList, "A".toList⟩ : variant_t).pos ∨
      (sample_read 5).«end» < (⟨"chr1".toList, 3, "G".toList, "A".toList⟩ : variant_t).pos) ∧
    read_step sample_options sample_kernels [⟨"chr1".toList, 3, "G".toList, "A".toList⟩]
        "ACGTACGTAC".toList 10 false [] 0 0 (stats_create [0]) (sample_read 5)
      = .ok ({ (stats_create [0] : stats_t Float) with read_prgv := [-Double.DBL_MAX] },
          sample_read 5) :=
  ⟨by decide,
   (calc_likelihood_not_spanning sample_options sample_kernels
      [⟨"chr1".toList, 3, "G".toList, "A".toList⟩] "ACGTACGTAC".toList 10 0
      (stats_create [0]) [sample_read 5] 0 (sample_read 5)
      ⟨"chr1".toList, 3, "G".toList, "A".toList⟩ ⟨"chr1".toList, 3, "G".toList, "A".toList⟩
      rfl rfl rfl (by decide)).1 false [] 0 (stats_create [0]) rfl⟩

/-! ## Counts and entries of `calc_likelihood` -/

theorem score_read_eq {R : Type} [Double R] (o : options R) (k : kernels R)
    (stat : stats_t R) (var_data : List variant_t) (refseq : List Char)
    (refseq_length : Int) (has_indel : Bool) (altseq : List Char) (altseq_length : Int)
    (seti : Nat) (read : read_t R) :
    score_read o k stat var_data refseq refseq_length has_indel altseq altseq_length seti read
      = ({ stat with
            seen := stat.seen + 1
            ref := stat.ref + ((mixture_scores o k stat.combo var_data refseq refseq_length
              has_indel altseq altseq_length read).2.1 + o.ref_prior)
            alt := stat.alt + ((mixture_scores o k stat.combo var_data refseq refseq_length
              has_indel altseq altseq_length read).2.2 + o.alt_prior)
            het := stat.het + (het_mixture
              (mixture_scores o k stat.combo var_data refseq refseq_length
                has_indel altseq altseq_length read).2.1
              (mixture_scores o k stat.combo var_data refseq refseq_length
                has_indel altseq altseq_length read).2.2 + o.het_prior)
            read_prgv := stat.read_prgv ++ [read_value o k stat.combo var_data refseq
              refseq_length has_indel altseq altseq_length read]
            alt_count :=
              if alt_hit (mixture_scores o k stat.combo var_data refseq refseq_length
                  has_indel altseq altseq_length read).1
                ((mixture_scores o k stat.combo var_data refseq refseq_length
                  has_indel altseq altseq_length read).2.1 + o.ref_prior)
                ((mixture_scores o k stat.combo var_data refseq refseq_length
                  has_indel altseq altseq_length read).2.2 + o.alt_prior)
              then stat.alt_count + 1 else stat.alt_count
            ref_count :=
              if alt_hit (mixture_scores o k stat.combo var_data refseq refseq_length
                  has_indel altseq altseq_length read).1
                ((mixture_scores o k stat.combo var_data refseq refseq_length
                  has_indel altseq altseq_length read).2.1 + o.ref_prior)
                ((mixture_scores o k stat.combo var_data refseq refseq_length
                  has_indel altseq altseq_length read).2.2 + o.alt_prior)
              then stat.ref_count
              else if ref_hit (mixture_scores o k stat.combo var_data refseq refseq_length
                  has_indel altseq altseq_length read).1
                ((mixture_scores o k stat.combo var_data refseq refseq_length
                  has_indel altseq altseq_length read).2.1 + o.ref_prior)
                ((mixture_scores o k stat.combo var_data refseq refseq_length
                  has_indel altseq altseq_length read).2.2 + o.alt_prior)
              then stat.ref_count + 1 else stat.ref_count },
          if o.verbose ∧ (mixture_scores o k stat.combo var_data refseq refseq_length
              has_indel altseq altseq_length read).2.2 > read.prgv then
            { read with
                index := seti
                prgu := (mixture_scores o k stat.combo var_data refseq refseq_length
                  has_indel altseq altseq_length read).2.1
                prgv := (mixture_scores o k stat.combo var_data refseq refseq_length
                  has_indel altseq altseq_length read).2.2
                pout := (mixture_scores o k stat.combo var_data refseq refseq_length
                  has_indel altseq altseq_length read).1 }
          else read) := by
  rfl

theorem read_step_effect {R : Type} [Double R] (o : options R) (k : kernels R)
    (var_data : List variant_t) (refseq : List Char) (refseq_length : Int)
    (has_indel : Bool) (altseq : List Char) (altseq_length : Int) (seti : Nat)
    (stat stat1 : stats_t R) (read read1 : read_t R)
    (h : read_step o k var_data refseq refseq_length has_indel altseq altseq_length seti
      stat read = .ok (stat1, read1)) :
    ∃ first last, combo_first var_data stat.combo = some first ∧
      combo_last var_data stat.combo = some last ∧
      stat1.combo = stat.combo ∧
      stat1.read_prgv = stat.read_prgv ++ [read_entry o k stat.combo var_data refseq
        refseq_length has_indel altseq altseq_length first last read] ∧
      ((not_spanning read first last = true ∧ stat1.seen = stat.seen ∧
          stat1.ref_count = stat.ref_count ∧ stat1.alt_count = stat.alt_count) ∨
       (not_spanning read first last = false ∧ stat1.seen = stat.seen + 1 ∧
          ((stat1.ref_count = stat.ref_count ∧ stat1.alt_count = stat.alt_count) ∨
           (stat1.ref_count = stat.ref_count + 1 ∧ stat1.alt_count = stat.alt_count) ∨
           (stat1.ref_count = stat.ref_count ∧ stat1.alt_count = stat.alt_count + 1)))) := by
  unfold read_step at h
  split at h
  · rename_i c0 c1 h0 h1
    split at h
    · rename_i first last hf hl
      refine ⟨first, last, by simp [combo_first, h0, hf], by simp [combo_last, h1, hl], ?_⟩
      by_cases hns : not_spanning read first last = true
      · rw [if_pos hns] at h
        cases h
        refine ⟨rfl, by simp [read_entry, hns], Or.inl ⟨hns, rfl, rfl, rfl⟩⟩
      · rw [if_neg hns] at h
        rw [score_read_eq] at h
        simp only [Except.ok.injEq, Prod.mk.injEq] at h
        obtain ⟨hs, _⟩ := h
        subst hs
        simp only [Bool.not_eq_true] at hns
        refine ⟨rfl, by simp [read_entry, hns], Or.inr ⟨hns, rfl, ?_⟩⟩
        simp only
        split
        · exact Or.inr (Or.inr ⟨rfl, rfl⟩)
        · split
          · exact Or.inr (Or.inl ⟨rfl, rfl⟩)
          · exact Or.inl ⟨rfl, rfl⟩
    · cases h
  · cases h

theorem read_loop_effect {R : Type} [Double R] (o : options R) (k : kernels R)
    (var_data : List variant_t) (refseq : List Char) (refseq_length : Int)
    (has_indel : Bool) (altseq : List Char) (altseq_length : Int) (seti : Nat) :
    ∀ (read_data : List (read_t R)) (stat stat1 : stats_t R) (reads1 : List (read_t R)),
      read_loop o k var_data refseq refseq_length has_indel altseq altseq_length seti
        stat read_data = .ok (stat1, reads1) →
      stat1.combo = stat.combo ∧ reads1.length = read_data.length ∧
      stat.ref_count ≤ stat1.ref_count ∧ stat.alt_count ≤ stat1.alt_count ∧
      (stat1.ref_count - stat.ref_count) + (stat1.alt_count - stat.alt_count)
        ≤ stat1.seen - stat.seen ∧
      stat1.seen - stat.seen ≤ read_data.length ∧
      stat1.read_prgv.length = stat.read_prgv.length + read_data.length ∧
      ∀ first last, combo_first var_data stat.combo = some first →
        combo_last var_data stat.combo = some last →
        stat1.seen = stat.seen
          + ((read_data.filter (fun r => !not_spanning r first last)).length : Int) ∧
        stat1.read_prgv = stat.read_prgv ++ read_data.map (read_entry o k stat.combo var_data
          refseq refseq_length has_indel altseq altseq_length first last) := by
  intro read_data
  induction read_data with
  | nil =>
    intro stat stat1 reads1 h
    simp only [read_loop, Except.ok.injEq, Prod.mk.injEq] at h
    obtain ⟨h1, h2⟩ := h
    subst h1 h2
    simp
  | cons r rest ih =>
    intro stat stat1 reads1 h
    rw [read_loop] at h
    split at h
    · cases h
    · rename_i st1 r1 hstep
      split at h
      · cases h
      · rename_i st2 rest1 hrest
        cases h
        obtain ⟨f0, l0, hf0, hl0, hc, hp, hcase⟩ := read_step_effect _ _ _ _ _ _ _ _ _ _ _ _ _
          hstep
        obtain ⟨ic, il, irc, iac, isum, iseen, ilen, irest⟩ := ih st1 stat1 rest1 hrest
        have hp1 : st1.read_prgv.length = stat.read_prgv.length + 1 := by
          rw [hp]; simp
        refine ⟨by rw [ic, hc], by simp [il], ?_, ?_, ?_, ?_, ?_, ?_⟩
        · rcases hcase with ⟨_, _, h2, _⟩ | ⟨_, _, h2 | h2 | h2⟩ <;> omega
        · rcases hcase with ⟨_, _, _, h2⟩ | ⟨_, _, h2 | h2 | h2⟩ <;> omega
        · rcases hcase with ⟨_, h1, h2, h3⟩ | ⟨_, h1, h2 | h2 | h2⟩ <;> omega
        · simp only [List.length_cons, Nat.cast_add, Nat.cast_one]
          rcases hcase with ⟨_, h1, _⟩ | ⟨_, h1, _⟩ <;> omega
        · simp only [List.length_cons]
          omega
        · intro first last hf hl
          rw [hf0] at hf
          rw [hl0] at hl
          cases hf
          cases hl
          obtain ⟨i1, i2⟩ := irest f0 l0 (by rw [hc]; exact hf0) (by rw [hc]; exact hl0)
          constructor
          · rw [i1]
            rcases hcase with ⟨hn, h1, _⟩ | ⟨hn, h1, _⟩
            · simp [List.filter_cons, hn, h1]
            · simp [List.filter_cons, hn, h1]
              omega
          · rw [i2, hp, hc]
            simp

theorem has_indel_loop_ok (var_data : List variant_t) :
    ∀ (combo : List Nat), (∀ ci ∈ combo, ci < var_data.length) →
      ∃ b, has_indel_loop var_data combo = .ok b := by
  intro combo
  induction combo with
  | nil => intro _; exact ⟨false, rfl⟩
  | cons ci rest ih =>
    intro h
    have hci : ci < var_data.length := h ci (List.mem_cons_self _ _)
    obtain ⟨b, hb⟩ := ih (fun c hc => h c (List.mem_cons_of_mem _ hc))
    simp only [has_indel_loop, List.getElem?_eq_getElem hci]
    by_cases hi : is_indel var_data[ci] = true
    · exact ⟨true, by simp [hi]⟩
    · exact ⟨b, by simp [hi, hb]⟩

theorem combo_ends_ok (var_data : List variant_t) (combo : List Nat)
    (hne : combo ≠ []) (hidx : ∀ ci ∈ combo, ci < var_data.length) :
    ∃ c0 c1 first last, combo.head? = some c0 ∧ combo.getLast? = some c1 ∧
      var_data[c0]? = some first ∧ var_data[c1]? = some last := by
  have h0 : combo.head? = some (combo.head hne) := List.head?_eq_head hne
  have h1 : combo.getLast? = some (combo.getLast hne) := List.getLast?_eq_getLast _ hne
  have b0 := hidx _ (List.head_mem hne)
  have b1 := hidx _ (List.getLast_mem hne)
  exact ⟨_, _, _, _, h0, h1, List.getElem?_eq_getElem b0, List.getElem?_eq_getElem b1⟩

theorem read_loop_ok {R : Type} [Double R] (o : options R) (k : kernels R)
    (var_data : List variant_t) (refseq : List Char) (refseq_length : Int)
    (has_indel : Bool) (altseq : List Char) (altseq_length : Int) (seti : Nat) :
    ∀ (read_data : List (read_t R)) (stat : stats_t R), stat.combo ≠ [] →
      (∀ ci ∈ stat.combo, ci < var_data.length) →
      ∃ r, read_loop o k var_data refseq refseq_length has_indel altseq altseq_length seti
        stat read_data = .ok r := by
  intro read_data
  induction read_data with
  | nil => intro stat _ _; exact ⟨_, rfl⟩
  | cons r rest ih =>
    intro stat hne hidx
    obtain ⟨c0, c1, first, last, h0, h1, hf, hl⟩ := combo_ends_ok var_data stat.combo hne hidx
    have hstep : ∃ s, read_step o k var_data refseq refseq_length has_indel altseq
        altseq_length seti stat r = .ok s := by
      simp only [read_step, h0, h1, hf, hl]
      split
      · exact ⟨_, rfl⟩
      · exact ⟨_, rfl⟩
    obtain ⟨⟨st1, r1⟩, hs⟩ := hstep
    have hc : st1.combo = stat.combo :=
      (read_step_combo _ _ _ _ _ _ _ _ _ _ _ _ _ hs).1
    obtain ⟨⟨st2, rest1⟩, hr⟩ := ih st1 (by rw [hc]; exact hne) (by rw [hc]; exact hidx)
    exact ⟨(st2, r1 :: rest1), by simp only [read_loop, hs, hr]⟩

/-- C11. Count bounds of `calc_likelihood`. Whenever the call returns, on any
statistics record, combination and list of reads: `0 ≤ ref_count`, `0 ≤ alt_count`,
`ref_count + alt_count ≤ seen ≤ nreads`; `read_prgv` is the `read_prgv` of before
(empty after `stats_create`) followed by exactly one entry per read, in the order of
the reads (the entry of a read being `-DBL_MAX` when it does not cross the variants and
its score otherwise); and `seen` is the number of reads that cross the variants. In
the loop body a read that crosses the variants adds one to `seen` and one to at most
one of `ref_count` and `alt_count`; any other read leaves the three counts as they
are. The call does return when the combination is not empty, its entries are indices
of `var_data`, and `construct_altseq` (called for an indel or under `dp`) succeeds. -/
theorem calc_likelihood_count_bounds {R : Type} [Double R] (o : options R) (k : kernels R)
    (stat : stats_t R) (var_data : List variant_t) (refseq : List Char)
    (refseq_length : Int) (read_data : List (read_t R)) (seti : Nat) :
    (∀ (stat1 : stats_t R) (reads1 : List (read_t R)),
      calc_likelihood o k stat var_data refseq refseq_length read_data seti
        = .ok (stat1, reads1) →
      0 ≤ stat1.ref_count ∧ 0 ≤ stat1.alt_count ∧
      stat1.ref_count + stat1.alt_count ≤ stat1.seen ∧
      stat1.seen ≤ read_data.length ∧
      stat1.read_prgv.length = stat.read_prgv.length + read_data.length ∧
      ∃ has_indel altseq altseq_length,
        (if o.lowmem then .ok false else has_indel_loop var_data stat.combo)
          = .ok has_indel ∧
        (if has_indel ∨ o.dp then construct_altseq refseq refseq_length stat.combo var_data
          else .ok ([], 0)) = .ok (altseq, altseq_length) ∧
        ∀ first last, combo_first var_data stat.combo = some first →
          combo_last var_data stat.combo = some last →
          stat1.seen = ((read_data.filter (fun r => !not_spanning r first last)).length : Int) ∧
          stat1.read_prgv = stat.read_prgv ++ read_data.map (read_entry o k stat.combo
            var_data refseq refseq_length has_indel altseq altseq_length first last)) ∧
    (∀ (has_indel : Bool) (altseq : List Char) (altseq_length : Int) (st st1 : stats_t R)
        (read read1 : read_t R),
      read_step o k var_data refseq refseq_length has_indel altseq altseq_length seti
        st read = .ok (st1, read1) →
      ∃ first last, combo_first var_data st.combo = some first ∧
        combo_last var_data st.combo = some last ∧
        ((not_spanning read first last = true ∧ st1.seen = st.seen ∧
            st1.ref_count = st.ref_count ∧ st1.alt_count = st.alt_count) ∨
         (not_spanning read first last = false ∧ st1.seen = st.seen + 1 ∧
            ((st1.ref_count = st.ref_count ∧ st1.alt_count = st.alt_count) ∨
             (st1.ref_count = st.ref_count + 1 ∧ st1.alt_count = st.alt_count) ∨
             (st1.ref_count = st.ref_count ∧ st1.alt_count = st.alt_count + 1))))) ∧
    (stat.combo ≠ [] → (∀ ci ∈ stat.combo, ci < var_data.length) →
      ((o.dp = true ∨ (o.lowmem = false ∧ has_indel_loop var_data stat.combo = .ok true)) →
        ∃ a, construct_altseq refseq refseq_length stat.combo var_data = .ok a) →
      ∃ r, calc_likelihood o k stat var_data refseq refseq_length read_data seti = .ok r) := by
  refine ⟨?_, ?_, ?_⟩
  · intro stat1 reads1 h
    unfold calc_likelihood at h
    simp only at h
    split at h
    · cases h
    · rename_i has_indel hind
      split at h
      · cases h
      · rename_i altseq altseq_length halt
        split at h
        · cases h
        · rename_i st2 rd2 hloop
          simp only [Except.ok.injEq, Prod.mk.injEq] at h
          obtain ⟨hs, _⟩ := h
          subst hs
          obtain ⟨_, _, irc, iac, isum, iseen, ilen, irest⟩ := read_loop_effect o k var_data
            refseq refseq_length has_indel altseq altseq_length seti read_data
            (reset_stats stat) st2 rd2 hloop
          simp only [reset_stats, sub_zero] at irc iac isum iseen ilen irest
          refine ⟨irc, iac, isum, iseen, ilen, has_indel, altseq, altseq_length, hind, halt, ?_⟩
          intro first last hf hl
          obtain ⟨h1, h2⟩ := irest first last hf hl
          exact ⟨by rw [h1]; simp, h2⟩
  · intro has_indel altseq altseq_length st st1 read read1 h
    obtain ⟨first, last, hf, hl, _, _, hcase⟩ := read_step_effect _ _ _ _ _ _ _ _ _ _ _ _ _ h
    exact ⟨first, last, hf, hl, hcase⟩
  · intro hne hidx hcons
    unfold calc_likelihood
    simp only
    have hind : ∃ b, (if o.lowmem then (.ok false : Except fault Bool)
        else has_indel_loop var_data (reset_stats stat).combo) = .ok b := by
      by_cases hl : o.lowmem = true
      · exact ⟨false, by simp [hl]⟩
      · obtain ⟨b, hb⟩ := has_indel_loop_ok var_data stat.combo hidx
        exact ⟨b, by simp [hl, reset_stats, hb]⟩
    obtain ⟨has_indel, hi⟩ := hind
    rw [hi]
    simp only
    have halt : ∃ a, (if has_indel ∨ o.dp then
        construct_altseq refseq refseq_length (reset_stats stat).combo var_data
        else .ok ([], 0)) = .ok a := by
      by_cases hc : has_indel = true ∨ o.dp = true
      · rw [if_pos hc]
        apply hcons
        rcases hc with hc | hc
        · right
          by_cases hl : o.lowmem = true
          · simp [hl] at hi
            rw [hi] at hc
            cases hc
          · simp only [Bool.not_eq_true] at hl
            simp only [hl, reset_stats] at hi
            exact ⟨hl, by rw [← hc]; simpa using hi⟩
        · exact Or.inl hc
      · rw [if_neg hc]
        exact ⟨_, rfl⟩
    obtain ⟨⟨altseq, altseq_length⟩, ha⟩ := halt
    rw [ha]
    simp only
    obtain ⟨⟨st2, rd2⟩, hr⟩ := read_loop_ok o k var_data refseq refseq_length has_indel altseq
      altseq_length seti read_data (reset_stats stat) hne hidx
    rw [hr]
    exact ⟨_, rfl⟩

/-! ## The counting rule of `calc_likelihood` in exact arithmetic -/
theorem log_shift (a b m : ℝ) :
    Real.log (Real.exp (a - m) + Real.exp (b - m)) + m = Real.log (Real.exp a + Real.exp b) := by
  have h : Real.exp (a - m) + Real.exp (b - m) = (Real.exp a + Real.exp b) / Real.exp m := by
    rw [Real.exp_sub, Real.exp_sub]; ring
  have hp : (0 : ℝ) < Real.exp a + Real.exp b := by positivity
  rw [h, Real.log_div hp.ne' (Real.exp_pos m).ne', Real.log_exp]
  ring

theorem log_add_exp_real (a b : ℝ) :
    log_add_exp a b = Real.log (Real.exp a + Real.exp b) := by
  unfold log_add_exp
  exact log_shift a b _

theorem double_log_real (x : ℝ) : Double.log x = Real.log x := rfl

theorem double_exp_real (x : ℝ) : Double.exp x = Real.exp x := rfl

theorem double_of_int_real (i : Int) : (Double.of_int i : ℝ) = (i : ℝ) := rfl

theorem alt_hit_real (pout prgu prgv : ℝ) :
    alt_hit pout prgu prgv = true ↔ prgv - prgu > 0.69 ∧ prgv - pout > 0.69 := by
  simp only [alt_hit, decide_eq_true_eq]
  constructor
  · rintro ⟨_, h2, h3⟩
    exact ⟨h2, h3⟩
  · rintro ⟨h2, h3⟩
    refine ⟨?_, h2, h3⟩
    have : (0 : ℝ) < 0.69 := by norm_num
    linarith

theorem ref_hit_real (pout prgu prgv : ℝ) :
    ref_hit pout prgu prgv = true ↔ prgu - prgv > 0.69 ∧ prgu - pout > 0.69 := by
  simp only [ref_hit, decide_eq_true_eq]
  constructor
  · rintro ⟨_, h2, h3⟩
    exact ⟨h2, h3⟩
  · rintro ⟨h2, h3⟩
    refine ⟨?_, h2, h3⟩
    have : (0 : ℝ) < 0.69 := by norm_num
    linarith

theorem flat_mixture (o : options ℝ) (e u v : ℝ) (combo : List Nat)
    (var_data : List variant_t) (refseq : List Char) (refseq_length : Int)
    (altseq : List Char) (altseq_length : Int) (pos : Int) (hdp : o.dp = false) :
    mixture_scores o (flat_kernels e u v) combo var_data refseq refseq_length false altseq
      altseq_length (plain_read pos)
      = (Real.log 2 + e + o.lgomega,
         Real.log (Real.exp (Real.log 2 + e + o.lgomega) + Real.exp u),
         Real.log (Real.exp (Real.log 2 + e + o.lgomega) + Real.exp v)) := by
  have h2 : Real.log (Real.exp e + Real.exp e) = Real.log 2 + e := by
    rw [← two_mul, Real.log_mul (by norm_num) (Real.exp_pos e).ne', Real.log_exp]
  simp [mixture_scores, multimap_scores, kernel_scores, flat_kernels, plain_read,
    elsewhere_score, log_add_exp_real, double_log_real, double_of_int_real, hdp, h2]


theorem calc_likelihood_of_loop {R : Type} [Double R] (o : options R) (k : kernels R)
    (stat : stats_t R) (var_data : List variant_t) (refseq : List Char)
    (refseq_length : Int) (read_data : List (read_t R)) (seti : Nat)
    (has_indel : Bool) (altseq : List Char) (altseq_length : Int)
    (st2 : stats_t R) (rd2 : List (read_t R))
    (hi : (if o.lowmem then .ok false else has_indel_loop var_data stat.combo)
      = .ok has_indel)
    (ha : (if has_indel ∨ o.dp then construct_altseq refseq refseq_length stat.combo var_data
      else .ok ([], 0)) = .ok (altseq, altseq_length))
    (hloop : read_loop o k var_data refseq refseq_length has_indel altseq altseq_length seti
      (reset_stats stat) read_data = .ok (st2, rd2)) :
    calc_likelihood o k stat var_data refseq refseq_length read_data seti
      = .ok ({ st2 with «mut» := log_add_exp st2.alt st2.het }, rd2) := by
  unfold calc_likelihood
  simp only [show (reset_stats stat).combo = stat.combo from rfl, hi, ha, hloop]

theorem read_step_spanning {R : Type} [Double R] (o : options R) (k : kernels R)
    (var_data : List variant_t) (refseq : List Char) (refseq_length : Int)
    (has_indel : Bool) (altseq : List Char) (altseq_length : Int) (seti : Nat)
    (stat : stats_t R) (read : read_t R) (first last : variant_t)
    (hfirst : combo_first var_data stat.combo = some first)
    (hlast : combo_last var_data stat.combo = some last)
    (hs : not_spanning read first last = false) :
    read_step o k var_data refseq refseq_length has_indel altseq altseq_length seti stat read
      = .ok (score_read o k stat var_data refseq refseq_length has_indel altseq
          altseq_length seti read) := by
  unfold combo_first at hfirst
  unfold combo_last at hlast
  cases h0 : stat.combo.head? with
  | none => rw [h0] at hfirst; simp at hfirst
  | some c0 =>
    cases h1 : stat.combo.getLast? with
    | none => rw [h1] at hlast; simp at hlast
    | some c1 =>
      rw [h0] at hfirst; rw [h1] at hlast
      simp only [Option.some_bind] at hfirst hlast
      simp [read_step, h0, h1, hfirst, hlast, hs]

theorem main_pout_bound (M : ℝ) :
    Real.log 2 + (-20) + (main_options M).lgomega < -18 := by
  have h1 : Real.log (1.0e-5 : ℝ) < 0 := Real.log_neg (by norm_num) (by norm_num)
  have h2 : Real.log (1 / 2 : ℝ) ≤ Real.log ((1.0 : ℝ) - 1.0e-5) :=
    Real.log_le_log (by norm_num) (by norm_num)
  have h3 : Real.log (1 / 2 : ℝ) = - Real.log 2 := by
    rw [one_div, Real.log_inv]
  have h4 := Real.log_two_lt_d9
  simp only [main_options, double_log_real]
  linarith

theorem read_loop_single {R : Type} [Double R] (o : options R) (k : kernels R)
    (var_data : List variant_t) (refseq : List Char) (refseq_length : Int)
    (has_indel : Bool) (altseq : List Char) (altseq_length : Int) (seti : Nat)
    (stat : stats_t R) (read : read_t R) (p : stats_t R × read_t R)
    (h : read_step o k var_data refseq refseq_length has_indel altseq altseq_length seti
      stat read = .ok p) :
    read_loop o k var_data refseq refseq_length has_indel altseq altseq_length seti
      stat [read] = .ok (p.1, [p.2]) := by
  obtain ⟨s1, r1⟩ := p
  simp only [read_loop, h]

theorem main_priors (M : ℝ) :
    (main_options M : options ℝ).ref_prior = - Real.log 2 ∧
    (main_options M : options ℝ).alt_prior = - Real.log 2 - Real.log 2 := by
  have h3 : Real.log (0.5 : ℝ) = - Real.log 2 := by
    rw [show (0.5 : ℝ) = 2⁻¹ by norm_num, Real.log_inv]
  have h4 : Real.log ((0.5 : ℝ) * (1 - 0.5)) = - Real.log 2 - Real.log 2 := by
    rw [show (1 : ℝ) - 0.5 = 0.5 by norm_num, Real.log_mul (by norm_num) (by norm_num), h3]
    ring
  constructor
  · simp only [main_options, double_log_real]
    exact h3
  · simp only [main_options, double_log_real, double_of_int_real, Int.cast_one]
    exact h4

theorem equal_scores_hits (P L : ℝ) (hP : P < -18) (hL : 0 ≤ L) :
    alt_hit P (L + -Real.log 2) (L + (-Real.log 2 - Real.log 2)) = false ∧
    ref_hit P (L + -Real.log 2) (L + (-Real.log 2 - Real.log 2)) = true := by
  have h2 := Real.log_two_gt_d9
  have h2' := Real.log_two_lt_d9
  constructor
  · rw [← Bool.not_eq_true, alt_hit_real]
    rintro ⟨h, _⟩
    norm_num at h
    linarith
  · rw [ref_hit_real]
    constructor
    · norm_num
      linarith
    · norm_num
      linarith

/-- C12 (counterexample). With the option values of `main`, a read that crosses the
variant and has the same likelihood under the reference and under the alternative
sequence (`prgu = prgv` after the mixture with `pout`, so `|prgv - prgu| = 0 < ln 2`)
is counted by `calc_likelihood`: `ref_count` becomes 1. The test compares `prgu` and
`prgv` after their priors were added, and `ref_prior - alt_prior = ln 2 > 0.69`. The
threshold of the test is the literal `0.69`: a difference of `0.692 < ln 2` passes. -/
theorem calc_likelihood_counts_equal_scores :
    ∃ st1 rs, calc_likelihood (main_options (1 / Real.log 10)) (flat_kernels (-20) 0 0)
        (stats_create [0]) [⟨"chr1".toList, 3, "G".toList, "A".toList⟩] "ACGTACGTAC".toList 10
        [plain_read 0] 0 = .ok (st1, rs) ∧
      st1.seen = 1 ∧ st1.ref_count = 1 ∧ st1.alt_count = 0 ∧
      (mixture_scores (main_options (1 / Real.log 10)) (flat_kernels (-20) 0 0) [0]
        [⟨"chr1".toList, 3, "G".toList, "A".toList⟩] "ACGTACGTAC".toList 10 false [] 0
        (plain_read 0)).2.1
      = (mixture_scores (main_options (1 / Real.log 10)) (flat_kernels (-20) 0 0) [0]
        [⟨"chr1".toList, 3, "G".toList, "A".toList⟩] "ACGTACGTAC".toList 10 false [] 0
        (plain_read 0)).2.2 ∧
      alt_hit (-10 : ℝ) 0 0.692 = true ∧ ¬ ((0.692 : ℝ) - 0 > Real.log 2) := by
  have hstep := read_step_spanning (main_options (1 / Real.log 10)) (flat_kernels (-20) 0 0)
      [⟨"chr1".toList, 3, "G".toList, "A".toList⟩] "ACGTACGTAC".toList 10 false [] 0 0
      (reset_stats (stats_create [0])) (plain_read 0) _ _ rfl rfl (by decide)
  refine ⟨_, _, calc_likelihood_of_loop _ _ _ _ _ _ _ _ false [] 0 _ _ (by decide)
    (by simp [main_options]) (read_loop_single _ _ _ _ _ _ _ _ _ _ _ _ hstep), ?_⟩
  have hP := main_pout_bound (1 / Real.log 10)
  obtain ⟨hr, ha⟩ := main_priors (1 / Real.log 10)
  have hL : 0 ≤ Real.log (Real.exp (Real.log 2 + (-20)
      + (main_options (1 / Real.log 10) : options ℝ).lgomega) + Real.exp 0) := by
    apply Real.log_nonneg
    rw [Real.exp_zero]
    have := Real.exp_pos (Real.log 2 + (-20)
      + (main_options (1 / Real.log 10) : options ℝ).lgomega)
    linarith
  obtain ⟨hno, hyes⟩ := equal_scores_hits _ _ hP hL
  simp only [score_read_eq, flat_mixture _ _ _ _ _ _ _ _ _ _ _
    (show (main_options (1 / Real.log 10) : options ℝ).dp = false from rfl), hr, ha, hno, hyes]
  have h2 := Real.log_two_gt_d9
  refine ⟨by simp [reset_stats, stats_create], by simp [reset_stats, stats_create],
    by simp [reset_stats, stats_create], trivial, ?_, ?_⟩
  · rw [alt_hit_real]
    constructor <;> norm_num
  · norm_num
    linarith

/-- C12 (amended). The counting rule of `calc_likelihood`, in exact arithmetic. For a
read that crosses the variants of the combination the loop body returns, and with
`pout` (after `lgomega` was added), `prgu` and `prgv` (after the mixture with `pout`):
`alt_count` is incremented if and only if
`(prgv + alt_prior) - (prgu + ref_prior) > 0.69` and `(prgv + alt_prior) - pout > 0.69`;
`ref_count` is incremented if and only if
`(prgu + ref_prior) - (prgv + alt_prior) > 0.69` and `(prgu + ref_prior) - pout > 0.69`;
a count that is not incremented is unchanged, never both are incremented, and when
the two values with their priors differ by at most `0.69` no count changes. -/
theorem read_counting_rule (o : options ℝ) (k : kernels ℝ)
    (var_data : List variant_t) (refseq : List Char) (refseq_length : Int)
    (has_indel : Bool) (altseq : List Char) (altseq_length : Int) (seti : Nat)
    (st : stats_t ℝ) (read : read_t ℝ) (first last : variant_t)
    (hfirst : combo_first var_data st.combo = some first)
    (hlast : combo_last var_data st.combo = some last)
    (hs : not_spanning read first last = false) :
    ∃ st1 read1 pout prgu prgv,
      read_step o k var_data refseq refseq_length has_indel altseq altseq_length seti st read
        = .ok (st1, read1) ∧
      pout = (mixture_scores o k st.combo var_data refseq refseq_length has_indel altseq
        altseq_length read).1 ∧
      prgu = (mixture_scores o k st.combo var_data refseq refseq_length has_indel altseq
        altseq_length read).2.1 ∧
      prgv = (mixture_scores o k st.combo var_data refseq refseq_length has_indel altseq
        altseq_length read).2.2 ∧
      (st1.alt_count = st.alt_count + 1 ↔
        (prgv + o.alt_prior) - (prgu + o.ref_prior) > 0.69 ∧
          (prgv + o.alt_prior) - pout > 0.69) ∧
      (st1.ref_count = st.ref_count + 1 ↔
        (prgu + o.ref_prior) - (prgv + o.alt_prior) > 0.69 ∧
          (prgu + o.ref_prior) - pout > 0.69) ∧
      (st1.alt_count = st.alt_count ∨ st1.alt_count = st.alt_count + 1) ∧
      (st1.ref_count = st.ref_count ∨ st1.ref_count = st.ref_count + 1) ∧
      ¬ (st1.alt_count = st.alt_count + 1 ∧ st1.ref_count = st.ref_count + 1) ∧
      (|(prgv + o.alt_prior) - (prgu + o.ref_prior)| ≤ 0.69 →
        st1.alt_count = st.alt_count ∧ st1.ref_count = st.ref_count) := by
  refine ⟨(score_read o k st var_data refseq refseq_length has_indel altseq altseq_length
      seti read).1,
    (score_read o k st var_data refseq refseq_length has_indel altseq altseq_length
      seti read).2, _, _, _,
    read_step_spanning o k var_data refseq refseq_length has_indel altseq
      altseq_length seti st read first last hfirst hlast hs, rfl, rfl, rfl, ?_⟩
  rw [score_read_eq]
  simp only
  generalize (mixture_scores o k st.combo var_data refseq refseq_length has_indel altseq
    altseq_length read).1 = pout
  generalize (mixture_scores o k st.combo var_data refseq refseq_length has_indel altseq
    altseq_length read).2.1 + o.ref_prior = u
  generalize (mixture_scores o k st.combo var_data refseq refseq_length has_indel altseq
    altseq_length read).2.2 + o.alt_prior = v
  have hpos : (0 : ℝ) < 0.69 := by norm_num
  have hone : ∀ n : Int, n ≠ n + 1 := fun n => by omega
  by_cases ha : alt_hit pout u v = true
  · have ha' := (alt_hit_real pout u v).1 ha
    have hr : ¬ (u - v > 0.69 ∧ u - pout > 0.69) := by
      rintro ⟨h, _⟩
      linarith [ha'.1]
    rw [if_pos ha, if_pos ha]
    refine ⟨iff_of_true rfl ha', iff_of_false (hone _) hr, Or.inr rfl, Or.inl rfl,
      fun h => hone _ h.2, ?_⟩
    intro habs
    have := (abs_le.1 habs).2
    linarith [ha'.1]
  · have ha' : ¬ (v - u > 0.69 ∧ v - pout > 0.69) := fun h => ha ((alt_hit_real pout u v).2 h)
    rw [if_neg ha, if_neg ha]
    by_cases hr : ref_hit pout u v = true
    · have hr' := (ref_hit_real pout u v).1 hr
      rw [if_pos hr]
      refine ⟨iff_of_false (hone _) ha', iff_of_true rfl hr', Or.inl rfl, Or.inr rfl,
        fun h => hone _ h.1, ?_⟩
      intro habs
      have := (abs_le.1 habs).1
      linarith [hr'.1]
    · have hr' : ¬ (u - v > 0.69 ∧ u - pout > 0.69) :=
        fun h => hr ((ref_hit_real pout u v).2 h)
      rw [if_neg hr]
      exact ⟨iff_of_false (hone _) ha', iff_of_false (hone _) hr', Or.inl rfl, Or.inl rfl,
        fun h => hone _ h.1, fun _ => ⟨rfl, rfl⟩⟩

/-- Instance of C12 (amended): the read of 4 bases at position 0 crosses the variant at
position 3, and the loop body returns with the counts given by the rule. -/
theorem read_counting_rule_witness :
    not_spanning (plain_read 0 : read_t ℝ) ⟨"chr1".toList, 3, "G".toList, "A".toList⟩
        ⟨"chr1".toList, 3, "G".toList, "A".toList⟩ = false ∧
    ∃ st1 read1, read_step (main_options (1 / Real.log 10)) (flat_kernels (-20) 0 0)
        [⟨"chr1".toList, 3, "G".toList, "A".toList⟩] "ACGTACGTAC".toList 10 false [] 0 0
        (stats_create [0]) (plain_read 0) = .ok (st1, read1) ∧
      (st1.alt_count = 0 ∨ st1.alt_count = 0 + 1) ∧
      (st1.ref_count = 0 ∨ st1.ref_count = 0 + 1) :=
  ⟨by decide,
   match read_counting_rule (main_options (1 / Real.log 10)) (flat_kernels (-20) 0 0)
      [⟨"chr1".toList, 3, "G".toList, "A".toList⟩] "ACGTACGTAC".toList 10 false [] 0 0
      (stats_create [0]) (plain_read 0) ⟨"chr1".toList, 3, "G".toList, "A".toList⟩
      ⟨"chr1".toList, 3, "G".toList, "A".toList⟩ rfl rfl (by decide) with
   | ⟨st1, read1, _, _, _, h, _, _, _, _, _, ha, hr, _⟩ => ⟨st1, read1, h, ha, hr⟩⟩

/-! ## `log_add_exp` and `init_q2p_table` in exact arithmetic -/

/-- C17. `log_add_exp` is symmetric: for all real `a` and `b`,
`log_add_exp(a, b) = log_add_exp(b, a)`, and both are `ln(e^a + e^b)`. -/
theorem log_add_exp_symmetric (a b : ℝ) :
    log_add_exp a b = log_add_exp b a ∧
    log_add_exp a b = Real.log (Real.exp a + Real.exp b) ∧
    log_add_exp b a = Real.log (Real.exp a + Real.exp b) := by
  refine ⟨?_, log_add_exp_real a b, ?_⟩
  · rw [log_add_exp_real, log_add_exp_real, add_comm]
  · rw [log_add_exp_real, add_comm]

theorem q2p_a_real (q : Nat) :
    (q2p_a (Real.logb 10 (Real.exp 1)) q : ℝ)
      = if q = 0 then -0.01 else -(q : ℝ) * Real.log 10 / 10 := by
  have h10 : Real.log 10 ≠ 0 := by
    have : (0 : ℝ) < Real.log 10 := Real.log_pos (by norm_num)
    exact this.ne'
  have hM : (1.0 : ℝ) / Real.logb 10 (Real.exp 1) = Real.log 10 := by
    rw [Real.logb, Real.log_exp]
    norm_num
  unfold q2p_a
  split
  · rfl
  · rw [hM, double_of_int_real, double_of_int_real]
    push_cast
    ring

theorem q2p_a_neg (q : Nat) : (q2p_a (Real.logb 10 (Real.exp 1)) q : ℝ) < 0 := by
  rw [q2p_a_real]
  split
  · norm_num
  · rename_i hq
    have h10 : (0 : ℝ) < Real.log 10 := Real.log_pos (by norm_num)
    have hq' : (0 : ℝ) < q := by
      exact_mod_cast Nat.pos_of_ne_zero hq
    have : 0 < (q : ℝ) * Real.log 10 / 10 := by positivity
    linarith [this, show -(q : ℝ) * Real.log 10 / 10 = -((q : ℝ) * Real.log 10 / 10) by ring]

/-- C19. Quality table consistency, in exact arithmetic and with `M_LOG10E = log10(e)`:
for every `q < size` (so for every `q` in `0..49` of the tables of 50 entries built by
`main`) the tables of `init_q2p_table` hold `p_match[q] = ln(1 - exp(a))` and
`p_mismatch[q] = a - ln 3`, where `a = -q * ln(10) / 10` for `q ≥ 1` and `a = -0.01`
for `q = 0`; hence `exp(p_match[q]) + 3 * exp(p_mismatch[q]) = 1`. -/
theorem init_q2p_table_consistent (size q : Nat) (hq : q < size) :
    ∃ (a pm pmm : ℝ), a = (if q = 0 then -0.01 else -(q : ℝ) * Real.log 10 / 10) ∧
      (init_q2p_table (Real.logb 10 (Real.exp 1)) size).1[q]? = some pm ∧
      (init_q2p_table (Real.logb 10 (Real.exp 1)) size).2[q]? = some pmm ∧
      pm = Real.log (1 - Real.exp a) ∧ pmm = a - Real.log 3 ∧
      Real.exp pm + 3 * Real.exp pmm = 1 := by
  have ha := q2p_a_real q
  have hneg := q2p_a_neg q
  rw [ha] at hneg
  refine ⟨_, _, _, rfl, ?_, ?_, rfl, rfl, ?_⟩
  · simp only [init_q2p_table, List.getElem?_map, List.getElem?_range hq, Option.map_some',
      double_log_real, double_exp_real, double_of_int_real, ha, Int.cast_one]
  · simp only [init_q2p_table, List.getElem?_map, List.getElem?_range hq, Option.map_some',
      double_log_real, ha]
    norm_num
  · have hlt : Real.exp (if q = 0 then -0.01 else -(q : ℝ) * Real.log 10 / 10) < 1 := by
      rw [Real.exp_lt_one_iff]
      exact hneg
    rw [Real.exp_log (by linarith), Real.exp_sub, Real.exp_log (by norm_num : (0 : ℝ) < 3)]
    ring

/-- Instance of C19 at quality 30 in the tables of 50 entries. -/
theorem init_q2p_table_consistent_witness :
    30 < 50 ∧
    ∃ (a pm pmm : ℝ), a = (if 30 = 0 then -0.01 else -((30 : Nat) : ℝ) * Real.log 10 / 10) ∧
      (init_q2p_table (Real.logb 10 (Real.exp 1)) 50).1[30]? = some pm ∧
      (init_q2p_table (Real.logb 10 (Real.exp 1)) 50).2[30]? = some pmm ∧
      pm = Real.log (1 - Real.exp a) ∧ pmm = a - Real.log 3 ∧
      Real.exp pm + 3 * Real.exp pmm = 1 :=
  ⟨by decide, init_q2p_table_consistent 50 30 (by decide)⟩

/-! ## `has_numbers` and the check of the fields of a VCF row -/

theorem has_numbers_one (s : List Char) :
    has_numbers isdigit_one s = 1 ↔ ∃ c ∈ s, c.isDigit = true := by
  induction s with
  | nil => simp [has_numbers]
  | cons c rest ih =>
    by_cases hc : c.isDigit = true
    · simp [has_numbers, isdigit_one, hc]
    · simp [has_numbers, isdigit_one, hc, ih]

theorem has_numbers_mask (s : List Char) : has_numbers isdigit_mask s = 0 := by
  induction s with
  | nil => rfl
  | cons c rest ih =>
    by_cases hc : c.isDigit = true
    · simp [has_numbers, isdigit_mask, hc, ih]
    · simp [has_numbers, isdigit_mask, hc, ih]

/-- C20. The test of `has_numbers` is `isdigit(c) == 1`. With an `isdigit` that returns
1 for a digit, `has_numbers(s)` is 1 exactly when `s` contains a decimal digit. With an
`isdigit` that returns another non-zero value for a digit (as ctype.h allows: here
2048, non-zero exactly on the digits), `has_numbers` returns 0 for every string: the
row with `ref = "A1"` passes the check of `vcf_read` and the variant with the allele
`A1` is created. -/
theorem has_numbers_misses_digits :
    (∀ s, has_numbers isdigit_one s = 1 ↔ ∃ c ∈ s, c.isDigit = true) ∧
    (∀ c, isdigit_mask c ≠ 0 ↔ c.isDigit = true) ∧
    (∀ s, has_numbers isdigit_mask s = 0) ∧
    has_numbers isdigit_mask "A1".toList = 0 ∧
    vcf_fields isdigit_one 4 "chr1".toList 5 "A1".toList "G".toList = none ∧
    vcf_fields isdigit_mask 4 "chr1".toList 5 "A1".toList "G".toList
      = some [⟨"chr1".toList, 5, "A1".toList, "G".toList⟩] := by
  refine ⟨has_numbers_one, ?_, has_numbers_mask, by decide, by decide, by decide⟩
  intro c
  by_cases hc : c.isDigit = true
  · simp [isdigit_mask, hc]
  · simp [isdigit_mask, hc]

/-! ## `variant_find` on ascending combinations -/

theorem variant_find_loop_spec {α : Type} [LinearOrder α] (a : List α) (v : α)
    (hs : ∀ (p q : Nat) (_ : p < q) (hq : q < a.length), a[p] < a[q]) :
    ∀ (fuel : Nat) (i j : Int), 0 ≤ i → j < a.length → i ≤ j + 1 → j - i + 1 < fuel →
      (∀ (m : Nat) (hm : m < a.length), (m : Int) < i → a[m] < v) →
      (∀ (m : Nat) (hm : m < a.length), j < (m : Int) → v < a[m]) →
      ∃ r, variant_find_loop a v fuel i j (Int.tdiv (i + j) 2) = some r ∧
        ((r = -1 ∧ v ∉ a) ∨ (0 ≤ r ∧ a[r.toNat]? = some v)) := by
  intro fuel
  induction fuel with
  | zero =>
    intro i j hi hj hb hf _ _
    omega
  | succ fuel ih =>
    intro i j hi hj hb hf hlo hhi
    unfold variant_find_loop
    by_cases hij : i ≤ j
    · have hn : Int.tdiv (i + j) 2 = (i + j) / 2 :=
        Int.tdiv_eq_ediv (by omega) (by omega)
      rw [hn, if_pos hij, if_neg (by omega)]
      have hnlt : ((i + j) / 2).toNat < a.length := by omega
      rw [List.getElem?_eq_getElem hnlt]
      simp only
      by_cases hv : v = a[((i + j) / 2).toNat]
      · rw [if_pos hv]
        exact ⟨_, rfl, Or.inr ⟨by omega, by rw [List.getElem?_eq_getElem hnlt, hv]⟩⟩
      · rw [if_neg hv]
        by_cases hgt : v > a[((i + j) / 2).toNat]
        · rw [if_pos hgt]
          apply ih ((i + j) / 2 + 1) j (by omega) hj (by omega) (by omega) _ hhi
          intro m hm hmi
          have hle : m ≤ ((i + j) / 2).toNat := by omega
          rcases Nat.lt_or_eq_of_le hle with h | h
          · exact lt_trans (hs m _ h hnlt) hgt
          · subst h
            exact hgt
        · rw [if_neg hgt]
          have hlt : v < a[((i + j) / 2).toNat] := lt_of_le_of_ne (not_lt.1 hgt) hv
          apply ih i ((i + j) / 2 - 1) hi (by omega) (by omega) (by omega) hlo
          intro m hm hmi
          have hle : ((i + j) / 2).toNat ≤ m := by omega
          rcases Nat.lt_or_eq_of_le hle with h | h
          · exact lt_trans hlt (hs _ m h hm)
          · subst h
            exact hlt
    · rw [if_neg hij]
      refine ⟨-1, rfl, Or.inl ⟨rfl, ?_⟩⟩
      intro hmem
      obtain ⟨m, hm, hme⟩ := List.getElem_of_mem hmem
      by_cases h1 : (m : Int) < i
      · have := hlo m hm h1
        rw [hme] at this
        exact lt_irrefl _ this
      · have := hhi m hm (by omega)
        rw [hme] at this
        exact lt_irrefl _ this

theorem variant_find_spec {α : Type} [LinearOrder α] (a : List α) (v : α)
    (hs : a.Pairwise (· < ·)) :
    ∃ r, variant_find a v = some r ∧
      ((r = -1 ∧ v ∉ a) ∨ (0 ≤ r ∧ a[r.toNat]? = some v)) := by
  have hs' : ∀ (p q : Nat) (_ : p < q) (hq : q < a.length), a[p] < a[q] := by
    intro p q hpq hq
    exact (List.pairwise_iff_getElem.1 hs) p q (by omega) hq hpq
  unfold variant_find
  exact variant_find_loop_spec a v hs' (a.length + 1) 0 ((a.length : Int) - 1) (by omega)
    (by omega) (by omega) (by push_cast; omega) (fun m _ h => by omega)
    (fun m hm h => by omega)

theorem variant_find_mem {α : Type} [LinearOrder α] (a : List α) (v : α)
    (hs : a.Pairwise (· < ·)) :
    ∃ r, variant_find a v = some r ∧ (r ≠ -1 ↔ v ∈ a) := by
  obtain ⟨r, hr, h⟩ := variant_find_spec a v hs
  refine ⟨r, hr, ?_⟩
  rcases h with ⟨h1, h2⟩ | ⟨h1, h2⟩
  · simp [h1, h2]
  · constructor
    · intro _
      exact List.getElem?_mem h2
    · intro _
      omega

/-! ## The marginal branch of `evaluate` -/

theorem marginal_stat_eq {R : Type} [Double R] [BEq R] (i : Nat) (m : marginal_t R)
    (s : stats_t R) (hs : s.combo.Pairwise (· < ·)) :
    marginal_stat i m s = .ok
      (if i ∈ s.combo then
        { has_alt := sentinel_add m.has_alt (s.«mut» - s.ref),
          not_alt := m.not_alt,
          seen := if s.seen > m.seen then s.seen else m.seen,
          acount := if s.alt_count > m.acount then s.alt_count else m.acount,
          rcount := if s.alt_count > m.acount then s.ref_count else m.rcount }
      else { m with not_alt := sentinel_add m.not_alt (s.«mut» - s.ref) }) := by
  obtain ⟨r, hr, hiff⟩ := variant_find_mem s.combo i hs
  unfold marginal_stat
  rw [hr]
  dsimp only
  by_cases hm : i ∈ s.combo
  · rw [if_pos (hiff.2 hm), if_pos hm]
    rfl
  · rw [if_neg (fun h => hm (hiff.1 h)), if_neg hm]
    rfl

theorem marginal_stats_eq {R : Type} [Double R] [BEq R] (i : Nat) :
    ∀ (stats : List (stats_t R)) (m : marginal_t R),
      (∀ s ∈ stats, s.combo.Pairwise (· < ·)) →
      ∃ m1, marginal_stats i stats m = .ok m1 ∧
        m1.has_alt = (combo_terms i true stats).foldl sentinel_add m.has_alt ∧
        m1.not_alt = (combo_terms i false stats).foldl sentinel_add m.not_alt := by
  intro stats
  induction stats with
  | nil =>
    intro m _
    exact ⟨m, rfl, rfl, rfl⟩
  | cons s rest ih =>
    intro m hs
    have h1 := marginal_stat_eq i m s (hs s (List.mem_cons_self _ _))
    rw [marginal_stats, h1]
    simp only
    by_cases hm : i ∈ s.combo
    · rw [if_pos hm]
      obtain ⟨m1, hrun, ha, hn⟩ := ih _ (fun t ht => hs t (List.mem_cons_of_mem _ ht))
      refine ⟨m1, hrun, ?_, ?_⟩
      · rw [ha]
        simp [combo_terms, List.filter_cons, hm]
      · rw [hn]
        simp [combo_terms, List.filter_cons, hm]
    · rw [if_neg hm]
      obtain ⟨m1, hrun, ha, hn⟩ := ih _ (fun t ht => hs t (List.mem_cons_of_mem _ ht))
      refine ⟨m1, hrun, ?_, ?_⟩
      · rw [ha]
        simp [combo_terms, List.filter_cons, hm]
      · rw [hn]
        simp [combo_terms, List.filter_cons, hm]

theorem pair_has_eq {R : Type} (stats : List (stats_t R)) (haplotypes : List Nat)
    (i : Nat) (pair : List Nat) (x y : Nat) (b : Bool)
    (hs : ∀ s ∈ stats, s.combo.Pairwise (· < ·))
    (hm : pair_members haplotypes pair = .ok (x, y))
    (h : pair_has stats i x y = .ok b) :
    b = pair_covers stats haplotypes i pair := by
  unfold pair_covers
  rw [hm]
  simp only
  unfold pair_has at h
  cases hx : stats[x]? with
  | none => rw [hx] at h; cases h
  | some sx =>
    rw [hx] at h
    simp only at h ⊢
    obtain ⟨rx, hrx, hix⟩ := variant_find_mem sx.combo i (hs sx (List.getElem?_mem hx))
    rw [hrx] at h
    simp only at h
    by_cases hmx : i ∈ sx.combo
    · rw [if_pos (hix.2 hmx)] at h
      cases h
      simp [hmx]
    · rw [if_neg (fun hh => hmx (hix.1 hh))] at h
      cases hy : stats[y]? with
      | none => rw [hy] at h; cases h
      | some sy =>
        rw [hy] at h
        simp only at h ⊢
        obtain ⟨ry, hry, hiy⟩ := variant_find_mem sy.combo i (hs sy (List.getElem?_mem hy))
        rw [hry] at h
        simp only [Except.ok.injEq] at h
        rw [← h]
        by_cases hmy : i ∈ sy.combo
        · simp [hmx, hmy, hiy.2 hmy]
        · have : ry = -1 := by
            by_contra hne
            exact hmy (hiy.1 hne)
          simp [hmx, hmy, this]

theorem marginal_pairs_eq {R : Type} [Double R] (i : Nat) (stats : List (stats_t R))
    (haplotypes : List Nat) (hs : ∀ s ∈ stats, s.combo.Pairwise (· < ·)) :
    ∀ (pairs : List (List Nat)) (prhap : List R) (m m1 : marginal_t R),
      marginal_pairs i stats haplotypes pairs prhap m = .ok m1 →
      m1.has_alt = (pair_terms stats haplotypes i true pairs prhap).foldl log_add_exp
        m.has_alt ∧
      m1.not_alt = (pair_terms stats haplotypes i false pairs prhap).foldl log_add_exp
        m.not_alt ∧
      m1.seen = m.seen ∧ m1.acount = m.acount ∧ m1.rcount = m.rcount := by
  intro pairs
  induction pairs with
  | nil =>
    intro prhap m m1 h
    simp only [marginal_pairs, Except.ok.injEq] at h
    subst h
    simp [pair_terms]
  | cons pair rest ih =>
    intro prhap m m1 h
    cases prhap with
    | nil => simp [marginal_pairs] at h
    | cons pr prs =>
      rw [marginal_pairs] at h
      split at h
      · cases h
      · rename_i x y hm
        split at h
        · cases h
        · rename_i hb
          have hc := pair_has_eq stats haplotypes i pair x y true hs hm hb
          obtain ⟨h1, h2, h3, h4, h5⟩ := ih prs _ m1 h
          refine ⟨?_, ?_, h3, h4, h5⟩
          · rw [h1]
            simp [pair_terms, List.filter_cons, ← hc]
          · rw [h2]
            simp [pair_terms, List.filter_cons, ← hc]
        · rename_i hb
          have hc := pair_has_eq stats haplotypes i pair x y false hs hm hb
          obtain ⟨h1, h2, h3, h4, h5⟩ := ih prs _ m1 h
          refine ⟨?_, ?_, h3, h4, h5⟩
          · rw [h1]
            simp [pair_terms, List.filter_cons, ← hc]
          · rw [h2]
            simp [pair_terms, List.filter_cons, ← hc]

theorem log_add_exp_foldl_real (l : List ℝ) :
    ∀ (h S : ℝ), 0 < S → h = Real.log S →
      l.foldl log_add_exp h = Real.log (S + (l.map Real.exp).sum) := by
  induction l with
  | nil =>
    intro h S _ hh
    simp [hh]
  | cons x rest ih =>
    intro h S hS hh
    have hx := Real.exp_pos x
    rw [List.foldl_cons, ih (log_add_exp h x) (S + Real.exp x) (by linarith)
      (by rw [log_add_exp_real, hh, Real.exp_log hS])]
    simp only [List.map_cons, List.sum_cons, add_assoc]

theorem sentinel_add_real (h x : ℝ) (hh : h ≠ 0) : sentinel_add h x = log_add_exp h x := by
  simp [sentinel_add, hh]

theorem sentinel_add_zero (x : ℝ) : sentinel_add 0 x = x := by
  simp [sentinel_add]

theorem sentinel_foldl_real (l : List ℝ) :
    ∀ (h S : ℝ), 0 < S → h = Real.log S →
      (∀ k, k < l.length → Real.log (S + ((l.take k).map Real.exp).sum) ≠ 0) →
      l.foldl sentinel_add h = Real.log (S + (l.map Real.exp).sum) := by
  induction l with
  | nil =>
    intro h S _ hh _
    simp [hh]
  | cons x rest ih =>
    intro h S hS hh hnz
    have hx := Real.exp_pos x
    have h0 : h ≠ 0 := by
      have := hnz 0 (by simp)
      simpa [hh] using this
    rw [List.foldl_cons, sentinel_add_real h x h0,
      ih (log_add_exp h x) (S + Real.exp x) (by linarith)
        (by rw [log_add_exp_real, hh, Real.exp_log hS])]
    · simp only [List.map_cons, List.sum_cons, add_assoc]
    · intro k hk
      have := hnz (k + 1) (by simpa using hk)
      simpa [add_assoc] using this

theorem sentinel_foldl_terms (l : List ℝ) (hne : l ≠ [])
    (hnz : ∀ k, 0 < k → k < l.length → Real.log (((l.take k).map Real.exp).sum) ≠ 0) :
    l.foldl sentinel_add 0 = Real.log ((l.map Real.exp).sum) := by
  cases l with
  | nil => exact absurd rfl hne
  | cons x rest =>
    rw [List.foldl_cons, sentinel_add_zero,
      sentinel_foldl_real rest x (Real.exp x) (Real.exp_pos x) (Real.log_exp x).symm]
    · simp
    · intro k hk
      have := hnz (k + 1) (by omega) (by simpa using hk)
      simpa using this

theorem marginal_ok {R : Type} [Double R] [BEq R] (i : Nat) (stats : List (stats_t R))
    (haplotypes : List Nat) (hs : ∀ s ∈ stats, s.combo.Pairwise (· < ·)) :
    ∃ m, marginal i stats haplotypes [] [] = .ok m := by
  obtain ⟨m1, h1, _⟩ := marginal_stats_eq i stats
    { has_alt := 0, not_alt := 0, acount := -1, rcount := -1, seen := -1 } hs
  exact ⟨m1, by simp [marginal, h1, marginal_pairs]⟩

theorem marginal_eq {R : Type} [Double R] [BEq R] (i : Nat) (stats : List (stats_t R))
    (haplotypes : List Nat) (pairs : List (List Nat)) (prhap : List R) (m : marginal_t R)
    (hs : ∀ s ∈ stats, s.combo.Pairwise (· < ·))
    (hrun : marginal i stats haplotypes pairs prhap = .ok m) :
    m.has_alt = (pair_terms stats haplotypes i true pairs prhap).foldl log_add_exp
        ((combo_terms i true stats).foldl sentinel_add 0) ∧
    m.not_alt = (pair_terms stats haplotypes i false pairs prhap).foldl log_add_exp
        ((combo_terms i false stats).foldl sentinel_add 0) := by
  obtain ⟨m1, h1, ha, hn⟩ := marginal_stats_eq i stats
    { has_alt := 0, not_alt := 0, acount := -1, rcount := -1, seen := -1 } hs
  unfold marginal at hrun
  rw [h1] at hrun
  obtain ⟨p1, p2, _⟩ := marginal_pairs_eq i stats haplotypes hs pairs prhap m1 m hrun
  rw [p1, p2, ha, hn]
  exact ⟨rfl, rfl⟩

/-- C13, evaluated on the code. The update `has_alt = (has_alt == 0) ? term :
log_add_exp(has_alt, term)` reads the value 0 as "no term yet", and a running value
can be exactly 0 after a term. Two scored combinations `[0]` and `[0, 1]` contain the
variant 0; their terms `mut - ref` are 0 and 1. The value `has_alt` of the marginal
branch for the variant 0 is 1, not the log-sum-exp `ln(e^0 + e^1)` of the two terms:
after the first term the running value is exactly 0, and the second term takes its
place, so the first term is lost. -/
theorem marginal_sentinel_drops_term :
    ∃ m, marginal 0 (sample_stats : List (stats_t ℝ)) [] [] [] = .ok m ∧
      combo_terms 0 true (sample_stats : List (stats_t ℝ)) = [0, 1] ∧
      m.has_alt = 1 ∧
      m.has_alt ≠ Real.log (Real.exp 0 + Real.exp 1) := by
  have hs : ∀ s ∈ (sample_stats : List (stats_t ℝ)), s.combo.Pairwise (· < ·) := by
    simp [sample_stats, stats_create]
  obtain ⟨m, hm⟩ := marginal_ok 0 (sample_stats : List (stats_t ℝ)) [] hs
  have ht : combo_terms 0 true (sample_stats : List (stats_t ℝ)) = [0, 1] := by
    simp [combo_terms, sample_stats, stats_create, double_of_int_real]
  have hv := (marginal_eq 0 _ [] [] [] m hs hm).1
  rw [ht] at hv
  have h1 : m.has_alt = 1 := by
    rw [hv]
    simp [pair_terms, sentinel_add]
  refine ⟨m, hm, ht, h1, ?_⟩
  rw [h1]
  have he : Real.exp 1 < Real.exp 0 + Real.exp 1 := by
    have := Real.exp_pos 0
    linarith
  have := Real.log_lt_log (Real.exp_pos 1) he
  rw [Real.log_exp] at this
  exact this.ne

/-- The marginal values that `evaluate` computes, in exact arithmetic, when every
scored combination is strictly ascending. For the variant `i`, `has_alt` is the running
value over the combinations that contain `i`, in the order of `stats`: it starts at 0,
a term `mut - ref` takes the place of a running value that is exactly 0 and is
log-added to any other; then `prhap` of every pair with a member that contains `i` is
log-added. So `has_alt` is the log-sum-exp of these terms of combinations and pairs
when a combination contains `i` and the running value is not 0 when a further
combination term arrives; with no such combination it is `ln(1 + sum of e^prhap)`.
`not_alt` is the same over the combinations and pairs that do not contain `i`. These
values are passed to `variant_print`, which writes `prob = (has_alt - total) / ln 10`
and `odds = (has_alt - not_alt) / ln 10` (with `M_LN10 = ln 10`). -/
theorem marginal_values (e : environment ℝ) (i : Nat) (stats : List (stats_t ℝ))
    (haplotypes : List Nat) (pairs : List (List Nat)) (prhap : List ℝ) (m : marginal_t ℝ)
    (hs : ∀ s ∈ stats, s.combo.Pairwise (· < ·))
    (hrun : marginal i stats haplotypes pairs prhap = .ok m) :
    (∀ inside : Bool,
      (if inside then m.has_alt else m.not_alt)
        = (pair_terms stats haplotypes i inside pairs prhap).foldl log_add_exp
            ((combo_terms i inside stats).foldl sentinel_add 0) ∧
      (combo_terms i inside stats ≠ [] →
        (∀ k, 0 < k → k < (combo_terms i inside stats).length →
          Real.log ((((combo_terms i inside stats).take k).map Real.exp).sum) ≠ 0) →
        (if inside then m.has_alt else m.not_alt)
          = Real.log (((combo_terms i inside stats
              ++ pair_terms stats haplotypes i inside pairs prhap).map Real.exp).sum)) ∧
      (combo_terms i inside stats = [] →
        (if inside then m.has_alt else m.not_alt)
          = Real.log (1 + ((pair_terms stats haplotypes i inside pairs prhap).map
              Real.exp).sum))) ∧
    (∀ (var_set : List variant_t) (total : ℝ) (rest : List Nat) (output : List Char),
      marginal_loop e var_set stats haplotypes pairs prhap total (i :: rest) output
        = (match variant_print e output var_set i m.seen m.rcount m.acount total m.has_alt
              m.not_alt with
            | .error x => .error x
            | .ok output1 =>
              marginal_loop e var_set stats haplotypes pairs prhap total rest output1)) ∧
    (e.M_LN10 = Real.log 10 →
      ∀ (var_set : List variant_t) (v : variant_t) (total : ℝ) (output : List Char),
        var_set[i]? = some v →
        variant_print e output var_set i m.seen m.rcount m.acount total m.has_alt m.not_alt
          = .ok (output ++ (v.chr ++ ['\t'] ++ fmt_d v.pos ++ ['\t'] ++ v.ref ++ ['\t']
              ++ v.alt ++ ['\t'] ++ fmt_d m.seen ++ ['\t'] ++ fmt_d m.rcount ++ ['\t']
              ++ fmt_d m.acount ++ ['\t']
              ++ e.fmt_e ((m.has_alt - total) / Real.log 10) ++ ['\t']
              ++ e.fmt_f ((m.has_alt - m.not_alt) / Real.log 10) ++ ['\t'])
              ++ ['['] ++ set_field var_set ++ [']', '\n'])) := by
  obtain ⟨ha, hn⟩ := marginal_eq i stats haplotypes pairs prhap m hs hrun
  have hval : ∀ inside : Bool, (if inside then m.has_alt else m.not_alt)
      = (pair_terms stats haplotypes i inside pairs prhap).foldl log_add_exp
          ((combo_terms i inside stats).foldl sentinel_add 0) := by
    intro inside
    cases inside
    · simpa using hn
    · simpa using ha
  refine ⟨?_, ?_, ?_⟩
  · intro inside
    refine ⟨hval inside, ?_, ?_⟩
    · intro hne hnz
      rw [hval inside, sentinel_foldl_terms _ hne hnz]
      have hpos : 0 < ((combo_terms i inside stats).map Real.exp).sum := by
        cases hc : combo_terms i inside stats with
        | nil => exact absurd hc hne
        | cons x rest =>
          simp only [List.map_cons, List.sum_cons]
          have h1 := Real.exp_pos x
          have h2 : 0 ≤ (rest.map Real.exp).sum :=
            List.sum_nonneg (fun y hy => by
              obtain ⟨z, _, hz⟩ := List.mem_map.1 hy
              rw [← hz]
              exact (Real.exp_pos z).le)
          linarith
      rw [log_add_exp_foldl_real _ _ _ hpos rfl]
      simp
    · intro hnil
      rw [hval inside, hnil]
      simp only [List.foldl_nil]
      rw [log_add_exp_foldl_real _ 0 1 one_pos (by simp)]
  · intro var_set total rest output
    simp only [marginal_loop, hrun]
  · intro hM var_set v total output hv
    simp only [variant_print, hv, hM, List.append_assoc]
    have e1 : ∀ x : ℝ, x * ((1.0 : ℝ) / Real.log 10) = x / Real.log 10 := by
      intro x
      rw [show (1.0 : ℝ) = 1 by norm_num, mul_one_div]
    rw [e1, e1]

theorem sample_stats_ascending {R : Type} [Double R] :
    ∀ s ∈ (sample_stats : List (stats_t R)), s.combo.Pairwise (· < ·) := by
  simp [sample_stats, stats_create]

/-- Instance of the marginal values: the two sample combinations are ascending, the marginal
branch returns for the variant 0, and `has_alt` is the running value of its terms. -/
theorem marginal_values_witness :
    (∀ s ∈ (sample_stats : List (stats_t ℝ)), s.combo.Pairwise (· < ·)) ∧
    ∃ m, marginal 0 (sample_stats : List (stats_t ℝ)) [] [] [] = .ok m ∧
      m.has_alt = (pair_terms (sample_stats : List (stats_t ℝ)) [] 0 true [] []).foldl
        log_add_exp ((combo_terms 0 true (sample_stats : List (stats_t ℝ))).foldl
          sentinel_add 0) :=
  ⟨sample_stats_ascending,
   match marginal_ok 0 (sample_stats : List (stats_t ℝ)) [] sample_stats_ascending with
   | ⟨m, hm⟩ =>
     ⟨m, hm, ((marginal_values sample_environment 0 sample_stats [] [] [] m
        sample_stats_ascending hm).1 true).1⟩⟩

/-- C15 (counterexample). For a set of one variant `variant_print` writes the empty
field `[]`: the evaluated variant is not listed in it. -/
theorem variant_print_singleton_empty :
    variant_print (sample_environment : environment Float) []
        [⟨"chr1".toList, 5, "G".toList, "A".toList⟩] 0 7 4 3 0 0 0
      = .ok "chr1\t5\tG\tA\t7\t4\t3\t%e\t%f\t[]\n".toList := by
  rfl

/-- C15 (amended). The line written by `variant_print` for the variant `i` of the set
ends with `[`, the set field and `]` and a newline. When the set has more than one
variant the set field lists every variant of the set, in order, as
`chr,pos,ref,alt;`; when the set has one variant the set field is empty (the line ends
with `[]`). -/
theorem variant_print_set_field {R : Type} [Double R] (e : environment R)
    (output : List Char) (var_set : List variant_t) (i : Nat) (v : variant_t)
    (nreads not_alt_count has_alt_count : Int) (total has_alt not_alt : R)
    (hv : var_set[i]? = some v) :
    ∃ line field,
      variant_print e output var_set i nreads not_alt_count has_alt_count total has_alt
          not_alt
        = .ok (output ++ line ++ ['['] ++ field ++ [']', '\n']) ∧
      line = v.chr ++ ['\t'] ++ fmt_d v.pos ++ ['\t'] ++ v.ref ++ ['\t'] ++ v.alt ++ ['\t']
        ++ fmt_d nreads ++ ['\t'] ++ fmt_d not_alt_count ++ ['\t'] ++ fmt_d has_alt_count
        ++ ['\t'] ++ e.fmt_e ((has_alt - total) * ((1.0 : R) / e.M_LN10)) ++ ['\t']
        ++ e.fmt_f ((has_alt - not_alt) * ((1.0 : R) / e.M_LN10)) ++ ['\t'] ∧
      (var_set.length > 1 →
        field = (var_set.map (fun w =>
          w.chr ++ [','] ++ fmt_d w.pos ++ [','] ++ w.ref ++ [','] ++ w.alt ++ [';'])).flatten) ∧
      (var_set.length = 1 → field = []) := by
  refine ⟨_, set_field var_set, ?_, rfl, ?_, ?_⟩
  · simp only [variant_print, hv]
  · intro h
    simp only [set_field, if_pos h]
    rfl
  · intro h
    simp [set_field, h]

/-- Instance of C15 (amended): a set of two variants, printed for its first variant. -/
theorem variant_print_set_field_witness :
    ([⟨"chr1".toList, 5, "G".toList, "A".toList⟩,
      ⟨"chr1".toList, 9, "C".toList, "T".toList⟩] : List variant_t)[0]?
      = some ⟨"chr1".toList, 5, "G".toList, "A".toList⟩ ∧
    ∃ line,
      variant_print (sample_environment : environment Float) []
          [⟨"chr1".toList, 5, "G".toList, "A".toList⟩,
            ⟨"chr1".toList, 9, "C".toList, "T".toList⟩] 0 7 4 3 0 0 0
        = .ok ([] ++ line ++ ['['] ++ "chr1,5,G,A;chr1,9,C,T;".toList ++ [']', '\n']) :=
  ⟨rfl,
   match variant_print_set_field (sample_environment : environment Float) []
      [⟨"chr1".toList, 5, "G".toList, "A".toList⟩, ⟨"chr1".toList, 9, "C".toList, "T".toList⟩]
      0 ⟨"chr1".toList, 5, "G".toList, "A".toList⟩ 7 4 3 0 0 0 rfl with
   | ⟨line, field, h, _, hf, _⟩ =>
     ⟨line, by rw [h, hf (by decide)]; rfl⟩⟩

/-- C16. Empty read window. For a hypothesis set (not empty) for which `bam_fetch`
returns no reads, `evaluate` returns `NULL` and no error, whatever the options, the
kernels and the reference are; the pass of the worker in `pool` that takes this set
from the queue leaves the results as they are, and `pool` goes on with the rest of the
queue. -/
theorem evaluate_empty_window {R : Type} [Double R] [BEq R] (e : environment R)
    (o : options R) (k : kernels R) (fuel : Nat) (var_set : List variant_t)
    (v0 vl : variant_t) (queue : List (List variant_t)) (results : List (List Char))
    (h0 : var_set.head? = some v0) (hl : var_set.getLast? = some vl)
    (hreads : e.bam_fetch v0.chr v0.pos vl.pos = []) :
    evaluate e o k fuel var_set = .ok none ∧
    pool_step e o k fuel (queue ++ [var_set]) results = .ok (some (queue, results)) ∧
    ∀ n, pool e o k fuel (n + 1) (queue ++ [var_set]) results
      = pool e o k fuel n queue results := by
  have hev : evaluate e o k fuel var_set = .ok none := by
    unfold evaluate
    rw [h0, hl]
    simp only
    split
    · rfl
    · rw [hreads]
      simp
  have hstep : pool_step e o k fuel (queue ++ [var_set]) results
      = .ok (some (queue, results)) := by
    simp [pool_step, vector_pop, hev]
  refine ⟨hev, hstep, ?_⟩
  intro n
  rw [pool, hstep]

/-- Instance of C16: with the sample environment the reference is found, no reads are
fetched for the set of one variant, and `evaluate` returns `NULL`. -/
theorem evaluate_empty_window_witness :
    (sample_environment : environment Float).bam_fetch "chr1".toList 5 5 = [] ∧
    evaluate (sample_environment : environment Float) sample_options
      { sample_kernels with refseq_fetch := fun _ => some ("ACGTACGTAC".toList, 10) } 10
      [⟨"chr1".toList, 5, "G".toList, "A".toList⟩] = .ok none ∧
    pool_step (sample_environment : environment Float) sample_options
      { sample_kernels with refseq_fetch := fun _ => some ("ACGTACGTAC".toList, 10) } 10
      [[⟨"chr1".toList, 5, "G".toList, "A".toList⟩]] ["line".toList]
      = .ok (some ([], ["line".toList])) :=
  ⟨rfl,
   (evaluate_empty_window (sample_environment : environment Float) sample_options
      { sample_kernels with refseq_fetch := fun _ => some ("ACGTACGTAC".toList, 10) } 10 [⟨"chr1".toList, 5, "G".toList, "A".toList⟩]
      ⟨"chr1".toList, 5, "G".toList, "A".toList⟩ ⟨"chr1".toList, 5, "G".toList, "A".toList⟩
      [] ["line".toList] rfl rfl rfl).1,
   (evaluate_empty_window (sample_environment : environment Float) sample_options
      { sample_kernels with refseq_fetch := fun _ => some ("ACGTACGTAC".toList, 10) } 10 [⟨"chr1".toList, 5, "G".toList, "A".toList⟩]
      ⟨"chr1".toList, 5, "G".toList, "A".toList⟩ ⟨"chr1".toList, 5, "G".toList, "A".toList⟩
      [] ["line".toList] rfl rfl rfl).2.1⟩

/-- Instance of C11: for the sample read and the combination `[0]` of one variant the
call of `calc_likelihood` returns. -/
theorem calc_likelihood_count_bounds_witness :
    ∃ r, calc_likelihood sample_options sample_kernels (stats_create [0])
      [⟨"chr1".toList, 3, "G".toList, "A".toList⟩] "ACGTACGTAC".toList 10
      [sample_read 0, sample_read 5] 0 = .ok r :=
  (calc_likelihood_count_bounds sample_options sample_kernels (stats_create [0])
    [⟨"chr1".toList, 3, "G".toList, "A".toList⟩] "ACGTACGTAC".toList 10
    [sample_read 0, sample_read 5] 0).2.2 (by decide) (by decide)
    (fun h => absurd h (by decide))

/-- In exact arithmetic `log_add_exp(a, b)` is above `a` for every `b`: no real number
is an identity of `log_add_exp`. -/
theorem log_add_exp_gt_left (a b : ℝ) : a < log_add_exp a b := by
  rw [log_add_exp_real]
  have h : Real.exp a < Real.exp a + Real.exp b := by
    have := Real.exp_pos b
    linarith
  have := Real.log_lt_log (Real.exp_pos a) h
  rwa [Real.log_exp] at this

/-! ## `variant_find` as a binary search -/

/-- C22. `variant_find` is a correct binary search on ascending vectors: for every
strictly ascending vector `a` of integers (the empty one included) and every `v` the
loop ends and returns a value `r`; `r = -1` if and only if `v` does not occur in `a`,
and otherwise `r` is the index with `a[r] = v`. On the vector `5, 2, 0`, which is not
ascending, it returns `-1` for `v = 5` although 5 occurs. -/
theorem variant_find_correct (a : List Int) (v : Int) (hs : a.Pairwise (· < ·)) :
    (∃ r, variant_find a v = some r ∧ (r = -1 ↔ v ∉ a) ∧
      (r ≠ -1 → 0 ≤ r ∧ r < a.length ∧ a[r.toNat]? = some v)) ∧
    variant_find ([5, 2, 0] : List Int) 5 = some (-1) ∧ (5 : Int) ∈ ([5, 2, 0] : List Int) := by
  refine ⟨?_, by decide, by decide⟩
  obtain ⟨r, hr, h⟩ := variant_find_spec a v hs
  refine ⟨r, hr, ?_, ?_⟩
  · rcases h with ⟨h1, h2⟩ | ⟨h1, h2⟩
    · simp [h1, h2]
    · constructor
      · intro h
        omega
      · intro h
        exact absurd (List.getElem?_mem h2) h
  · intro hne
    rcases h with ⟨h1, _⟩ | ⟨h1, h2⟩
    · exact absurd h1 hne
    · refine ⟨h1, ?_, h2⟩
      have := (List.getElem?_eq_some_iff.1 h2).1
      omega

/-- Instance of C22: the vector `0, 2, 5` is strictly ascending; 5 is found at index 2
and 1 is not found. -/
theorem variant_find_correct_witness :
    ([0, 2, 5] : List Int).Pairwise (· < ·) ∧
    (∃ r, variant_find ([0, 2, 5] : List Int) 5 = some r ∧
      (r = -1 ↔ (5 : Int) ∉ ([0, 2, 5] : List Int)) ∧
      (r ≠ -1 → 0 ≤ r ∧ r < ([0, 2, 5] : List Int).length ∧
        ([0, 2, 5] : List Int)[r.toNat]? = some 5)) ∧
    variant_find ([0, 2, 5] : List Int) 5 = some 2 ∧
    variant_find ([0, 2, 5] : List Int) 1 = some (-1) ∧
    variant_find ([] : List Int) 1 = some (-1) :=
  ⟨by decide, (variant_find_correct [0, 2, 5] 5 (by decide)).1, by decide, by decide, by decide⟩

/-! ## The common-segment loop of `construct_altseq` -/

theorem lcp_len_le (s1 s2 : List Char) :
    lcp_len s1 s2 ≤ s1.length ∧ lcp_len s1 s2 ≤ s2.length ∧
      s1.take (lcp_len s1 s2) = s2.take (lcp_len s1 s2) ∧
      (s1 ≠ s2 → (s1.drop (lcp_len s1 s2)).head? ≠ (s2.drop (lcp_len s1 s2)).head?) := by
  induction s1 generalizing s2 with
  | nil =>
    cases s2 with
    | nil => simp [lcp_len]
    | cons b t => simp [lcp_len]
  | cons a s ih =>
    cases s2 with
    | nil => simp [lcp_len]
    | cons b t =>
      by_cases hab : a = b
      · subst hab
        obtain ⟨h1, h2, h3, h4⟩ := ih t
        simp only [lcp_len, if_true, List.length_cons, List.take_succ_cons, List.drop_succ_cons]
        refine ⟨by omega, by omega, by rw [h3], ?_⟩
        intro hne
        exact h4 (fun e => hne (by rw [e]))
      · simp [lcp_len, hab]

/-- C30. The common-segment loop of `construct_altseq`, for a variant with neither
allele starting with `-`. When `ref ≠ alt` the loop stops after `n` steps with
`n ≤ min(|ref|, |alt|)`: both pointers are at offset `n` of their strings (a character
or the terminator), the `n` characters passed are the same in both alleles and the
characters at the pointers differ. When `ref = alt` the loop also passes the two
terminators, which compare equal: the next access is outside both strings, and the
loop body of `construct_altseq` does not return for a variant inside the window. -/
theorem strip_common_bounded (v : variant_t) (pos : Nat)
    (h1 : v.ref.head? ≠ some '-') (h2 : v.alt.head? ≠ some '-') :
    (v.ref ≠ v.alt →
      ∃ n, n ≤ min v.ref.length v.alt.length ∧
        select_alleles v pos = .ok (v.ref.drop n, v.alt.drop n, pos + n) ∧
        v.ref.take n = v.alt.take n ∧
        (v.ref.drop n).head? ≠ (v.alt.drop n).head?) ∧
    (v.ref = v.alt →
      select_alleles v pos = .error .bad_access ∧
      ∀ (var_data : List variant_t) (st : altseq_state) (ci : Nat),
        var_data[ci]? = some v → 0 ≤ v.pos - 1 + st.offset →
        v.pos - 1 + st.offset ≤ st.altseq_length →
        construct_step var_data st ci = .error .bad_access) := by
  constructor
  · intro hne
    obtain ⟨l1, l2, l3, l4⟩ := lcp_len_le v.ref v.alt
    refine ⟨lcp_len v.ref v.alt, Nat.le_min.2 ⟨l1, l2⟩, ?_, l3, l4 hne⟩
    simp only [select_alleles, if_neg h1, if_neg h2]
    exact strip_common_eq v.ref v.alt pos hne
  · intro heq
    have hsel : ∀ p, select_alleles v p = .error .bad_access := by
      intro p
      simp only [select_alleles, if_neg h1, if_neg h2]
      rw [heq]
      exact strip_common_same v.alt p
    refine ⟨hsel pos, ?_⟩
    intro var_data st ci hv hlo hhi
    simp only [construct_step, hv]
    rw [if_neg (by omega), hsel]

/-- Instance of C30: for `ref = ACG` and `alt = ACT` the loop stops inside the strings,
and for `ref = alt = A` it does not. -/
theorem strip_common_bounded_witness :
    ((⟨"chr1".toList, 1, "ACG".toList, "ACT".toList⟩ : variant_t).ref.head? ≠ some '-' ∧
      (⟨"chr1".toList, 1, "ACG".toList, "ACT".toList⟩ : variant_t).alt.head? ≠ some '-') ∧
    (∃ n, n ≤ min "ACG".toList.length "ACT".toList.length ∧
      select_alleles ⟨"chr1".toList, 1, "ACG".toList, "ACT".toList⟩ 0
        = .ok ("ACG".toList.drop n, "ACT".toList.drop n, 0 + n) ∧
      "ACG".toList.take n = "ACT".toList.take n ∧
      ("ACG".toList.drop n).head? ≠ ("ACT".toList.drop n).head?) ∧
    select_alleles ⟨"chr1".toList, 1, "A".toList, "A".toList⟩ 0 = .error .bad_access :=
  ⟨by decide,
   (strip_common_bounded ⟨"chr1".toList, 1, "ACG".toList, "ACT".toList⟩ 0
      (by decide) (by decide)).1 (by decide),
   ((strip_common_bounded ⟨"chr1".toList, 1, "A".toList, "A".toList⟩ 0
      (by decide) (by decide)).2 rfl).1⟩

/-! ## The multi-map adjustments of `calc_likelihood` -/

theorem log_add_exp_scaled (x y c : ℝ) (hc : 0 < c) :
    log_add_exp x (y + Real.log c) = Real.log (Real.exp x + c * Real.exp y) := by
  rw [log_add_exp_real, Real.exp_add, Real.exp_log hc, mul_comm]

theorem log_add_exp_self_scaled (x c : ℝ) (hc : 0 < c) :
    log_add_exp x (x + Real.log c) = x + Real.log (1 + c) := by
  rw [log_add_exp_scaled x x c hc,
    show Real.exp x + c * Real.exp x = Real.exp x * (1 + c) by ring,
    Real.log_mul (Real.exp_pos x).ne' (by linarith), Real.log_exp]

theorem multimap_scores_nh (o : options ℝ) (k : kernels ℝ) (combo : List Nat)
    (var_data : List variant_t) (refseq : List Char) (refseq_length : Int)
    (has_indel : Bool) (altseq : List Char) (altseq_length : Int) (read : read_t ℝ)
    (hXA : read.multimapXA = none) (hNH : read.multimapNH > 1) :
    multimap_scores o k combo var_data refseq refseq_length has_indel altseq
        altseq_length read
      = (elsewhere_score o k read + Real.log (read.multimapNH : ℝ),
         (kernel_scores o k combo var_data refseq refseq_length has_indel altseq
            altseq_length read).1 + Real.log (read.multimapNH : ℝ),
         Real.log (Real.exp (kernel_scores o k combo var_data refseq refseq_length has_indel
            altseq altseq_length read).2 + ((read.multimapNH : ℝ) - 1)
              * Real.exp (kernel_scores o k combo var_data refseq refseq_length has_indel
                altseq altseq_length read).1)) := by
  have hc : (0 : ℝ) < ((read.multimapNH - 1 : Int) : ℝ) := by
    exact_mod_cast (by omega : (0 : Int) < read.multimapNH - 1)
  have hcast : ((read.multimapNH - 1 : Int) : ℝ) = (read.multimapNH : ℝ) - 1 := by
    push_cast
    ring
  simp only [multimap_scores, hXA, if_pos hNH, double_log_real, double_of_int_real]
  rw [log_add_exp_self_scaled _ _ hc, log_add_exp_self_scaled _ _ hc,
    log_add_exp_scaled _ _ _ hc, hcast]
  have h1 : (1 : ℝ) + ((read.multimapNH : ℝ) - 1) = (read.multimapNH : ℝ) := by ring
  rw [h1]

/-- C23 (counterexample). A read without an `XA` string and with `NH = 2`, whose kernel
values are `prgu = 0` and `prgv = 1`: the adjustment gives `pout = elsewhere + ln 2`,
`prgu = ln 2` and `prgv = ln(e + 1)`, not `elsewhere + ln(NH - 1) = elsewhere`,
`prgu + ln(NH - 1) = 0` and `prgv + ln(NH - 1) = 1`. -/
theorem nh_adjustment_not_by_nh_minus_one :
    multimap_scores (main_options (1 / Real.log 10)) (flat_kernels (-20) 0 1) [0]
        [⟨"chr1".toList, 3, "G".toList, "A".toList⟩] "ACGTACGTAC".toList 10 false [] 0
        { (plain_read 0 : read_t ℝ) with multimapNH := 2 }
      = (elsewhere_score (main_options (1 / Real.log 10)) (flat_kernels (-20) 0 1)
            { (plain_read 0 : read_t ℝ) with multimapNH := 2 } + Real.log 2,
          0 + Real.log 2, Real.log (Real.exp 1 + 1)) ∧
    elsewhere_score (main_options (1 / Real.log 10)) (flat_kernels (-20) 0 1)
        { (plain_read 0 : read_t ℝ) with multimapNH := 2 } + Real.log 2
      ≠ elsewhere_score (main_options (1 / Real.log 10)) (flat_kernels (-20) 0 1)
        { (plain_read 0 : read_t ℝ) with multimapNH := 2 } + Real.log (2 - 1) ∧
    (0 : ℝ) + Real.log 2 ≠ 0 + Real.log (2 - 1) ∧
    Real.log (Real.exp 1 + 1) ≠ 1 + Real.log (2 - 1) := by
  have h2 := Real.log_two_gt_d9
  have h1 : Real.log ((2 : ℝ) - 1) = 0 := by norm_num
  refine ⟨?_, ?_, ?_, ?_⟩
  · rw [multimap_scores_nh _ _ _ _ _ _ _ _ _ _ rfl (by decide)]
    simp [kernel_scores, flat_kernels, main_options, plain_read]
    norm_num
  · rw [h1]
    intro h
    linarith
  · rw [h1]
    intro h
    linarith
  · rw [h1]
    have he : Real.exp 1 < Real.exp 1 + 1 := by linarith
    have := Real.log_lt_log (Real.exp_pos 1) he
    rw [Real.log_exp] at this
    linarith

/-- C23 (amended). The `NH` adjustment of `calc_likelihood`, in exact arithmetic, for a
read without an `XA` string. With `elsewhere`, and `prgu`, `prgv` as the kernel
returned them: when `NH > 1`, before the mixture with `omega`,
`pout = elsewhere + ln(NH)`, `prgu` becomes `prgu + ln(NH)`, and `prgv` becomes
`ln(e^prgv + (NH - 1) e^prgu)` (the term added to `prgv` is `prgu + ln(NH - 1)`, the
one added to `prgu`); when `NH ≤ 1` the three values are unchanged. -/
theorem nh_adjustment (o : options ℝ) (k : kernels ℝ) (combo : List Nat)
    (var_data : List variant_t) (refseq : List Char) (refseq_length : Int)
    (has_indel : Bool) (altseq : List Char) (altseq_length : Int) (read : read_t ℝ)
    (hXA : read.multimapXA = none) :
    ∃ elsewhere prgu prgv,
      elsewhere = elsewhere_score o k read ∧
      (prgu, prgv) = kernel_scores o k combo var_data refseq refseq_length has_indel altseq
        altseq_length read ∧
      (read.multimapNH > 1 →
        multimap_scores o k combo var_data refseq refseq_length has_indel altseq
            altseq_length read
          = (elsewhere + Real.log (read.multimapNH : ℝ),
             prgu + Real.log (read.multimapNH : ℝ),
             Real.log (Real.exp prgv + ((read.multimapNH : ℝ) - 1) * Real.exp prgu))) ∧
      (read.multimapNH ≤ 1 →
        multimap_scores o k combo var_data refseq refseq_length has_indel altseq
            altseq_length read = (elsewhere, prgu, prgv)) := by
  refine ⟨elsewhere_score o k read,
    (kernel_scores o k combo var_data refseq refseq_length has_indel altseq altseq_length
      read).1,
    (kernel_scores o k combo var_data refseq refseq_length has_indel altseq altseq_length
      read).2, rfl, rfl, ?_, ?_⟩
  · intro hNH
    exact multimap_scores_nh o k combo var_data refseq refseq_length has_indel altseq
      altseq_length read hXA hNH
  · intro hNH
    simp only [multimap_scores, hXA, if_neg (by omega : ¬ read.multimapNH > 1)]

/-- Instance of C23 (amended): the sample read has no `XA` string. -/
theorem nh_adjustment_witness :
    (plain_read 0 : read_t ℝ).multimapXA = none ∧
    ∃ elsewhere prgu prgv,
      elsewhere = elsewhere_score (main_options (1 / Real.log 10)) (flat_kernels (-20) 0 1)
        (plain_read 0) ∧
      (prgu, prgv) = kernel_scores (main_options (1 / Real.log 10)) (flat_kernels (-20) 0 1)
        [0] [⟨"chr1".toList, 3, "G".toList, "A".toList⟩] "ACGTACGTAC".toList 10 false [] 0
        (plain_read 0) ∧
      multimap_scores (main_options (1 / Real.log 10)) (flat_kernels (-20) 0 1) [0]
        [⟨"chr1".toList, 3, "G".toList, "A".toList⟩] "ACGTACGTAC".toList 10 false [] 0
        (plain_read 0) = (elsewhere, prgu, prgv) :=
  ⟨rfl,
   match nh_adjustment (main_options (1 / Real.log 10)) (flat_kernels (-20) 0 1) [0]
      [⟨"chr1".toList, 3, "G".toList, "A".toList⟩] "ACGTACGTAC".toList 10 false [] 0
      (plain_read 0) rfl with
   | ⟨e, u, v, he, hp, _, hle⟩ => ⟨e, u, v, he, hp, hle (by decide)⟩⟩

theorem xa_loop_pout (k : kernels ℝ) (read : read_t ℝ) (m : List ℝ) (e : ℝ) :
    ∀ (loci : List (List Char × Int)) (pout prgu prgv : ℝ),
      (xa_loop k read m e loci (pout, prgu, prgv)).1
        = Real.log (Real.exp pout + (loci.length : ℝ) * Real.exp e) := by
  intro loci
  induction loci with
  | nil =>
    intro pout prgu prgv
    simp [xa_loop]
  | cons l rest ih =>
    intro pout prgu prgv
    obtain ⟨xa_chr, xa_pos⟩ := l
    have hstep : Real.log (Real.exp (log_add_exp pout e) + (rest.length : ℝ) * Real.exp e)
        = Real.log (Real.exp pout + ((xa_chr, xa_pos) :: rest).length * Real.exp e) := by
      have hp : 0 < Real.exp pout + Real.exp e := by positivity
      rw [log_add_exp_real, Real.exp_log hp]
      simp only [List.length_cons]
      push_cast
      ring_nf
    unfold xa_loop
    simp only
    split
    · split
      · rw [ih, hstep]
      · rw [ih, hstep]
    · rw [ih, hstep]

theorem xa_loop_skip {R : Type} [Double R] (k : kernels R) (read : read_t R) (m : List R)
    (e : R) (xa_chr : List Char) (xa_pos : Int) (rest : List (List Char × Int))
    (pout prgu prgv : R)
    (h : xa_chr = read.chr ∨ ((xa_pos - read.pos).natAbs : Int) ≥ (read.length : Int)) :
    xa_loop k read m e ((xa_chr, xa_pos) :: rest) (pout, prgu, prgv)
      = xa_loop k read m e rest (log_add_exp pout e, prgu, prgv) := by
  have hc : ¬ (xa_chr ≠ read.chr ∧ ((xa_pos - read.pos).natAbs : Int) < (read.length : Int)) := by
    rintro ⟨h1, h2⟩
    rcases h with h | h
    · exact h1 h
    · omega
  rw [xa_loop]
  simp only
  rw [if_neg hc]

theorem xa_loop_score {R : Type} [Double R] (k : kernels R) (read : read_t R) (m : List R)
    (e : R) (xa_chr : List Char) (xa_pos : Int) (rest : List (List Char × Int))
    (pout prgu prgv : R) (xa_refseq : List Char) (xa_refseq_length : Int)
    (h1 : xa_chr ≠ read.chr)
    (h2 : ((xa_pos - read.pos).natAbs : Int) < (read.length : Int))
    (hf : k.refseq_fetch xa_chr = some (xa_refseq, xa_refseq_length)) :
    xa_loop k read m e ((xa_chr, xa_pos) :: rest) (pout, prgu, prgv)
      = xa_loop k read m e rest
          (log_add_exp pout e,
           log_add_exp prgu (k.calc_prob
             (if (xa_pos < 0 ∧ ¬ read.is_reverse) ∨ (xa_pos > 0 ∧ read.is_reverse) then
                k.reverse m else m)
             read.length xa_refseq xa_refseq_length (xa_pos.natAbs : Int) read.splice_pos
             read.splice_offset read.n_splice),
           log_add_exp prgv (k.calc_prob
             (if (xa_pos < 0 ∧ ¬ read.is_reverse) ∨ (xa_pos > 0 ∧ read.is_reverse) then
                k.reverse m else m)
             read.length xa_refseq xa_refseq_length (xa_pos.natAbs : Int) read.splice_pos
             read.splice_offset read.n_splice)) := by
  rw [xa_loop]
  simp only
  rw [if_pos ⟨h1, h2⟩, hf]

/-- C24. The `XA` adjustment of `calc_likelihood`, with the `XA` string as the list of
its loci, in exact arithmetic. After `k` loci `pout = elsewhere + ln(k + 1)`, and the
matrix passed to `calc_prob` is the reversed one exactly when the strands disagree.
But the test before `calc_prob` is `strcmp(xa_chr, chr) != 0 && abs(xa_pos - pos) <
length`: a locus on the contig of the read is never scored, at any distance, and a
locus on another contig is scored only at a distance below the read length. So for a
locus that does not overlap the primary alignment (same contig at distance at least
the read length, or another contig at such a distance) nothing is log-added to `prgu`
and `prgv`: for the read of 4 bases at position 0 of `chr1` neither the locus
`chr1,+5000` nor the locus `chr2,+5000` is scored. -/
theorem xa_adjustment_overlap_test (k : kernels ℝ) (read : read_t ℝ) (m : List ℝ) (e : ℝ) :
    (∀ (loci : List (List Char × Int)) (prgu prgv : ℝ),
      (xa_loop k read m e loci (e, prgu, prgv)).1 = e + Real.log ((loci.length : ℝ) + 1)) ∧
    (∀ (xa_pos : Int) (rest : List (List Char × Int)) (pout prgu prgv : ℝ),
      xa_loop k read m e ((read.chr, xa_pos) :: rest) (pout, prgu, prgv)
        = xa_loop k read m e rest (log_add_exp pout e, prgu, prgv)) ∧
    (∀ (xa_chr : List Char) (xa_pos : Int) (rest : List (List Char × Int))
        (pout prgu prgv : ℝ),
      ((xa_pos - read.pos).natAbs : Int) ≥ (read.length : Int) →
      xa_loop k read m e ((xa_chr, xa_pos) :: rest) (pout, prgu, prgv)
        = xa_loop k read m e rest (log_add_exp pout e, prgu, prgv)) ∧
    (∀ (xa_chr : List Char) (xa_pos : Int) (rest : List (List Char × Int))
        (pout prgu prgv : ℝ) (xa_refseq : List Char) (xa_refseq_length : Int),
      xa_chr ≠ read.chr → ((xa_pos - read.pos).natAbs : Int) < (read.length : Int) →
      k.refseq_fetch xa_chr = some (xa_refseq, xa_refseq_length) →
      xa_loop k read m e ((xa_chr, xa_pos) :: rest) (pout, prgu, prgv)
        = xa_loop k read m e rest
            (log_add_exp pout e,
             log_add_exp prgu (k.calc_prob
               (if (xa_pos < 0 ∧ ¬ read.is_reverse) ∨ (xa_pos > 0 ∧ read.is_reverse) then
                  k.reverse m else m)
               read.length xa_refseq xa_refseq_length (xa_pos.natAbs : Int) read.splice_pos
               read.splice_offset read.n_splice),
             log_add_exp prgv (k.calc_prob
               (if (xa_pos < 0 ∧ ¬ read.is_reverse) ∨ (xa_pos > 0 ∧ read.is_reverse) then
                  k.reverse m else m)
               read.length xa_refseq xa_refseq_length (xa_pos.natAbs : Int) read.splice_pos
               read.splice_offset read.n_splice))) ∧
    (∀ (prgu prgv : ℝ),
      xa_loop { k with refseq_fetch := fun _ => some ("ACGTACGTAC".toList, 10) }
          (plain_read 0) m e [("chr1".toList, 5000), ("chr2".toList, 5000)] (e, prgu, prgv)
        = (log_add_exp (log_add_exp e e) e, prgu, prgv)) := by
  refine ⟨?_, ?_, ?_, ?_, ?_⟩
  · intro loci prgu prgv
    rw [xa_loop_pout,
      show Real.exp e + (loci.length : ℝ) * Real.exp e
        = Real.exp e * ((loci.length : ℝ) + 1) by ring,
      Real.log_mul (Real.exp_pos e).ne' (by positivity), Real.log_exp]
  · intro xa_pos rest pout prgu prgv
    exact xa_loop_skip k read m e read.chr xa_pos rest pout prgu prgv (Or.inl rfl)
  · intro xa_chr xa_pos rest pout prgu prgv h
    exact xa_loop_skip k read m e xa_chr xa_pos rest pout prgu prgv (Or.inr h)
  · intro xa_chr xa_pos rest pout prgu prgv xa_refseq xa_refseq_length h1 h2 hf
    exact xa_loop_score k read m e xa_chr xa_pos rest pout prgu prgv xa_refseq
      xa_refseq_length h1 h2 hf
  · intro prgu prgv
    rw [xa_loop_skip _ (plain_read 0) m e "chr1".toList 5000 _ _ _ _ (Or.inl rfl),
      xa_loop_skip _ (plain_read 0) m e "chr2".toList 5000 _ _ _ _ (Or.inr (by decide))]
    rfl

/-! ## The choice of the kernel in `calc_likelihood` -/

theorem calc_likelihood_parts {R : Type} [Double R] (o : options R) (k : kernels R)
    (stat : stats_t R) (var_data : List variant_t) (refseq : List Char)
    (refseq_length : Int) (read_data : List (read_t R)) (seti : Nat)
    (st1 : stats_t R) (reads1 : List (read_t R))
    (hrun : calc_likelihood o k stat var_data refseq refseq_length read_data seti
      = .ok (st1, reads1)) :
    ∃ has_indel altseq altseq_length st2,
      (if o.lowmem then .ok false else has_indel_loop var_data stat.combo) = .ok has_indel ∧
      (if has_indel ∨ o.dp then construct_altseq refseq refseq_length stat.combo var_data
        else .ok ([], 0)) = .ok (altseq, altseq_length) ∧
      read_loop o k var_data refseq refseq_length has_indel altseq altseq_length seti
        (reset_stats stat) read_data = .ok (st2, reads1) ∧
      st1 = { st2 with «mut» := log_add_exp st2.alt st2.het } := by
  unfold calc_likelihood at hrun
  simp only at hrun
  split at hrun
  · cases hrun
  · rename_i has_indel hind
    split at hrun
    · cases hrun
    · rename_i altseq altseq_length halt
      split at hrun
      · cases hrun
      · rename_i st2 rd2 hloop
        simp only [Except.ok.injEq, Prod.mk.injEq] at hrun
        obtain ⟨hs, hr⟩ := hrun
        subst hr
        exact ⟨has_indel, altseq, altseq_length, st2, hind, halt, hloop, hs.symm⟩

theorem has_indel_loop_iff (var_data : List variant_t) :
    ∀ (combo : List Nat) (b : Bool), has_indel_loop var_data combo = .ok b →
      (b = true ↔ ∃ ci ∈ combo, ∃ v, var_data[ci]? = some v ∧ is_indel v = true) := by
  intro combo
  induction combo with
  | nil =>
    intro b h
    simp only [has_indel_loop, Except.ok.injEq] at h
    subst h
    simp
  | cons ci rest ih =>
    intro b h
    rw [has_indel_loop] at h
    split at h
    · cases h
    · rename_i v hv
      by_cases hi : is_indel v = true
      · rw [if_pos hi] at h
        simp only [Except.ok.injEq] at h
        subst h
        simp only [true_iff]
        exact ⟨ci, List.mem_cons_self _ _, v, hv, hi⟩
      · rw [if_neg hi] at h
        rw [ih b h]
        constructor
        · rintro ⟨c, hc, w, hw, hwi⟩
          exact ⟨c, List.mem_cons_of_mem _ hc, w, hw, hwi⟩
        · rintro ⟨c, hc, w, hw, hwi⟩
          rcases List.mem_cons.1 hc with rfl | hc
          · rw [hv] at hw
            cases hw
            exact absurd hwi hi
          · exact ⟨c, hc, w, hw, hwi⟩

theorem calc_likelihood_ok {R : Type} [Double R] (o : options R) (k : kernels R)
    (stat : stats_t R) (var_data : List variant_t) (refseq : List Char)
    (refseq_length : Int) (read_data : List (read_t R)) (seti : Nat)
    (hne : stat.combo ≠ []) (hidx : ∀ ci ∈ stat.combo, ci < var_data.length)
    (hcons : ∃ a, construct_altseq refseq refseq_length stat.combo var_data = .ok a) :
    ∃ r, calc_likelihood o k stat var_data refseq refseq_length read_data seti = .ok r := by
  have hind : ∃ b, (if o.lowmem then (.ok false : Except fault Bool)
      else has_indel_loop var_data stat.combo) = .ok b := by
    by_cases hl : o.lowmem = true
    · exact ⟨false, by simp [hl]⟩
    · obtain ⟨b, hb⟩ := has_indel_loop_ok var_data stat.combo hidx
      exact ⟨b, by simp [hl, hb]⟩
  obtain ⟨has_indel, hi⟩ := hind
  have halt : ∃ a, (if has_indel ∨ o.dp then
      construct_altseq refseq refseq_length stat.combo var_data
      else .ok ([], 0)) = .ok a := by
    by_cases hc : has_indel = true ∨ o.dp = true
    · rw [if_pos hc]
      exact hcons
    · rw [if_neg hc]
      exact ⟨_, rfl⟩
  obtain ⟨⟨altseq, altseq_length⟩, ha⟩ := halt
  obtain ⟨⟨st2, rd2⟩, hr⟩ := read_loop_ok o k var_data refseq refseq_length has_indel altseq
    altseq_length seti read_data (reset_stats stat) hne hidx
  exact ⟨_, calc_likelihood_of_loop o k stat var_data refseq refseq_length read_data seti
    has_indel altseq altseq_length st2 rd2 hi ha hr⟩

/-- C26 (amended). Kernel selection in `calc_likelihood`. Whenever the call returns,
the entries it appends to `read_prgv` are computed with a flag `has_indel` and a
sequence `altseq` such that: `has_indel` is true exactly when `lowmem` is off and the
combination contains a variant with an allele starting with `-` or with
`|ref| ≠ |alt|`; when `has_indel` is true or `dp` is set, `altseq` is the sequence
built by `construct_altseq`; `prgu` and `prgv` are computed by `calc_prob` against
`refseq` and `altseq` when `has_indel` is true, by `calc_prob_dp` when it is false and
`dp` is set, and by `calc_prob_snps` otherwise. So with `lowmem` off the claim holds as
stated; with `lowmem` on `has_indel` is false for every combination, and a combination
with an indel is scored by `calc_prob_dp` under `dp` and by `calc_prob_snps` without. -/
theorem kernel_selection {R : Type} [Double R] (o : options R) (k : kernels R)
    (stat : stats_t R) (var_data : List variant_t) (refseq : List Char)
    (refseq_length : Int) (read_data : List (read_t R)) (seti : Nat)
    (st1 : stats_t R) (reads1 : List (read_t R))
    (hrun : calc_likelihood o k stat var_data refseq refseq_length read_data seti
      = .ok (st1, reads1)) :
    ∃ has_indel altseq altseq_length,
      (has_indel = true ↔ o.lowmem = false ∧
        ∃ ci ∈ stat.combo, ∃ v, var_data[ci]? = some v ∧ is_indel v = true) ∧
      (has_indel = true ∨ o.dp = true →
        construct_altseq refseq refseq_length stat.combo var_data
          = .ok (altseq, altseq_length)) ∧
      (∀ first last, combo_first var_data stat.combo = some first →
        combo_last var_data stat.combo = some last →
        st1.read_prgv = stat.read_prgv ++ read_data.map (read_entry o k stat.combo
          var_data refseq refseq_length has_indel altseq altseq_length first last)) ∧
      (∀ read : read_t R,
        kernel_scores o k stat.combo var_data refseq refseq_length has_indel altseq
            altseq_length read
          = if has_indel = true then
              (k.calc_prob (read_matrix o k read) read.length refseq refseq_length read.pos
                  read.splice_pos read.splice_offset read.n_splice,
               k.calc_prob (read_matrix o k read) read.length altseq altseq_length read.pos
                  read.splice_pos read.splice_offset read.n_splice)
            else if o.dp = true then
              (k.calc_prob_dp (read_matrix o k read) read.length refseq refseq_length
                  read.pos read.splice_pos read.splice_offset read.n_splice o.gap_op o.gap_ex,
               k.calc_prob_dp (read_matrix o k read) read.length altseq altseq_length
                  read.pos read.splice_pos read.splice_offset read.n_splice o.gap_op o.gap_ex)
            else
              k.calc_prob_snps stat.combo var_data (read_matrix o k read) read.length refseq
                refseq_length read.pos read.splice_pos read.splice_offset read.n_splice) := by
  obtain ⟨has_indel, altseq, altseq_length, st2, hind, halt, hloop, hst⟩ :=
    calc_likelihood_parts o k stat var_data refseq refseq_length read_data seti st1 reads1 hrun
  refine ⟨has_indel, altseq, altseq_length, ?_, ?_, ?_, ?_⟩
  · by_cases hl : o.lowmem = true
    · rw [if_pos hl] at hind
      simp only [Except.ok.injEq] at hind
      subst hind
      simp [hl]
    · rw [if_neg hl] at hind
      rw [has_indel_loop_iff var_data stat.combo has_indel hind]
      simp [hl]
  · intro hc
    rw [if_pos hc] at halt
    exact halt
  · intro first last hf hl
    obtain ⟨_, _, _, _, _, _, _, irest⟩ := read_loop_effect o k var_data refseq refseq_length
      has_indel altseq altseq_length seti read_data (reset_stats stat) st2 reads1 hloop
    rw [hst]
    exact (irest first last hf hl).2
  · intro read
    rfl

/-- C26 (counterexample). With `lowmem` set and `dp` off, the combination of the
deletion `G > -` is scored with `has_indel` false: the entry of `read_prgv` is computed
from the values of `calc_prob_snps`, and `construct_altseq` is not called. -/
theorem lowmem_indel_scored_by_snps :
    is_indel ⟨"chr1".toList, 3, "G".toList, "-".toList⟩ = true ∧
    (∃ st rs, calc_likelihood { sample_options with lowmem := true } sample_kernels
        (stats_create [0]) [⟨"chr1".toList, 3, "G".toList, "-".toList⟩] "ACGTACGTAC".toList 10
        [sample_read 0] 0 = .ok (st, rs) ∧
      st.read_prgv = [read_value { sample_options with lowmem := true } sample_kernels [0]
        [⟨"chr1".toList, 3, "G".toList, "-".toList⟩] "ACGTACGTAC".toList 10 false [] 0
        (sample_read 0)]) ∧
    kernel_scores { sample_options with lowmem := true } sample_kernels [0]
        [⟨"chr1".toList, 3, "G".toList, "-".toList⟩] "ACGTACGTAC".toList 10 false [] 0
        (sample_read 0)
      = sample_kernels.calc_prob_snps [0] [⟨"chr1".toList, 3, "G".toList, "-".toList⟩]
          (read_matrix { sample_options with lowmem := true } sample_kernels (sample_read 0))
          (sample_read 0).length "ACGTACGTAC".toList 10 (sample_read 0).pos
          (sample_read 0).splice_pos (sample_read 0).splice_offset (sample_read 0).n_splice := by
  refine ⟨by decide, ?_, rfl⟩
  have hstep := read_step_spanning { sample_options with lowmem := true } sample_kernels
      [⟨"chr1".toList, 3, "G".toList, "-".toList⟩] "ACGTACGTAC".toList 10 false [] 0 0
      (reset_stats (stats_create [0])) (sample_read 0) _ _ rfl rfl (by decide)
  refine ⟨_, _, calc_likelihood_of_loop _ _ _ _ _ _ _ _ false [] 0 _ _ rfl rfl
    (read_loop_single _ _ _ _ _ _ _ _ _ _ _ _ hstep), ?_⟩
  rw [score_read_eq]
  rfl

/-- Instance of C26 (amended): with `lowmem` off the call returns for the combination
of the deletion `G > -`, and `has_indel` is true. -/
theorem kernel_selection_witness :
    ∃ st1 reads1, calc_likelihood sample_options sample_kernels (stats_create [0])
        [⟨"chr1".toList, 3, "G".toList, "-".toList⟩] "ACGTACGTAC".toList 10
        [sample_read 0] 0 = .ok (st1, reads1) ∧
      ∃ has_indel altseq altseq_length,
        (has_indel = true ↔ sample_options.lowmem = false ∧
          ∃ ci ∈ (stats_create [0] : stats_t Float).combo, ∃ v,
            ([⟨"chr1".toList, 3, "G".toList, "-".toList⟩] : List variant_t)[ci]? = some v ∧
              is_indel v = true) ∧
        (has_indel = true ∨ sample_options.dp = true →
          construct_altseq "ACGTACGTAC".toList 10 (stats_create [0] : stats_t Float).combo
            [⟨"chr1".toList, 3, "G".toList, "-".toList⟩] = .ok (altseq, altseq_length)) :=
  match calc_likelihood_ok sample_options sample_kernels (stats_create [0])
      [⟨"chr1".toList, 3, "G".toList, "-".toList⟩] "ACGTACGTAC".toList 10
      [sample_read 0] 0 (by decide) (by decide)
      ⟨("ACTACGTAC".toList ++ [NUL], 9), by decide⟩ with
  | ⟨(st1, reads1), h⟩ =>
    ⟨st1, reads1, h,
      match kernel_selection sample_options sample_kernels (stats_create [0])
        [⟨"chr1".toList, 3, "G".toList, "-".toList⟩] "ACGTACGTAC".toList 10
        [sample_read 0] 0 st1 reads1 h with
      | ⟨hi, a, al, h1, h2, _⟩ => ⟨hi, a, al, h1, h2⟩⟩

/-! ## The split pass keeps every variant and empties no set -/

theorem same_variant_eq (a b : variant_t) (h : same_variant a b = true) : a = b := by
  simp only [same_variant, Bool.and_eq_true, decide_eq_true_eq] at h
  obtain ⟨⟨⟨h1, h2⟩, h3⟩, h4⟩ := h
  cases a
  cases b
  simp only at h1 h2 h3 h4
  subst h1 h2 h3 h4
  rfl

theorem vector_del_keep {α : Type} (a b : List α) (i : Nat) (h : vector_del a i = .ok b) :
    i < a.length ∧ b = a.eraseIdx i ∧ b.length + 1 = a.length ∧
      ∀ v ∈ a, v ∈ b ∨ a[i]? = some v := by
  unfold vector_del at h
  split at h
  · rename_i hi
    cases h
    refine ⟨hi, rfl, by rw [List.length_eraseIdx_of_lt hi]; omega, ?_⟩
    intro v hv
    obtain ⟨k, hk, hkv⟩ := List.getElem_of_mem hv
    by_cases hki : k = i
    · subst hki
      exact Or.inr (by rw [List.getElem?_eq_getElem hk, hkv])
    · exact Or.inl (List.mem_eraseIdx_iff_getElem?.2
        ⟨k, hki, by rw [List.getElem?_eq_getElem hk, hkv]⟩)
  · cases h

theorem dedup_loop_keep :
    ∀ (fuel j : Nat) (cs : List variant_t) (flag : Bool) (r : List variant_t × Bool),
      dedup_loop fuel j cs flag = .ok r →
      r.1 ≠ [] ∧ ∀ v ∈ cs, v ∈ r.1 := by
  intro fuel
  induction fuel with
  | zero => intro j cs flag r h; simp [dedup_loop] at h
  | succ fuel ih =>
    intro j cs flag r h
    rw [dedup_loop] at h
    split at h
    · cases h
    · rename_i hlen
      split at h
      · split at h
        · rename_i curr next hc hn
          split at h
          · rename_i hsame
            split at h
            · cases h
            · rename_i cs1 hdel
              obtain ⟨hi, he2, _, hkeep⟩ := vector_del_keep _ _ _ hdel
              obtain ⟨h1, h2⟩ := ih _ _ _ _ h
              refine ⟨h1, ?_⟩
              have hmem : curr ∈ cs1 := by
                rw [he2]
                exact List.mem_eraseIdx_iff_getElem?.2 ⟨j, by omega, hc⟩
              intro v hv
              rcases hkeep v hv with h3 | h3
              · exact h2 v h3
              · rw [hn] at h3
                have hv2 : next = v := by simpa using h3
                have he : curr = next := same_variant_eq curr next hsame
                rw [← hv2, ← he]
                exact h2 curr hmem
          · split at h
            · exact ih _ _ _ _ h
            · exact ih _ _ _ _ h
        · cases h
      · cases h
        refine ⟨fun e => hlen ?_, fun v hv => hv⟩
        simp only at e
        rw [e]
        rfl

theorem pop_loop_keep :
    ∀ (fuel : Nat) (cs : List variant_t) (added : List (List variant_t))
      (r : List variant_t × List (List variant_t)),
      pop_loop fuel cs added = .ok r → cs ≠ [] →
      r.1 ≠ [] ∧ (∀ v ∈ cs, v ∈ r.1 ∨ ∃ S ∈ r.2, v ∈ S) ∧ (∀ S ∈ added, S ∈ r.2) ∧
        (∀ S ∈ r.2, S ∈ added ∨ S ≠ []) := by
  intro fuel
  induction fuel with
  | zero => intro cs added r h; simp [pop_loop] at h
  | succ fuel ih =>
    intro cs added r h hne
    rw [pop_loop] at h
    split at h
    · rename_i hlen
      split at h
      · cases h
      · rename_i curr cs1 hpop
        have hn0 : ¬ cs.length ≤ 0 := by omega
        simp only [vector_pop, if_neg hn0, Prod.mk.injEq] at hpop
        obtain ⟨hlast, hdrop⟩ := hpop
        subst hdrop
        have hne1 : cs.dropLast ≠ [] := by
          intro e
          have := congrArg List.length e
          simp only [List.length_dropLast, List.length_nil] at this
          omega
        obtain ⟨h1, h2, h3, h4⟩ := ih _ _ _ h hne1
        have hcurr : ∃ S ∈ r.2, curr ∈ S :=
          ⟨[curr], h3 _ (by simp [vector_add]), by simp⟩
        refine ⟨h1, ?_, ?_, ?_⟩
        · intro v hv
          have hsplit : cs = cs.dropLast ++ [curr] := by
            have := List.dropLast_append_getLast? curr hlast
            exact this.symm
          rw [hsplit] at hv
          rcases List.mem_append.1 hv with h5 | h5
          · exact h2 v h5
          · simp only [List.mem_singleton] at h5
            subst h5
            exact Or.inr hcurr
        · intro S hS
          exact h3 S (by simp [vector_add, hS])
        · intro S hS
          rcases h4 S hS with h5 | h5
          · simp only [vector_add, List.nil_append, List.mem_append, List.mem_singleton] at h5
            rcases h5 with h5 | h5
            · exact Or.inl h5
            · subst h5
              exact Or.inr (by simp)
          · exact Or.inr h5
    · cases h
      exact ⟨hne, fun v hv => Or.inl hv, fun S hS => hS, fun S hS => Or.inl hS⟩

theorem dup_loop_keep :
    ∀ (fuel j : Nat) (cs : List variant_t) (added : List (List variant_t)) (flag : Bool)
      (r : List variant_t × List (List variant_t) × Bool),
      dup_loop fuel j cs added flag = .ok r →
      r.1 ≠ [] ∧ (∀ v ∈ cs, v ∈ r.1 ∨ ∃ S ∈ r.2.1, v ∈ S) ∧ (∀ S ∈ added, S ∈ r.2.1) ∧
        (∀ S ∈ r.2.1, S ∈ added ∨ S ≠ []) := by
  intro fuel
  induction fuel with
  | zero => intro j cs added flag r h; simp [dup_loop] at h
  | succ fuel ih =>
    intro j cs added flag r h
    rw [dup_loop] at h
    split at h
    · cases h
    · rename_i hlen
      split at h
      · rename_i hj
        split at h
        · rename_i curr next hc hn
          split at h
          · simp only at h
            split at h
            · rename_i cs1 dup1 hd1 hd2
              obtain ⟨_, he1, hl1, hk1⟩ := vector_del_keep _ _ _ hd1
              obtain ⟨_, he2, hl2, _⟩ := vector_del_keep _ _ _ hd2
              obtain ⟨h1, h2, h3, h4⟩ := ih _ _ _ _ _ h
              have hdup : dup1 ∈ r.2.1 := h3 _ (by simp [vector_add])
              refine ⟨h1, ?_, ?_, ?_⟩
              · intro v hv
                rcases hk1 v hv with h5 | h5
                · exact h2 v h5
                · right
                  refine ⟨dup1, hdup, ?_⟩
                  rw [he2]
                  exact List.mem_eraseIdx_iff_getElem?.2 ⟨j, by omega, h5⟩
              · intro S hS
                exact h3 S (by simp [vector_add, hS])
              · intro S hS
                rcases h4 S hS with h5 | h5
                · simp only [vector_add, List.mem_append, List.mem_singleton] at h5
                  rcases h5 with h5 | h5
                  · exact Or.inl h5
                  · subst h5
                    right
                    intro e
                    rw [e] at hl2
                    simp only [vector_dup, List.length_nil] at hl2
                    omega
                · exact Or.inr h5
            · cases h
          · exact ih _ _ _ _ _ h
        · cases h
      · cases h
        refine ⟨fun e => hlen ?_, fun v hv => Or.inl hv, fun S hS => hS, fun S hS => Or.inl hS⟩
        simp only at e
        rw [e]
        rfl

theorem split_set_keep (cs : List variant_t) (flag : Bool)
    (r : List variant_t × List (List variant_t) × Bool) (h : split_set cs flag = .ok r) :
    r.1 ≠ [] ∧ (∀ S ∈ r.2.1, S ≠ []) ∧ (∀ v ∈ cs, v ∈ r.1 ∨ ∃ S ∈ r.2.1, v ∈ S) := by
  unfold split_set at h
  split at h
  · cases h
  · rename_i cs1 flag_nonset hded
    obtain ⟨d1, d2⟩ := dedup_loop_keep _ _ _ _ _ hded
    simp only at d1 d2
    split at h
    · split at h
      · cases h
      · rename_i cs2 added hpop
        cases h
        obtain ⟨p1, p2, _, p4⟩ := pop_loop_keep _ _ _ _ hpop d1
        refine ⟨p1, ?_, fun v hv => p2 v (d2 v hv)⟩
        intro S hS
        rcases p4 S hS with h5 | h5
        · simp at h5
        · exact h5
    · obtain ⟨p1, p2, _, p4⟩ := dup_loop_keep _ _ _ _ _ _ h
      refine ⟨p1, ?_, fun v hv => p2 v (d2 v hv)⟩
      intro S hS
      rcases p4 S hS with h5 | h5
      · simp at h5
      · exact h5

theorem set_loop_keep :
    ∀ (fuel i : Nat) (var_set : List (List variant_t)) (flag : Bool)
      (r : List (List variant_t) × Bool),
      set_loop fuel i var_set flag = .ok r → (∀ S ∈ var_set, S ≠ []) →
      (∀ S ∈ r.1, S ≠ []) ∧ ∀ S ∈ var_set, ∀ v ∈ S, ∃ T ∈ r.1, v ∈ T := by
  intro fuel
  induction fuel with
  | zero => intro i var_set flag r h; simp [set_loop] at h
  | succ fuel ih =>
    intro i var_set flag r h hne
    rw [set_loop] at h
    split at h
    · cases h
      exact ⟨hne, fun S hS v hv => ⟨S, hS, hv⟩⟩
    · rename_i curr_set hsome
      split at h
      · exact ih _ _ _ _ h hne
      · split at h
        · cases h
        · rename_i cs added flag1 hs
          obtain ⟨k1, k2, k3⟩ := split_set_keep _ _ _ hs
          simp only at k1 k2 k3
          have hi : i < var_set.length := (List.getElem?_eq_some_iff.1 hsome).1
          have hne1 : ∀ S ∈ var_set.set i cs ++ added, S ≠ [] := by
            intro S hS
            rcases List.mem_append.1 hS with h3 | h3
            · rcases List.mem_or_eq_of_mem_set h3 with h4 | h4
              · exact hne S h4
              · rw [h4]
                exact k1
            · exact k2 S h3
          obtain ⟨i1, i2⟩ := ih _ _ _ _ h hne1
          refine ⟨i1, ?_⟩
          intro S hS v hv
          obtain ⟨n, hn, hnS⟩ := List.getElem_of_mem hS
          by_cases hni : n = i
          · subst hni
            have hcs : S = curr_set := by
              rw [List.getElem?_eq_getElem hn, hnS] at hsome
              exact Option.some.inj hsome
            rw [hcs] at hv
            rcases k3 v hv with h5 | ⟨T, hT, hvT⟩
            · exact i2 cs (List.mem_append_left _ (List.mem_set var_set n hn cs)) v h5
            · exact i2 T (List.mem_append_right _ hT) v hvT
          · have hmem : S ∈ var_set.set i cs := by
              have hget : (var_set.set i cs)[n]? = some S := by
                rw [List.getElem?_set_ne (Ne.symm hni), List.getElem?_eq_getElem hn, hnS]
              exact List.getElem?_mem hget
            exact i2 S (List.mem_append_left _ hmem) v hv

theorem split_pass_keep :
    ∀ (fuel : Nat) (var_set out : List (List variant_t)),
      split_pass fuel var_set = .ok out → (∀ S ∈ var_set, S ≠ []) →
      (∀ S ∈ out, S ≠ []) ∧ ∀ S ∈ var_set, ∀ v ∈ S, ∃ T ∈ out, v ∈ T := by
  intro fuel
  induction fuel with
  | zero => intro var_set out h; simp [split_pass] at h
  | succ fuel ih =>
    intro var_set out h hne
    rw [split_pass] at h
    split at h
    · cases h
    · rename_i vs flag hloop
      obtain ⟨k1, k2⟩ := set_loop_keep _ _ _ _ _ hloop hne
      simp only at k1 k2
      split at h
      · obtain ⟨i1, i2⟩ := ih _ _ h k1
        refine ⟨i1, ?_⟩
        intro S hS v hv
        obtain ⟨T, hT, hvT⟩ := k2 S hS v hv
        exact i2 T hT v hvT
      · cases h
        exact ⟨k1, k2⟩

theorem greedy_same_chr (ext : variant_t → variant_t → variant_t → Bool)
    (hext : ∀ f p w, ext f p w = true → f.chr = p.chr → p.chr = w.chr)
    (l : List variant_t) :
    ∀ S ∈ greedy ext l.length l, S.Pairwise (fun a b : variant_t => a.chr = b.chr) := by
  intro S hS
  obtain ⟨hne, hlk⟩ := greedy_linked ext _ _ S hS
  have hc : List.Chain' (fun a b : variant_t => a.chr = b.chr) S := by
    cases S with
    | nil => exact List.chain'_nil
    | cons f tail => exact run_chain_chr ext f (hext f) tail f rfl (hlk f rfl)
  exact (@List.chain'_iff_pairwise _ (fun a b : variant_t => a.chr = b.chr)
    ⟨fun a b c h1 h2 => h1.trans h2⟩ S).mp hc

theorem group_variants_same_chr (sharedr distlim maxdist : Int)
    (last : List Char → Int → Int) (var_list : List variant_t)
    (sets : List (List variant_t))
    (h : group_variants sharedr distlim maxdist last var_list = some sets) :
    ∀ S ∈ sets, S.Pairwise (fun a b : variant_t => a.chr = b.chr) := by
  unfold group_variants at h
  split at h
  · rw [first_outer_eq last var_list _ 0 [] (Nat.zero_le _) (by omega)] at h
    simp only [List.drop_zero, List.nil_append, Option.some.injEq] at h
    subst h
    exact greedy_same_chr _ (fun f p w he hfp => by
      have := ((ext_first_eq last f p w).mp he).1
      exact hfp.symm.trans this) var_list
  · split at h
    · rw [any_outer_eq last var_list _ 0 [] (Nat.zero_le _) (by omega)] at h
      simp only [List.drop_zero, List.nil_append, Option.some.injEq] at h
      subst h
      exact greedy_same_chr _ (fun f p w he _ => ((ext_any_eq last f p w).mp he).1) var_list
    · by_cases hd : 0 < distlim
      · rw [dist_outer_eq distlim maxdist hd var_list _ 0 [] (Nat.zero_le _) (by omega)] at h
        simp only [List.drop_zero, List.nil_append, Option.some.injEq] at h
        subst h
        refine greedy_same_chr _ (fun f p w he _ => ?_) var_list
        have hn : new_set_rule distlim maxdist f p w = false := by simpa using he
        by_contra hne
        have := (new_set_rule_eq distlim maxdist f p w).mpr (Or.inl (fun e => hne e.symm))
        rw [hn] at this
        exact Bool.noConfusion this
      · rw [dist_outer_off distlim maxdist (by omega) var_list _ 0 [] (Nat.zero_le _)
          (by omega)] at h
        simp only [List.drop_zero, List.nil_append, Option.some.injEq] at h
        subst h
        intro S hS
        simp only [List.mem_map] at hS
        obtain ⟨v, _, rfl⟩ := hS
        exact List.pairwise_singleton _ _

theorem dup_loop_step (fuel j : Nat) (cs : List variant_t) (added : List (List variant_t))
    (flag : Bool) (curr next : variant_t) (hc : cs[j]? = some curr)
    (hn : cs[j + 1]? = some next) (hp : curr.pos = next.pos) :
    dup_loop (fuel + 1) j cs added flag
      = dup_loop fuel (j + 1) (cs.eraseIdx j) (added ++ [cs.eraseIdx (j + 1)]) true ∧
    (cs.eraseIdx j).length + 1 = cs.length ∧ (cs.eraseIdx (j + 1)).length + 1 = cs.length := by
  have hj1 : j + 1 < cs.length := (List.getElem?_eq_some_iff.1 hn).1
  have hj : j < cs.length := by omega
  refine ⟨?_, by rw [List.length_eraseIdx_of_lt hj]; omega,
    by rw [List.length_eraseIdx_of_lt hj1]; omega⟩
  rw [dup_loop]
  rw [if_neg (by omega), if_pos (by omega), hc, hn]
  simp only [hp, if_true, vector_dup, vector_del, if_pos hj, if_pos hj1, vector_add]

/-- C28. The split pass ends. For every list of non-empty variant sets the loop
`while (flag_add)` returns with every budget above the sum of `3 ^ len` over the sets
(so after finitely many rounds, each a finite loop over the sets), no access is
outside a vector, and in every run that returns no set is empty, after each round and
at the end. A duplication at index `j` of a set of `n` variants leaves the set without
its entry `j` and adds the set without the entry `j + 1`: two sets of `n - 1`
variants. -/
theorem split_pass_terminates (vs : List (List variant_t)) (hne : ∀ S ∈ vs, S ≠ []) :
    (∀ fuel, total_weight vs < fuel →
      ∃ out, split_pass fuel vs = .ok out ∧ ∀ S ∈ out, S ≠ []) ∧
    (∀ fuel out, split_pass fuel vs = .ok out → ∀ S ∈ out, S ≠ []) ∧
    (∀ fuel i flag r, set_loop fuel i vs flag = .ok r → ∀ S ∈ r.1, S ≠ []) ∧
    (∀ (fuel j : Nat) (cs : List variant_t) (added : List (List variant_t)) (flag : Bool)
        (curr next : variant_t),
      cs[j]? = some curr → cs[j + 1]? = some next → curr.pos = next.pos →
      dup_loop (fuel + 1) j cs added flag
        = dup_loop fuel (j + 1) (cs.eraseIdx j) (added ++ [cs.eraseIdx (j + 1)]) true ∧
      (cs.eraseIdx j).length + 1 = cs.length ∧
      (cs.eraseIdx (j + 1)).length + 1 = cs.length) := by
  refine ⟨?_, ?_, ?_, ?_⟩
  · intro fuel hf
    exact split_pass_ok fuel vs hne hf
  · intro fuel out h
    exact (split_pass_keep fuel vs out h hne).1
  · intro fuel i flag r h
    exact (set_loop_keep fuel i vs flag r h hne).1
  · intro fuel j cs added flag curr next hc hn hp
    exact dup_loop_step fuel j cs added flag curr next hc hn hp

/-- Instance of C28: the set of three variants, two of them at position 5, is split
into two sets of two variants. -/
theorem split_pass_terminates_witness :
    (∀ S ∈ [[(⟨"chr1".toList, 5, "A".toList, "G".toList⟩ : variant_t),
              ⟨"chr1".toList, 5, "A".toList, "T".toList⟩,
              ⟨"chr1".toList, 7, "C".toList, "T".toList⟩]], S ≠ []) ∧
    (∃ out, split_pass 28
        [[⟨"chr1".toList, 5, "A".toList, "G".toList⟩,
          ⟨"chr1".toList, 5, "A".toList, "T".toList⟩,
          ⟨"chr1".toList, 7, "C".toList, "T".toList⟩]] = .ok out ∧ ∀ S ∈ out, S ≠ []) ∧
    split_pass 5
        [[⟨"chr1".toList, 5, "A".toList, "G".toList⟩,
          ⟨"chr1".toList, 5, "A".toList, "T".toList⟩,
          ⟨"chr1".toList, 7, "C".toList, "T".toList⟩]]
      = .ok [[⟨"chr1".toList, 5, "A".toList, "T".toList⟩,
              ⟨"chr1".toList, 7, "C".toList, "T".toList⟩],
             [⟨"chr1".toList, 5, "A".toList, "G".toList⟩,
              ⟨"chr1".toList, 7, "C".toList, "T".toList⟩]] :=
  ⟨by simp,
   (split_pass_terminates
      [[⟨"chr1".toList, 5, "A".toList, "G".toList⟩,
        ⟨"chr1".toList, 5, "A".toList, "T".toList⟩,
        ⟨"chr1".toList, 7, "C".toList, "T".toList⟩]] (by simp)).1 28 (by decide),
   by decide⟩

/-- C29. Grouping conserves the variants, in every group mode and for every function
`bam_fetch_last`. Before the split pass the sets, put end to end in order, are the
input list, and no set is empty. The split pass returns, and in every run that
returns: every set is non-empty; the variants of a set share one chromosome; every
variant of the input is in at least one set, and every variant of a set is a variant
of the input; and when the input is sorted (neighbours on one chromosome in ascending
position order) the variants of every set are in ascending position order. -/
theorem grouping_conserves_variants (sharedr distlim maxdist : Int)
    (last : List Char → Int → Int) (var_list : List variant_t) :
    (∃ sets, group_variants sharedr distlim maxdist last var_list = some sets ∧
      sets.flatten = var_list ∧ ∀ S ∈ sets, S ≠ []) ∧
    (∃ fuel out, process_sets sharedr distlim maxdist last fuel var_list = .ok out) ∧
    (∀ fuel out, process_sets sharedr distlim maxdist last fuel var_list = .ok out →
      (∀ S ∈ out, S ≠ []) ∧
      (∀ S ∈ out, S.Pairwise (fun a b : variant_t => a.chr = b.chr)) ∧
      (∀ v ∈ var_list, ∃ S ∈ out, v ∈ S) ∧
      (∀ S ∈ out, ∀ v ∈ S, v ∈ var_list) ∧
      (sorted_input var_list → ∀ S ∈ out, ordered S)) := by
  obtain ⟨sets, hg, hflat, hne⟩ := group_variants_ok sharedr distlim maxdist last var_list
  refine ⟨⟨sets, hg, hflat, hne⟩, ?_, ?_⟩
  · obtain ⟨fuel, out, h, _⟩ := process_sets_ok sharedr distlim maxdist last var_list
    exact ⟨fuel, out, h⟩
  · intro fuel out h
    unfold process_sets at h
    rw [hg] at h
    simp only at h
    obtain ⟨k1, k2⟩ := split_pass_keep fuel sets out h hne
    have horigin := split_pass_origin fuel sets out h
    refine ⟨k1, ?_, ?_, ?_, ?_⟩
    · intro S hS
      obtain ⟨S0, hS0, hsub⟩ := horigin S hS
      exact (group_variants_same_chr sharedr distlim maxdist last var_list sets hg S0
        hS0).sublist hsub
    · intro v hv
      rw [← hflat] at hv
      obtain ⟨S0, hS0, hv0⟩ := List.mem_flatten.1 hv
      exact k2 S0 hS0 v hv0
    · intro S hS v hv
      obtain ⟨S0, hS0, hsub⟩ := horigin S hS
      rw [← hflat]
      exact List.mem_flatten.2 ⟨S0, hS0, hsub.subset hv⟩
    · intro hs S hS
      obtain ⟨S0, hS0, hsub⟩ := horigin S hS
      exact (group_variants_ordered sharedr distlim maxdist last var_list sets hs hg S0
        hS0).sublist hsub

/-! ## The bound of the heap loop of `evaluate` -/

theorem heap_loop_break {R : Type} [Double R] (e : environment R) (o : options R)
    (k : kernels R) (var_data : List variant_t) (refseq : List Char) (refseq_length : Int)
    (fuel : Nat) (h h1 : List (R × Nat)) (stats : List (stats_t R)) (reads : List (read_t R))
    (si : Nat) (hpop : e.heap_pop h = some (si, h1))
    (htest : ((stats.length : Int) - (var_data.length : Int) - 1) % 2 ^ 64
      ≥ e.maxh % 2 ^ 64) :
    heap_loop e o k var_data refseq refseq_length (fuel + 1) h stats reads
      = .ok (stats, reads) := by
  rw [heap_loop, hpop]
  simp only
  rw [if_pos htest]

theorem derive_loop_length {R : Type} [Double R] (e : environment R) (o : options R)
    (k : kernels R) (var_data : List variant_t) (refseq : List Char) (refseq_length : Int) :
    ∀ (combos : List (List Nat)) (h : List (R × Nat)) (stats : List (stats_t R))
      (reads : List (read_t R)) (r : List (R × Nat) × List (stats_t R) × List (read_t R)),
      derive_loop e o k var_data refseq refseq_length combos h stats reads = .ok r →
      r.2.1.length = stats.length + combos.length ∧
      r.2.1.take stats.length = stats := by
  intro combos
  induction combos with
  | nil =>
    intro h stats reads r hr
    simp only [derive_loop, Except.ok.injEq] at hr
    subst hr
    simp
  | cons combo rest ih =>
    intro h stats reads r hr
    rw [derive_loop] at hr
    split at hr
    · cases hr
    · rename_i s reads1 hs
      obtain ⟨h1, h2⟩ := ih _ _ _ _ hr
      simp only [vector_add, List.length_append, List.length_singleton] at h1 h2
      refine ⟨by simp only [List.length_cons]; omega, ?_⟩
      have e1 := congrArg (List.take stats.length) h2
      rw [List.take_take, Nat.min_eq_left (by omega)] at e1
      rw [e1]
      simp

theorem heap_loop_derive {R : Type} [Double R] (e : environment R) (o : options R)
    (k : kernels R) (var_data : List variant_t) (refseq : List Char) (refseq_length : Int)
    (fuel : Nat) (h h1 h2 : List (R × Nat)) (stats stats2 : List (stats_t R))
    (reads reads2 : List (read_t R)) (si : Nat) (s : stats_t R)
    (hpop : e.heap_pop h = some (si, h1)) (hs : stats[si]? = some s)
    (htest : ¬ ((stats.length : Int) - (var_data.length : Int) - 1) % 2 ^ 64
      ≥ e.maxh % 2 ^ 64)
    (hd : derive_loop e o k var_data refseq refseq_length
      (e.derive_combo s.combo var_data.length) h1 stats reads = .ok (h2, stats2, reads2)) :
    heap_loop e o k var_data refseq refseq_length (fuel + 1) h stats reads
      = heap_loop e o k var_data refseq refseq_length fuel h2 stats2 reads2 := by
  rw [heap_loop, hpop]
  simp only
  rw [if_neg htest, hs]
  simp only [hd]

/-- C27. The test that ends the heap loop of `evaluate` is
`(int)stats->len - var_set->len - 1 >= maxh`, computed in `size_t`: when an entry is
popped the loop ends if the number of scored combinations beyond `k + 1` has reached
`maxh` (or if fewer than `k + 1` combinations were scored, where the difference wraps
around), and otherwise all combinations derived from the entry are scored and added.
The number of scored combinations is not bounded by `max(maxh, initial)`: for a set of
2 variants with `maxh = 1`, `powerset` returning `[0, 1]`, `[0]`, `[1]` and
`derive_combo` adding one variant, 3 combinations are scored first and the heap loop
scores a fourth. -/
theorem heap_loop_exceeds_maxh :
    (∀ (e : environment Float) (o : options Float) (k : kernels Float)
        (var_data : List variant_t) (refseq : List Char) (refseq_length : Int) (fuel : Nat)
        (h h1 : List (Float × Nat)) (stats : List (stats_t Float))
        (reads : List (read_t Float)) (si : Nat),
      e.heap_pop h = some (si, h1) → 0 ≤ e.maxh → e.maxh < 2 ^ 31 →
      stats.length < 2 ^ 63 → var_data.length < 2 ^ 63 →
      (((stats.length : Int) - (var_data.length + 1 : Nat) ≥ e.maxh ∨
          stats.length < var_data.length + 1) →
        heap_loop e o k var_data refseq refseq_length (fuel + 1) h stats reads
          = .ok (stats, reads)) ∧
      (∀ s h2 stats2 reads2, stats[si]? = some s → var_data.length + 1 ≤ stats.length →
        (stats.length : Int) - (var_data.length + 1 : Nat) < e.maxh →
        derive_loop e o k var_data refseq refseq_length
          (e.derive_combo s.combo var_data.length) h1 stats reads
          = .ok (h2, stats2, reads2) →
        heap_loop e o k var_data refseq refseq_length (fuel + 1) h stats reads
          = heap_loop e o k var_data refseq refseq_length fuel h2 stats2 reads2 ∧
        stats2.length = stats.length + (e.derive_combo s.combo var_data.length).length)) ∧
    (∃ stats0 reads0 stats reads,
      score_loop sample_options sample_kernels
        [⟨"chr1".toList, 3, "G".toList, "A".toList⟩, ⟨"chr1".toList, 5, "C".toList, "T".toList⟩]
        "ACGTACGTAC".toList 10 ((search_environment 1 : environment Float).powerset 2 1) []
        [sample_read 0] = .ok (stats0, reads0) ∧
      stats0.length = 3 ∧
      heap_loop (search_environment 1) sample_options sample_kernels
        [⟨"chr1".toList, 3, "G".toList, "A".toList⟩, ⟨"chr1".toList, 5, "C".toList, "T".toList⟩]
        "ACGTACGTAC".toList 10 10 (heap_seed (search_environment 1) 1 (stats0.drop 1) [])
        stats0 reads0 = .ok (stats, reads) ∧
      stats.length = 4 ∧ stats.map (fun s => s.combo) = [[0, 1], [0], [1], [0, 1]] ∧
      (search_environment 1 : environment Float).maxh = 1 ∧
      (stats.length : Int) > max (search_environment 1 : environment Float).maxh
        (stats0.length : Int)) := by
  refine ⟨?_, ⟨_, _, _, _, rfl, rfl, rfl, rfl, rfl, rfl, by decide⟩⟩
  intro e o k var_data refseq refseq_length fuel h h1 stats reads si hpop hm hm2 hlen hvar
  have hl : (stats.length : Int) < 2 ^ 63 := by exact_mod_cast hlen
  have hv : (var_data.length : Int) < 2 ^ 63 := by exact_mod_cast hvar
  constructor
  · intro hc
    apply heap_loop_break e o k var_data refseq refseq_length fuel h h1 stats reads si hpop
    rcases hc with hc | hc
    · push_cast at hc
      omega
    · have hc3 : (stats.length : Int) < (var_data.length : Int) + 1 := by exact_mod_cast hc
      omega
  · intro s h2 stats2 reads2 hs hge hlt hd
    have hge2 : (var_data.length : Int) + 1 ≤ (stats.length : Int) := by exact_mod_cast hge
    push_cast at hlt
    refine ⟨heap_loop_derive e o k var_data refseq refseq_length fuel h h1 h2 stats stats2
      reads reads2 si s hpop hs (by omega) hd, ?_⟩
    exact (derive_loop_length e o k var_data refseq refseq_length _ _ _ _ _ hd).1

/-! ## The assignment of a read to its best combination -/

theorem read_step_read {R : Type} [Double R] (o : options R) (k : kernels R)
    (var_data : List variant_t) (refseq : List Char) (refseq_length : Int)
    (has_indel : Bool) (altseq : List Char) (altseq_length : Int) (seti : Nat)
    (stat stat1 : stats_t R) (read read1 : read_t R)
    (h : read_step o k var_data refseq refseq_length has_indel altseq altseq_length seti
      stat read = .ok (stat1, read1)) :
    ∃ first last, combo_first var_data stat.combo = some first ∧
      combo_last var_data stat.combo = some last ∧
      stat1.combo = stat.combo ∧
      read1 = if not_spanning read first last then read
        else track_read o k stat.combo var_data refseq refseq_length has_indel altseq
          altseq_length seti read := by
  unfold read_step at h
  split at h
  · rename_i c0 c1 h0 h1
    split at h
    · rename_i first last hf hl
      refine ⟨first, last, by simp [combo_first, h0, hf], by simp [combo_last, h1, hl], ?_⟩
      by_cases hns : not_spanning read first last = true
      · rw [if_pos hns] at h
        cases h
        exact ⟨rfl, by rw [if_pos hns]⟩
      · rw [if_neg hns] at h
        rw [score_read_eq] at h
        simp only [Except.ok.injEq, Prod.mk.injEq] at h
        obtain ⟨hs, hr⟩ := h
        subst hs
        rw [if_neg hns]
        exact ⟨rfl, hr.symm⟩
    · cases h
  · cases h

theorem read_loop_reads {R : Type} [Double R] (o : options R) (k : kernels R)
    (var_data : List variant_t) (refseq : List Char) (refseq_length : Int)
    (has_indel : Bool) (altseq : List Char) (altseq_length : Int) (seti : Nat) :
    ∀ (read_data : List (read_t R)) (stat stat1 : stats_t R) (reads1 : List (read_t R)),
      read_loop o k var_data refseq refseq_length has_indel altseq altseq_length seti
        stat read_data = .ok (stat1, reads1) →
      stat1.combo = stat.combo ∧
      (read_data = [] ∨ ∃ first last, combo_first var_data stat.combo = some first ∧
        combo_last var_data stat.combo = some last) ∧
      ∀ first last, combo_first var_data stat.combo = some first →
        combo_last var_data stat.combo = some last →
        reads1 = read_data.map (fun r => if not_spanning r first last then r
          else track_read o k stat.combo var_data refseq refseq_length has_indel altseq
            altseq_length seti r) := by
  intro read_data
  induction read_data with
  | nil =>
    intro stat stat1 reads1 h
    simp only [read_loop, Except.ok.injEq, Prod.mk.injEq] at h
    obtain ⟨h1, h2⟩ := h
    subst h1 h2
    simp
  | cons r rest ih =>
    intro stat stat1 reads1 h
    rw [read_loop] at h
    split at h
    · cases h
    · rename_i st1 r1 hstep
      split at h
      · cases h
      · rename_i st2 rest1 hrest
        cases h
        obtain ⟨f0, l0, hf0, hl0, hc, hr⟩ := read_step_read _ _ _ _ _ _ _ _ _ _ _ _ _ hstep
        obtain ⟨ic, _, irest⟩ := ih st1 stat1 rest1 hrest
        refine ⟨ic.trans hc, Or.inr ⟨f0, l0, hf0, hl0⟩, ?_⟩
        intro first last hf hl
        rw [hf0] at hf
        rw [hl0] at hl
        cases hf
        cases hl
        rw [hc] at irest
        rw [irest f0 l0 hf0 hl0, hr]
        rfl

theorem calc_likelihood_track {R : Type} [Double R] (o : options R) (k : kernels R)
    (stat : stats_t R) (var_data : List variant_t) (refseq : List Char)
    (refseq_length : Int) (read_data : List (read_t R)) (seti : Nat)
    (st1 : stats_t R) (reads1 : List (read_t R))
    (hrun : calc_likelihood o k stat var_data refseq refseq_length read_data seti
      = .ok (st1, reads1)) :
    st1.combo = stat.combo ∧ reads1.length = read_data.length ∧
    ∀ (p : Nat) (r : read_t R), read_data[p]? = some r →
      ∃ r1, reads1[p]? = some r1 ∧
        (combo_prgv o k var_data refseq refseq_length stat.combo r = none → r1 = r) ∧
        ∀ v, combo_prgv o k var_data refseq refseq_length stat.combo r = some v →
          ∃ u w, r1 = if o.verbose ∧ v > r.prgv then
            { r with index := seti, prgu := u, prgv := v, pout := w } else r := by
  obtain ⟨has_indel, altseq, altseq_length, st2, hi, ha, hloop, hst⟩ :=
    calc_likelihood_parts o k stat var_data refseq refseq_length read_data seti st1 reads1 hrun
  obtain ⟨hc, hex, hmap⟩ := read_loop_reads o k var_data refseq refseq_length has_indel altseq
    altseq_length seti read_data (reset_stats stat) st2 reads1 hloop
  have hcombo : (reset_stats stat).combo = stat.combo := rfl
  rw [hcombo] at hc hex hmap
  refine ⟨by rw [hst]; exact hc, ?_, ?_⟩
  · rcases hex with he | ⟨first, last, hf, hl⟩
    · subst he
      simp only [read_loop, Except.ok.injEq, Prod.mk.injEq] at hloop
      rw [← hloop.2]
    · rw [hmap first last hf hl, List.length_map]
  · intro p r hp
    rcases hex with he | ⟨first, last, hf, hl⟩
    · subst he
      simp at hp
    · rw [hmap first last hf hl, List.getElem?_map, hp]
      simp only [Option.map_some']
      refine ⟨_, rfl, ?_, ?_⟩
      · intro hnone
        simp only [combo_prgv, hi, ha, hf, hl] at hnone
        by_cases hns : not_spanning r first last = true
        · rw [if_pos hns]
        · rw [if_neg hns] at hnone
          cases hnone
      · intro v hv
        simp only [combo_prgv, hi, ha, hf, hl] at hv
        by_cases hns : not_spanning r first last = true
        · rw [if_pos hns] at hv
          cases hv
        · rw [if_neg hns] at hv
          simp only [Option.some.injEq] at hv
          rw [if_neg hns]
          refine ⟨(mixture_scores o k stat.combo var_data refseq refseq_length has_indel altseq
            altseq_length r).2.1, (mixture_scores o k stat.combo var_data refseq refseq_length
            has_indel altseq altseq_length r).1, ?_⟩
          rw [← hv]
          rfl

theorem xa_loop_same {R : Type} [Double R] (k : kernels R) (r : read_t R) (i : Nat)
    (u v p : R) (m : List R) (e : R) :
    ∀ (loci : List (List Char × Int)) (acc : R × R × R),
      xa_loop k { r with index := i, prgu := u, prgv := v, pout := p } m e loci acc
        = xa_loop k r m e loci acc := by
  intro loci
  induction loci with
  | nil => intro acc; rfl
  | cons l rest ih =>
    intro acc
    obtain ⟨xa_chr, xa_pos⟩ := l
    obtain ⟨a1, a2, a3⟩ := acc
    simp only [xa_loop, ih]

theorem mixture_scores_same {R : Type} [Double R] (o : options R) (k : kernels R)
    (hk : reads_only_data k) (combo : List Nat) (var_data : List variant_t)
    (refseq : List Char) (refseq_length : Int) (has_indel : Bool) (altseq : List Char)
    (altseq_length : Int) (r : read_t R) (i : Nat) (u v p : R) :
    mixture_scores o k combo var_data refseq refseq_length has_indel altseq altseq_length
        { r with index := i, prgu := u, prgv := v, pout := p }
      = mixture_scores o k combo var_data refseq refseq_length has_indel altseq
          altseq_length r := by
  have hm : read_matrix o k { r with index := i, prgu := u, prgv := v, pout := p }
      = read_matrix o k r := hk r i u v p _ _ _
  have he : elsewhere_score o k { r with index := i, prgu := u, prgv := v, pout := p }
      = elsewhere_score o k r := rfl
  simp only [mixture_scores, multimap_scores, kernel_scores, hm, he, xa_loop_same]

theorem combo_prgv_same {R : Type} [Double R] (o : options R) (k : kernels R)
    (hk : reads_only_data k) (var_data : List variant_t) (refseq : List Char)
    (refseq_length : Int) (combo : List Nat) (r0 r : read_t R) (hs : same_read r0 r) :
    combo_prgv o k var_data refseq refseq_length combo r
      = combo_prgv o k var_data refseq refseq_length combo r0 := by
  unfold same_read at hs
  rw [hs]
  simp only [combo_prgv, mixture_scores_same o k hk]
  rfl

theorem same_read_refl {R : Type} (r : read_t R) : same_read r r := rfl

theorem same_read_set {R : Type} (r0 r : read_t R) (i : Nat) (u v p : R)
    (hs : same_read r0 r) :
    same_read r0 { r with index := i, prgu := u, prgv := v, pout := p } := by
  unfold same_read at hs ⊢
  rw [hs]

theorem best_tracked_none (vals : List (Option ℝ)) (i0 : Nat) (p0 : ℝ) (i : Nat) (p : ℝ)
    (h : best_tracked vals i0 p0 i p) : best_tracked (vals ++ [none]) i0 p0 i p := by
  obtain ⟨h1, h2, h3⟩ := h
  have hold : ∀ (j : Nat) (v : ℝ), (vals ++ [none])[j]? = some (some v) →
      vals[j]? = some (some v) := by
    intro j v hj
    by_cases hlt : j < vals.length
    · rwa [List.getElem?_append_left hlt] at hj
    · rw [List.getElem?_append_right (not_lt.1 hlt)] at hj
      by_cases h0 : j - vals.length = 0
      · rw [h0] at hj
        simp at hj
      · have : ([none] : List (Option ℝ))[j - vals.length]? = none := by
          apply List.getElem?_eq_none
          simp only [List.length_singleton]
          omega
        rw [this] at hj
        cases hj
  refine ⟨fun j v hj => h1 j v (hold j v hj), h2, ?_⟩
  rcases h3 with h3 | ⟨h3, h4, h5⟩
  · exact Or.inl h3
  · refine Or.inr ⟨?_, h4, fun j hj v hv => h5 j hj v (hold j v hv)⟩
    have hlt : i < vals.length := by
      by_contra hc
      rw [List.getElem?_eq_none (not_lt.1 hc)] at h3
      cases h3
    rw [List.getElem?_append_left hlt]
    exact h3

theorem best_tracked_le (vals : List (Option ℝ)) (i0 : Nat) (p0 : ℝ) (i : Nat) (p v : ℝ)
    (h : best_tracked vals i0 p0 i p) (hv : v ≤ p) :
    best_tracked (vals ++ [some v]) i0 p0 i p := by
  obtain ⟨h1, h2, h3⟩ := h
  have hold : ∀ (j : Nat) (w : ℝ), (vals ++ [some v])[j]? = some (some w) →
      vals[j]? = some (some w) ∨ w = v := by
    intro j w hj
    by_cases hlt : j < vals.length
    · rw [List.getElem?_append_left hlt] at hj
      exact Or.inl hj
    · rw [List.getElem?_append_right (not_lt.1 hlt)] at hj
      by_cases h0 : j - vals.length = 0
      · rw [h0] at hj
        simp at hj
        exact Or.inr hj.symm
      · have : ([some v] : List (Option ℝ))[j - vals.length]? = none := by
          apply List.getElem?_eq_none
          simp only [List.length_singleton]
          omega
        rw [this] at hj
        cases hj
  refine ⟨?_, h2, ?_⟩
  · intro j w hj
    rcases hold j w hj with hw | hw
    · exact h1 j w hw
    · rw [hw]
      exact hv
  · rcases h3 with h3 | ⟨h3, h4, h5⟩
    · exact Or.inl h3
    · have hlt : i < vals.length := by
        by_contra hc
        rw [List.getElem?_eq_none (not_lt.1 hc)] at h3
        cases h3
      refine Or.inr ⟨?_, h4, ?_⟩
      · rw [List.getElem?_append_left hlt]
        exact h3
      · intro j hj w hw
        rw [List.getElem?_append_left (lt_trans hj hlt)] at hw
        exact h5 j hj w hw

theorem best_tracked_gt (vals : List (Option ℝ)) (i0 : Nat) (p0 : ℝ) (i : Nat) (p v : ℝ)
    (h : best_tracked vals i0 p0 i p) (hv : p < v) :
    best_tracked (vals ++ [some v]) i0 p0 vals.length v := by
  obtain ⟨h1, h2, _⟩ := h
  refine ⟨?_, le_of_lt (lt_of_le_of_lt h2 hv), Or.inr ⟨?_, lt_of_le_of_lt h2 hv, ?_⟩⟩
  · intro j w hj
    by_cases hlt : j < vals.length
    · rw [List.getElem?_append_left hlt] at hj
      exact le_of_lt (lt_of_le_of_lt (h1 j w hj) hv)
    · rw [List.getElem?_append_right (not_lt.1 hlt)] at hj
      by_cases h0 : j - vals.length = 0
      · rw [h0] at hj
        simp at hj
        rw [hj]
      · have : ([some v] : List (Option ℝ))[j - vals.length]? = none := by
          apply List.getElem?_eq_none
          simp only [List.length_singleton]
          omega
        rw [this] at hj
        cases hj
  · rw [List.getElem?_append_right (le_refl _)]
    simp
  · intro j hj w hw
    rw [List.getElem?_append_left hj] at hw
    exact lt_of_le_of_lt (h1 j w hw) hv

theorem tracked_state_start (o : options ℝ) (k : kernels ℝ) (var_data : List variant_t)
    (refseq : List Char) (refseq_length : Int) (reads0 : List (read_t ℝ)) :
    tracked_state o k var_data refseq refseq_length reads0 [] reads0 := by
  refine ⟨rfl, ?_⟩
  intro p r0 r h0 h1
  rw [h0] at h1
  cases h1
  refine ⟨same_read_refl r0, ?_, le_refl _, Or.inl ⟨rfl, rfl⟩⟩
  intro j v hj
  simp at hj

theorem score_combo_tracked (o : options ℝ) (k : kernels ℝ) (var_data : List variant_t)
    (refseq : List Char) (refseq_length : Int) (reads0 : List (read_t ℝ))
    (stats : List (stats_t ℝ)) (reads : List (read_t ℝ)) (combo : List Nat)
    (s : stats_t ℝ) (reads1 : List (read_t ℝ))
    (hv : o.verbose = true) (hk : reads_only_data k)
    (hinv : tracked_state o k var_data refseq refseq_length reads0 stats reads)
    (h : score_combo o k var_data refseq refseq_length stats reads combo = .ok (s, reads1)) :
    s.combo = combo ∧
    tracked_state o k var_data refseq refseq_length reads0 (vector_add stats s) reads1 := by
  unfold score_combo at h
  split at h
  · cases h
  · rename_i r hrun
    cases h
    obtain ⟨hc, hlen, htrack⟩ := calc_likelihood_track o k (stats_create combo) var_data
      refseq refseq_length reads stats.length s reads1 hrun
    have hcombo : s.combo = combo := hc
    obtain ⟨hl0, hall⟩ := hinv
    refine ⟨hcombo, hlen.trans hl0, ?_⟩
    intro p r0 r1 h0 h1
    have hp : p < reads.length := by
      rw [hl0]
      by_contra hc2
      rw [List.getElem?_eq_none (not_lt.1 hc2)] at h0
      cases h0
    obtain ⟨hs, hb⟩ := hall p r0 reads[p] h0 (List.getElem?_eq_getElem hp)
    obtain ⟨r1b, hr1, hnone, hsome⟩ := htrack p reads[p] (List.getElem?_eq_getElem hp)
    rw [h1] at hr1
    cases hr1
    have hvals : (vector_add stats s).map
        (fun s => combo_prgv o k var_data refseq refseq_length s.combo r0)
        = stats.map (fun s => combo_prgv o k var_data refseq refseq_length s.combo r0)
          ++ [combo_prgv o k var_data refseq refseq_length combo reads[p]] := by
      rw [vector_add, List.map_append, List.map_singleton, hcombo,
        combo_prgv_same o k hk var_data refseq refseq_length combo r0 reads[p] hs]
    rw [hvals]
    have hcs : (stats_create combo : stats_t ℝ).combo = combo := rfl
    rw [hcs] at hnone hsome
    cases hval : combo_prgv o k var_data refseq refseq_length combo reads[p] with
    | none =>
      rw [hnone hval]
      exact ⟨hs, best_tracked_none _ _ _ _ _ hb⟩
    | some v =>
      obtain ⟨u, w, hr1⟩ := hsome v hval
      by_cases hgt : v > reads[p].prgv
      · rw [if_pos ⟨hv, hgt⟩] at hr1
        rw [hr1]
        refine ⟨same_read_set r0 reads[p] _ _ _ _ hs, ?_⟩
        have := best_tracked_gt _ _ _ _ _ v hb hgt
        rw [List.length_map] at this
        exact this
      · rw [if_neg (fun hc2 => hgt hc2.2)] at hr1
        rw [hr1]
        exact ⟨hs, best_tracked_le _ _ _ _ _ v hb (not_lt.1 hgt)⟩

theorem score_loop_tracked (o : options ℝ) (k : kernels ℝ) (var_data : List variant_t)
    (refseq : List Char) (refseq_length : Int) (reads0 : List (read_t ℝ))
    (hv : o.verbose = true) (hk : reads_only_data k) :
    ∀ (combos : List (List Nat)) (stats : List (stats_t ℝ)) (reads : List (read_t ℝ))
      (stats1 : List (stats_t ℝ)) (reads1 : List (read_t ℝ)),
      tracked_state o k var_data refseq refseq_length reads0 stats reads →
      score_loop o k var_data refseq refseq_length combos stats reads = .ok (stats1, reads1) →
      tracked_state o k var_data refseq refseq_length reads0 stats1 reads1 ∧
      stats1.map (fun s => s.combo) = stats.map (fun s => s.combo) ++ combos := by
  intro combos
  induction combos with
  | nil =>
    intro stats reads stats1 reads1 hinv h
    simp only [score_loop, Except.ok.injEq, Prod.mk.injEq] at h
    obtain ⟨h1, h2⟩ := h
    subst h1 h2
    exact ⟨hinv, by simp⟩
  | cons combo rest ih =>
    intro stats reads stats1 reads1 hinv h
    rw [score_loop] at h
    split at h
    · cases h
    · rename_i s reads2 hs
      obtain ⟨hc, hinv2⟩ := score_combo_tracked o k var_data refseq refseq_length reads0 stats
        reads combo s reads2 hv hk hinv hs
      obtain ⟨h3, h4⟩ := ih _ _ _ _ hinv2 h
      refine ⟨h3, ?_⟩
      rw [h4, vector_add, List.map_append, List.map_singleton, hc]
      simp

theorem derive_loop_tracked (e : environment ℝ) (o : options ℝ) (k : kernels ℝ)
    (var_data : List variant_t) (refseq : List Char) (refseq_length : Int)
    (reads0 : List (read_t ℝ)) (hv : o.verbose = true) (hk : reads_only_data k) :
    ∀ (combos : List (List Nat)) (h : List (ℝ × Nat)) (stats : List (stats_t ℝ))
      (reads : List (read_t ℝ)) (h1 : List (ℝ × Nat)) (stats1 : List (stats_t ℝ))
      (reads1 : List (read_t ℝ)),
      tracked_state o k var_data refseq refseq_length reads0 stats reads →
      derive_loop e o k var_data refseq refseq_length combos h stats reads
        = .ok (h1, stats1, reads1) →
      tracked_state o k var_data refseq refseq_length reads0 stats1 reads1 := by
  intro combos
  induction combos with
  | nil =>
    intro h stats reads h1 stats1 reads1 hinv hd
    simp only [derive_loop, Except.ok.injEq, Prod.mk.injEq] at hd
    obtain ⟨_, h2, h3⟩ := hd
    subst h2 h3
    exact hinv
  | cons combo rest ih =>
    intro h stats reads h1 stats1 reads1 hinv hd
    rw [derive_loop] at hd
    split at hd
    · cases hd
    · rename_i s reads2 hs
      obtain ⟨_, hinv2⟩ := score_combo_tracked o k var_data refseq refseq_length reads0 stats
        reads combo s reads2 hv hk hinv hs
      exact ih _ _ _ _ _ _ hinv2 hd

theorem heap_loop_tracked (e : environment ℝ) (o : options ℝ) (k : kernels ℝ)
    (var_data : List variant_t) (refseq : List Char) (refseq_length : Int)
    (reads0 : List (read_t ℝ)) (hv : o.verbose = true) (hk : reads_only_data k) :
    ∀ (fuel : Nat) (h : List (ℝ × Nat)) (stats : List (stats_t ℝ))
      (reads : List (read_t ℝ)) (stats1 : List (stats_t ℝ)) (reads1 : List (read_t ℝ)),
      tracked_state o k var_data refseq refseq_length reads0 stats reads →
      heap_loop e o k var_data refseq refseq_length fuel h stats reads
        = .ok (stats1, reads1) →
      tracked_state o k var_data refseq refseq_length reads0 stats1 reads1 := by
  intro fuel
  induction fuel with
  | zero =>
    intro h stats reads stats1 reads1 _ hl
    simp only [heap_loop] at hl
    cases hl
  | succ n ih =>
    intro h stats reads stats1 reads1 hinv hl
    rw [heap_loop] at hl
    split at hl
    · cases hl
      exact hinv
    · split at hl
      · cases hl
        exact hinv
      · split at hl
        · cases hl
        · split at hl
          · cases hl
          · rename_i h2 stats2 reads2 hd
            exact ih _ _ _ _ _ (derive_loop_tracked e o k var_data refseq refseq_length reads0
              hv hk _ _ _ _ _ _ _ hinv hd) hl

theorem score_combo_untracked {R : Type} [Double R] (o : options R) (k : kernels R)
    (var_data : List variant_t) (refseq : List Char) (refseq_length : Int)
    (stats : List (stats_t R)) (reads : List (read_t R)) (combo : List Nat)
    (s : stats_t R) (reads1 : List (read_t R)) (hv : o.verbose = false)
    (h : score_combo o k var_data refseq refseq_length stats reads combo = .ok (s, reads1)) :
    s.combo = combo ∧ reads1 = reads := by
  unfold score_combo at h
  split at h
  · cases h
  · rename_i r hrun
    cases h
    obtain ⟨hc, hlen, htrack⟩ := calc_likelihood_track o k (stats_create combo) var_data
      refseq refseq_length reads stats.length s reads1 hrun
    refine ⟨hc, ?_⟩
    apply List.ext_getElem? 
    intro p
    by_cases hp : p < reads.length
    · obtain ⟨r1, hr1, hnone, hsome⟩ := htrack p reads[p] (List.getElem?_eq_getElem hp)
      rw [hr1, List.getElem?_eq_getElem hp]
      cases hval : combo_prgv o k var_data refseq refseq_length
          (stats_create combo : stats_t R).combo reads[p] with
      | none => rw [hnone hval]
      | some v =>
        obtain ⟨u, w, hr⟩ := hsome v hval
        rw [if_neg (by simp [hv])] at hr
        rw [hr]
    · rw [List.getElem?_eq_none (not_lt.1 hp), List.getElem?_eq_none (by omega)]

theorem score_loop_untracked {R : Type} [Double R] (o : options R) (k : kernels R)
    (var_data : List variant_t) (refseq : List Char) (refseq_length : Int)
    (hv : o.verbose = false) :
    ∀ (combos : List (List Nat)) (stats : List (stats_t R)) (reads : List (read_t R))
      (stats1 : List (stats_t R)) (reads1 : List (read_t R)),
      score_loop o k var_data refseq refseq_length combos stats reads = .ok (stats1, reads1) →
      reads1 = reads ∧
      stats1.map (fun s => s.combo) = stats.map (fun s => s.combo) ++ combos := by
  intro combos
  induction combos with
  | nil =>
    intro stats reads stats1 reads1 h
    simp only [score_loop, Except.ok.injEq, Prod.mk.injEq] at h
    obtain ⟨h1, h2⟩ := h
    subst h1 h2
    exact ⟨rfl, by simp⟩
  | cons combo rest ih =>
    intro stats reads stats1 reads1 h
    rw [score_loop] at h
    split at h
    · cases h
    · rename_i s reads2 hs
      obtain ⟨hc, hr⟩ := score_combo_untracked o k var_data refseq refseq_length stats
        reads combo s reads2 hv hs
      obtain ⟨h3, h4⟩ := ih _ _ _ _ h
      refine ⟨h3.trans hr, ?_⟩
      rw [h4, vector_add, List.map_append, List.map_singleton, hc]
      simp

theorem derive_loop_untracked {R : Type} [Double R] (e : environment R) (o : options R)
    (k : kernels R) (var_data : List variant_t) (refseq : List Char) (refseq_length : Int)
    (hv : o.verbose = false) :
    ∀ (combos : List (List Nat)) (h : List (R × Nat)) (stats : List (stats_t R))
      (reads : List (read_t R)) (h1 : List (R × Nat)) (stats1 : List (stats_t R))
      (reads1 : List (read_t R)),
      derive_loop e o k var_data refseq refseq_length combos h stats reads
        = .ok (h1, stats1, reads1) → reads1 = reads := by
  intro combos
  induction combos with
  | nil =>
    intro h stats reads h1 stats1 reads1 hd
    simp only [derive_loop, Except.ok.injEq, Prod.mk.injEq] at hd
    exact hd.2.2.symm
  | cons combo rest ih =>
    intro h stats reads h1 stats1 reads1 hd
    rw [derive_loop] at hd
    split at hd
    · cases hd
    · rename_i s reads2 hs
      obtain ⟨_, hr⟩ := score_combo_untracked o k var_data refseq refseq_length stats
        reads combo s reads2 hv hs
      exact (ih _ _ _ _ _ _ hd).trans hr

theorem heap_loop_untracked {R : Type} [Double R] (e : environment R) (o : options R)
    (k : kernels R) (var_data : List variant_t) (refseq : List Char) (refseq_length : Int)
    (hv : o.verbose = false) :
    ∀ (fuel : Nat) (h : List (R × Nat)) (stats : List (stats_t R))
      (reads : List (read_t R)) (stats1 : List (stats_t R)) (reads1 : List (read_t R)),
      heap_loop e o k var_data refseq refseq_length fuel h stats reads
        = .ok (stats1, reads1) → reads1 = reads := by
  intro fuel
  induction fuel with
  | zero =>
    intro h stats reads stats1 reads1 hl
    simp only [heap_loop] at hl
    cases hl
  | succ n ih =>
    intro h stats reads stats1 reads1 hl
    rw [heap_loop] at hl
    split at hl
    · cases hl
      rfl
    · split at hl
      · cases hl
        rfl
      · split at hl
        · cases hl
        · split at hl
          · cases hl
          · rename_i h2 stats2 reads2 hd
            exact (ih _ _ _ _ _ hl).trans (derive_loop_untracked e o k var_data refseq
              refseq_length hv _ _ _ _ _ _ _ hd)

theorem score_loop_ok {R : Type} [Double R] (o : options R) (k : kernels R)
    (var_data : List variant_t) (refseq : List Char) (refseq_length : Int) :
    ∀ (combos : List (List Nat)) (stats : List (stats_t R)) (reads : List (read_t R)),
      (∀ combo ∈ combos, combo ≠ [] ∧ (∀ ci ∈ combo, ci < var_data.length) ∧
        ∃ a, construct_altseq refseq refseq_length combo var_data = .ok a) →
      ∃ r, score_loop o k var_data refseq refseq_length combos stats reads = .ok r := by
  intro combos
  induction combos with
  | nil => intro stats reads _; exact ⟨_, rfl⟩
  | cons combo rest ih =>
    intro stats reads hall
    obtain ⟨hne, hidx, hcons⟩ := hall combo (List.mem_cons_self _ _)
    obtain ⟨⟨s, reads1⟩, hs⟩ := calc_likelihood_ok o k (stats_create combo) var_data refseq
      refseq_length reads stats.length hne hidx hcons
    obtain ⟨r, hr⟩ := ih (vector_add stats s) reads1
      (fun c hc => hall c (List.mem_cons_of_mem _ hc))
    refine ⟨r, ?_⟩
    rw [score_loop, score_combo, hs]
    exact hr

theorem counting_prgv_lt (o : options ℝ) (var_data : List variant_t) (refseq : List Char)
    (refseq_length : Int) (altseq : List Char) (altseq_length : Int) (r : read_t ℝ)
    (combo1 combo2 : List Nat) (hdp : o.dp = false) (hXA : r.multimapXA = none)
    (hNH : r.multimapNH = 1) (hlen : combo2.length < combo1.length) :
    (mixture_scores o counting_kernels combo1 var_data refseq refseq_length false altseq
        altseq_length r).2.2
      < (mixture_scores o counting_kernels combo2 var_data refseq refseq_length false altseq
        altseq_length r).2.2 := by
  simp only [mixture_scores, multimap_scores, kernel_scores, hXA, hNH, hdp, counting_kernels,
    double_of_int_real, log_add_exp_real]
  simp only [gt_iff_lt, lt_self_iff_false, if_false, Bool.false_eq_true]
  have h1 : ((combo2.length : Int) : ℝ) < ((combo1.length : Int) : ℝ) := by
    exact_mod_cast hlen
  have h2 : Real.exp (-((combo1.length : Int) : ℝ)) < Real.exp (-((combo2.length : Int) : ℝ)) :=
    Real.exp_lt_exp.2 (by linarith)
  apply Real.log_lt_log
  · positivity
  · linarith

theorem haplotype_list_one_read :
    haplotype_list 3 ([plain_read 0] : List (read_t ℝ)) = [0] := by
  simp only [haplotype_list, List.range, List.range.loop, List.filter, plain_read,
    List.countP_cons, List.countP_nil, List.length_singleton, double_of_int_real]
  norm_num

/-- C25, evaluated on the code. The best combination of a read is recorded in
`calc_likelihood` only under `if (verbose && prgv > read_data[readi]->prgv)`, while
`evaluate` counts `c[read_data[readi]->index]++` in every mode, under the comment
"based on best combination in each read". With the options `main` sets when no option
is given (`verbose` is 0), two variants `chr1:1 A>C` and `chr1:3 G>A` under one read,
the combinations `[0, 1]`, `[0]`, `[1]` and kernels for which each variant of a
combination costs one unit: the loop over the combinations returns the read as it was,
with `index = 0`, although the value `prgv` of the read under the combination at
index 1 is larger than under the combination at index 0; the heap loop does not
change the reads either, and the only haplotype found from the counts is the
combination 0. -/
theorem index_untracked_without_verbose :
    ∃ stats v0 v1,
      score_loop (main_options (1 / Real.log 10)) counting_kernels
        [⟨"chr1".toList, 1, "A".toList, "C".toList⟩, ⟨"chr1".toList, 3, "G".toList, "A".toList⟩]
        "ACGTACGTAC".toList 10 [[0, 1], [0], [1]] [] [plain_read 0]
        = .ok (stats, [plain_read 0]) ∧
      stats.map (fun s => s.combo) = [[0, 1], [0], [1]] ∧
      (main_options (1 / Real.log 10) : options ℝ).verbose = false ∧
      (plain_read 0 : read_t ℝ).index = 0 ∧
      combo_prgv (main_options (1 / Real.log 10)) counting_kernels
        [⟨"chr1".toList, 1, "A".toList, "C".toList⟩, ⟨"chr1".toList, 3, "G".toList, "A".toList⟩]
        "ACGTACGTAC".toList 10 [0, 1] (plain_read 0) = some v0 ∧
      combo_prgv (main_options (1 / Real.log 10)) counting_kernels
        [⟨"chr1".toList, 1, "A".toList, "C".toList⟩, ⟨"chr1".toList, 3, "G".toList, "A".toList⟩]
        "ACGTACGTAC".toList 10 [0] (plain_read 0) = some v1 ∧
      v0 < v1 ∧
      (∀ (e : environment ℝ) (fuel : Nat) (h : List (ℝ × Nat)) (stats1 : List (stats_t ℝ))
        (reads1 : List (read_t ℝ)),
        heap_loop e (main_options (1 / Real.log 10)) counting_kernels
          [⟨"chr1".toList, 1, "A".toList, "C".toList⟩,
            ⟨"chr1".toList, 3, "G".toList, "A".toList⟩]
          "ACGTACGTAC".toList 10 fuel h stats [plain_read 0] = .ok (stats1, reads1) →
        reads1 = [plain_read 0]) ∧
      haplotype_list stats.length ([plain_read 0] : List (read_t ℝ)) = [0] := by
  obtain ⟨⟨stats, reads⟩, hrun⟩ := score_loop_ok (main_options (1 / Real.log 10))
    (counting_kernels : kernels ℝ)
    [⟨"chr1".toList, 1, "A".toList, "C".toList⟩, ⟨"chr1".toList, 3, "G".toList, "A".toList⟩]
    "ACGTACGTAC".toList 10 [[0, 1], [0], [1]] [] [plain_read 0]
    (by
      intro combo hc
      simp only [List.mem_cons, List.mem_singleton, List.not_mem_nil, or_false] at hc
      rcases hc with hc | hc | hc <;> subst hc
      · exact ⟨by decide, by decide, _, rfl⟩
      · exact ⟨by decide, by decide, _, rfl⟩
      · exact ⟨by decide, by decide, _, rfl⟩)
  obtain ⟨hr, hc⟩ := score_loop_untracked (main_options (1 / Real.log 10))
    (counting_kernels : kernels ℝ) _ _ _ rfl _ _ _ _ _ hrun
  subst hr
  have hlen : stats.length = 3 := by
    have := congrArg List.length hc
    simpa using this
  refine ⟨stats, _, _, hrun, by simpa using hc, rfl, rfl, rfl, rfl, ?_, ?_, ?_⟩
  · exact counting_prgv_lt _ _ _ _ _ _ _ [0, 1] [0] rfl rfl rfl (by decide)
  · intro e fuel h stats1 reads1 hl
    exact heap_loop_untracked e _ _ _ _ _ rfl _ _ _ _ _ _ hl
  · rw [hlen]
    exact haplotype_list_one_read

/-- Best-combination assignment with `verbose` on. Let the kernel
`set_prob_matrix` read only the data of a read. When the loop over the combinations
of `powerset`, started on the reads `reads0`, and then the heap loop (not run for a
set of one variant) return `stats` and `reads`: the reads are the same reads, each
changed at most in `index`, `prgu`, `prgv` and `pout`; `prgv` of a read is at least
the value it had and at least its value (after the mixture with `pout`) under every
scored combination that the read crosses; if no such value is above the `prgv` the
read had (`-DBL_MAX` after `read_create`), `index` is unchanged; otherwise `index` is
the first scored combination whose value for the read is the largest. -/
theorem best_combination_tracked (e : environment ℝ) (o : options ℝ) (k : kernels ℝ)
    (var_data : List variant_t) (refseq : List Char) (refseq_length : Int)
    (combos : List (List Nat)) (fuel : Nat) (h : List (ℝ × Nat))
    (reads0 reads1 reads : List (read_t ℝ)) (stats0 stats : List (stats_t ℝ))
    (hv : o.verbose = true) (hk : reads_only_data k)
    (h1 : score_loop o k var_data refseq refseq_length combos [] reads0
      = .ok (stats0, reads1))
    (h2 : (stats, reads) = (stats0, reads1) ∨
      heap_loop e o k var_data refseq refseq_length fuel h stats0 reads1
        = .ok (stats, reads)) :
    reads.length = reads0.length ∧
    ∀ (p : Nat) (r0 r : read_t ℝ), reads0[p]? = some r0 → reads[p]? = some r →
      same_read r0 r ∧
      best_tracked
        (stats.map (fun s => combo_prgv o k var_data refseq refseq_length s.combo r0))
        r0.index r0.prgv r.index r.prgv ∧
      ((∀ (j : Nat) (v : ℝ), (stats.map (fun s =>
            combo_prgv o k var_data refseq refseq_length s.combo r0))[j]? = some (some v) →
          v ≤ r0.prgv) →
        r.index = r0.index) ∧
      ((∃ (j : Nat) (v : ℝ), (stats.map (fun s =>
            combo_prgv o k var_data refseq refseq_length s.combo r0))[j]? = some (some v) ∧
          r0.prgv < v) →
        (stats.map (fun s =>
            combo_prgv o k var_data refseq refseq_length s.combo r0))[r.index]?
          = some (some r.prgv) ∧
        (∀ (j : Nat) (v : ℝ), (stats.map (fun s =>
            combo_prgv o k var_data refseq refseq_length s.combo r0))[j]? = some (some v) →
          v ≤ r.prgv) ∧
        ∀ (j : Nat), j < r.index → ∀ (v : ℝ), (stats.map (fun s =>
            combo_prgv o k var_data refseq refseq_length s.combo r0))[j]? = some (some v) →
          v < r.prgv) := by
  have hs0 := (score_loop_tracked o k var_data refseq refseq_length reads0 hv hk combos []
    reads0 stats0 reads1 (tracked_state_start o k var_data refseq refseq_length reads0) h1).1
  have hs : tracked_state o k var_data refseq refseq_length reads0 stats reads := by
    rcases h2 with h2 | h2
    · simp only [Prod.mk.injEq] at h2
      rw [h2.1, h2.2]
      exact hs0
    · exact heap_loop_tracked e o k var_data refseq refseq_length reads0 hv hk fuel h stats0
        reads1 stats reads hs0 h2
  refine ⟨hs.1, ?_⟩
  intro p r0 r hp0 hp
  obtain ⟨hsame, hb⟩ := hs.2 p r0 r hp0 hp
  refine ⟨hsame, hb, ?_, ?_⟩
  · intro hall
    obtain ⟨_, h3, h4⟩ := hb
    rcases h4 with h4 | ⟨h4, h5, _⟩
    · exact h4.1
    · exact absurd (hall _ _ h4) (not_le.2 h5)
  · rintro ⟨j, v, hj, hlt⟩
    obtain ⟨h3, _, h4⟩ := hb
    rcases h4 with h4 | ⟨h4, h5, h6⟩
    · have := h3 j v hj
      rw [h4.2] at this
      exact absurd this (not_le.2 hlt)
    · exact ⟨h4, h3, h6⟩

/-- Instance of the assignment with `verbose` on: two variants under one read, the
combinations `[0, 1]`, `[0]`, `[1]`. -/
theorem best_combination_tracked_witness :
    ({ (main_options (1 / Real.log 10) : options ℝ) with verbose := true }).verbose = true ∧
    reads_only_data (counting_kernels : kernels ℝ) ∧
    ∃ stats reads,
      score_loop { (main_options (1 / Real.log 10) : options ℝ) with verbose := true }
        counting_kernels
        [⟨"chr1".toList, 1, "A".toList, "C".toList⟩, ⟨"chr1".toList, 3, "G".toList, "A".toList⟩]
        "ACGTACGTAC".toList 10 [[0, 1], [0], [1]] [] [plain_read 0] = .ok (stats, reads) ∧
      reads.length = 1 ∧
      ∀ (r : read_t ℝ), reads[0]? = some r →
        best_tracked
          (stats.map (fun s => combo_prgv
            { (main_options (1 / Real.log 10) : options ℝ) with verbose := true }
            counting_kernels
            [⟨"chr1".toList, 1, "A".toList, "C".toList⟩,
              ⟨"chr1".toList, 3, "G".toList, "A".toList⟩]
            "ACGTACGTAC".toList 10 s.combo (plain_read 0)))
          0 (-Double.DBL_MAX) r.index r.prgv :=
  ⟨rfl, fun _ _ _ _ _ _ _ _ => rfl,
    match score_loop_ok { (main_options (1 / Real.log 10) : options ℝ) with verbose := true }
      (counting_kernels : kernels ℝ)
      [⟨"chr1".toList, 1, "A".toList, "C".toList⟩, ⟨"chr1".toList, 3, "G".toList, "A".toList⟩]
      "ACGTACGTAC".toList 10 [[0, 1], [0], [1]] [] [plain_read 0]
      (by
        intro combo hc
        simp only [List.mem_cons, List.mem_singleton, List.not_mem_nil, or_false] at hc
        rcases hc with hc | hc | hc <;> subst hc
        · exact ⟨by decide, by decide, _, rfl⟩
        · exact ⟨by decide, by decide, _, rfl⟩
        · exact ⟨by decide, by decide, _, rfl⟩) with
    | ⟨(stats, reads), hrun⟩ =>
      ⟨stats, reads, hrun,
        (best_combination_tracked sample_environment _ counting_kernels _ _ _ _ 0 []
          [plain_read 0] reads reads stats stats rfl (fun _ _ _ _ _ _ _ _ => rfl) hrun
          (Or.inl rfl)).1,
        fun r hr => ((best_combination_tracked sample_environment _ counting_kernels _ _ _ _
          0 [] [plain_read 0] reads reads stats stats rfl (fun _ _ _ _ _ _ _ _ => rfl) hrun
          (Or.inl rfl)).2 0 (plain_read 0) r rfl hr).2.1⟩⟩

/-! ## The comparator `nat_sort_variant` -/

/-- C21. The comparator `nat_sort_variant`. For two variants whose chromosome names are
equal under `strcasecmp` it returns the sign of `pos1 - pos2`, which is 0 exactly when
the positions are equal; in the "C" locale it puts `chr2` before `chr10` (-1, and 1
for the swapped arguments). It does not return a non-zero value for every pair of
different names: the loop ends with `cmp = 0` as soon as one of the two names is used
up, so `chr1` and `chr1_random` compare equal (whatever the positions, in both
orders), and so do `chr1` and `chr01`, although `strcasecmp` tells the names apart. -/
theorem nat_sort_variant_equates_names :
    (∀ (lib : string_lib) (fuel : Nat) (c1 c2 : variant_t),
      lib.strcasecmp c1.chr c2.chr = 0 →
      nat_sort_variant lib fuel c1 c2 = .ok (sign_cmp c1.pos c2.pos) ∧
      (c1.pos < c2.pos → sign_cmp c1.pos c2.pos = -1) ∧
      (c1.pos = c2.pos → sign_cmp c1.pos c2.pos = 0) ∧
      (c1.pos > c2.pos → sign_cmp c1.pos c2.pos = 1)) ∧
    (nat_sort_variant c_locale 20 ⟨"chr2".toList, 7, "A".toList, "C".toList⟩
        ⟨"chr10".toList, 3, "A".toList, "C".toList⟩ = .ok (-1) ∧
      nat_sort_variant c_locale 20 ⟨"chr10".toList, 3, "A".toList, "C".toList⟩
        ⟨"chr2".toList, 7, "A".toList, "C".toList⟩ = .ok 1) ∧
    (c_locale.strcasecmp "chr1".toList "chr1_random".toList ≠ 0 ∧
      nat_sort_variant c_locale 20 ⟨"chr1".toList, 100, "A".toList, "C".toList⟩
        ⟨"chr1_random".toList, 5, "A".toList, "C".toList⟩ = .ok 0 ∧
      nat_sort_variant c_locale 20 ⟨"chr1_random".toList, 5, "A".toList, "C".toList⟩
        ⟨"chr1".toList, 100, "A".toList, "C".toList⟩ = .ok 0) ∧
    (c_locale.strcasecmp "chr1".toList "chr01".toList ≠ 0 ∧
      nat_sort_variant c_locale 20 ⟨"chr1".toList, 100, "A".toList, "C".toList⟩
        ⟨"chr01".toList, 5, "A".toList, "C".toList⟩ = .ok 0 ∧
      nat_sort_variant c_locale 20 ⟨"chr01".toList, 5, "A".toList, "C".toList⟩
        ⟨"chr1".toList, 100, "A".toList, "C".toList⟩ = .ok 0) := by
  refine ⟨?_, ⟨by decide, by decide⟩, ⟨by decide, by decide, by decide⟩,
    ⟨by decide, by decide, by decide⟩⟩
  intro lib fuel c1 c2 h
  refine ⟨by simp [nat_sort_variant, h], ?_, ?_, ?_⟩
  · intro hlt
    simp only [sign_cmp, gt_iff_lt, if_pos hlt, if_neg (not_lt.2 (le_of_lt hlt))]
    decide
  · intro heq
    simp [sign_cmp, heq]
  · intro hgt
    simp only [sign_cmp, gt_iff_lt, if_pos hgt, if_neg (not_lt.2 (le_of_lt hgt))]
    decide
end Eagle
